import Mathlib

/-!
# Verification of the JFFMonkeyLang front end (lexer + Pratt parser + AST)

Shallow embedding of the repository's Go sources:

* `src/lexer/lexer.go`  — the positional byte lexer (`Lexer`, `NextToken`, ...)
* `src/ast/ast.go`      — the AST node types and their `String()` printers
* `src/parser/parser.go`— the Pratt parser (final evolution snapshot)

Go byte strings are embedded as `List Nat` (one `Nat` per byte).  Fallible
Go code that returns `nil` is embedded with `Option`.  The internal loops
of the lexer and the mutually recursive parser functions are embedded with
an explicit fuel parameter (the Go code has no structural termination
argument); fuel sufficiency is proved where a claim needs it.

The token package (`token.go`) is not part of the given sources; it is
modelled from the spec (kinds from spec section 3, keyword table and the
uppercase kind names used in diagnostics from sections 4.1 and 6).
-/

namespace Monkey

/-! ## Byte-string helpers -/

/-- Convert a Lean string literal to the byte list used by the embedding
(all strings appearing in the claims are ASCII). -/
def str (s : String) : List Nat :=
  s.toList.map Char.toNat

/-- `extract s a b` embeds the Go slice `s[a:b]` (total: clamps out-of-range). -/
def extract (s : List Nat) (a b : Nat) : List Nat :=
  (s.drop a).take (b - a)

/-- Byte code of a character. -/
def chr (c : Char) : Nat := c.toNat

/-! ## Token model

Modelled from the spec: `token.go` is not under `src/`.  Token kinds are the
closed set of spec section 3; the string value of each kind (printed by `%s`
in diagnostics) is the uppercase kind name per spec section 6; the keyword
table is `fn let true false if else return` per spec section 4.1. -/

inductive TokenType where
  | ILLEGAL | EOF | IDENT | INT
  | ASSIGN | PLUS | MINUS | BANG | ASTERISK | SLASH
  | LT | GT | EQ | NOT_EQ
  | COMMA | SEMICOLON | LPAREN | RPAREN | LBRACE | RBRACE
  | FUNCTION | LET | TRUE | FALSE | IF | ELSE | RETURN
  deriving DecidableEq, Repr

/-- Modelled from the spec: the uppercase token-kind name, as printed by `%s`
in the diagnostics of spec section 6. -/
def typeName : TokenType → List Nat
  | .ILLEGAL => str "ILLEGAL"
  | .EOF => str "EOF"
  | .IDENT => str "IDENT"
  | .INT => str "INT"
  | .ASSIGN => str "ASSIGN"
  | .PLUS => str "PLUS"
  | .MINUS => str "MINUS"
  | .BANG => str "BANG"
  | .ASTERISK => str "ASTERISK"
  | .SLASH => str "SLASH"
  | .LT => str "LT"
  | .GT => str "GT"
  | .EQ => str "EQ"
  | .NOT_EQ => str "NOT_EQ"
  | .COMMA => str "COMMA"
  | .SEMICOLON => str "SEMICOLON"
  | .LPAREN => str "LPAREN"
  | .RPAREN => str "RPAREN"
  | .LBRACE => str "LBRACE"
  | .RBRACE => str "RBRACE"
  | .FUNCTION => str "FUNCTION"
  | .LET => str "LET"
  | .TRUE => str "TRUE"
  | .FALSE => str "FALSE"
  | .IF => str "IF"
  | .ELSE => str "ELSE"
  | .RETURN => str "RETURN"

/-- A token: kind plus the exact literal bytes (`token.Token`). -/
structure Token where
  type : TokenType
  literal : List Nat
  deriving DecidableEq, Repr

/-- The token `{EOF, ""}`. -/
def eofToken : Token := ⟨.EOF, []⟩

/-- Modelled from the spec: `token.LookupIdent`, the keyword table of
spec section 4.1. -/
def lookupIdent (s : List Nat) : TokenType :=
  if s = str "fn" then .FUNCTION
  else if s = str "let" then .LET
  else if s = str "true" then .TRUE
  else if s = str "false" then .FALSE
  else if s = str "if" then .IF
  else if s = str "else" then .ELSE
  else if s = str "return" then .RETURN
  else .IDENT

/-! ## Lexer (`src/lexer/lexer.go`) -/

/-- `isLetter`: `a-z`, `A-Z`, `_` (lexer.go). -/
def isLetter (c : Nat) : Bool :=
  (decide (97 ≤ c) && decide (c ≤ 122)) ||
  (decide (65 ≤ c) && decide (c ≤ 90)) ||
  decide (c = 95)

/-- `isDigit`: `0-9` (lexer.go). -/
def isDigit (c : Nat) : Bool :=
  decide (48 ≤ c) && decide (c ≤ 57)

/-- The whitespace bytes skipped by `skipWhitespace`: space, tab, newline,
carriage return. -/
def isWhitespaceByte (c : Nat) : Bool :=
  decide (c = 32) || decide (c = 9) || decide (c = 10) || decide (c = 13)

/-- Lexer state (`type Lexer struct`): the input, the index of the current
byte (`position`), the index of the next byte (`readPosition`), and the
current byte (`ch`, `0` at end of input). -/
structure Lexer where
  input : List Nat
  position : Nat
  readPosition : Nat
  ch : Nat
  deriving Repr

/-- `readChar`: advance one byte; `ch` becomes `0` past the end of input. -/
def Lexer.readChar (l : Lexer) : Lexer :=
  { l with
    ch := if l.readPosition ≥ l.input.length then 0 else l.input.getD l.readPosition 0
    position := l.readPosition
    readPosition := l.readPosition + 1 }

/-- `peekChar`: the next byte without advancing (`0` past the end). -/
def Lexer.peekChar (l : Lexer) : Nat :=
  if l.readPosition ≥ l.input.length then 0 else l.input.getD l.readPosition 0

/-- `New`: construct a lexer and advance once so `ch`/`position` are valid. -/
def Lexer.new (input : List Nat) : Lexer :=
  Lexer.readChar { input := input, position := 0, readPosition := 0, ch := 0 }

/-- The loop of `skipWhitespace`, with explicit fuel.  On the states reachable
from `Lexer.new` the fuel `l.input.length + 1` always suffices (each
`readChar` moves `position` forward and whitespace only occurs before the
end of input). -/
def skipWhitespaceFuel : Nat → Lexer → Lexer
  | 0, l => l
  | n + 1, l => if isWhitespaceByte l.ch then skipWhitespaceFuel n l.readChar else l

/-- `skipWhitespace` (lexer.go). -/
def Lexer.skipWhitespace (l : Lexer) : Lexer :=
  skipWhitespaceFuel (l.input.length + 1) l

/-- The loop of `readIdentifier`/`readNumber`: advance while `p` holds of
`ch`, with explicit fuel. -/
def readWhileFuel (p : Nat → Bool) : Nat → Lexer → Lexer
  | 0, l => l
  | n + 1, l => if p l.ch then readWhileFuel p n l.readChar else l

/-- `readIdentifier`: read the maximal letter run and return the slice
`input[position:position']` together with the advanced state. -/
def Lexer.readIdentifier (l : Lexer) : List Nat × Lexer :=
  let l' := readWhileFuel isLetter (l.input.length + 1) l
  (extract l.input l.position l'.position, l')

/-- `readNumber`: read the maximal digit run and return the slice together
with the advanced state. -/
def Lexer.readNumber (l : Lexer) : List Nat × Lexer :=
  let l' := readWhileFuel isDigit (l.input.length + 1) l
  (extract l.input l.position l'.position, l')

/-- Go's `string(ch)` on a byte: the integer-to-string conversion yields
the UTF-8 encoding of the code point, so bytes `0x80`-`0xFF` become the
two-byte sequence `[0xC0 + ch / 64, 0x80 + ch % 64]` (e.g. byte `200`
becomes `[195, 136]`), while ASCII bytes stay a single byte. -/
def byteString (c : Nat) : List Nat :=
  if c < 128 then [c] else [192 + c / 64, 128 + c % 64]

/-- `newToken`: a token whose literal is `string(ch)`. -/
def newToken (t : TokenType) (c : Nat) : Token := ⟨t, byteString c⟩

/-- The dispatch of `NextToken` after the whitespace skip: switch on the
current byte and return the token together with the advanced lexer
state. -/
def nextTokenBody (l : Lexer) : Token × Lexer :=
  if l.ch = chr '=' then
    if l.peekChar = chr '=' then
      let l := l.readChar
      (⟨.EQ, str "=="⟩, l.readChar)
    else (newToken .ASSIGN l.ch, l.readChar)
  else if l.ch = chr '!' then
    if l.peekChar = chr '=' then
      let l := l.readChar
      (⟨.NOT_EQ, str "!="⟩, l.readChar)
    else (newToken .BANG l.ch, l.readChar)
  else if l.ch = chr '+' then (newToken .PLUS l.ch, l.readChar)
  else if l.ch = chr '-' then (newToken .MINUS l.ch, l.readChar)
  else if l.ch = chr '*' then (newToken .ASTERISK l.ch, l.readChar)
  else if l.ch = chr '/' then (newToken .SLASH l.ch, l.readChar)
  else if l.ch = chr '<' then (newToken .LT l.ch, l.readChar)
  else if l.ch = chr '>' then (newToken .GT l.ch, l.readChar)
  else if l.ch = chr '(' then (newToken .LPAREN l.ch, l.readChar)
  else if l.ch = chr ')' then (newToken .RPAREN l.ch, l.readChar)
  else if l.ch = 123 then (newToken .LBRACE l.ch, l.readChar)
  else if l.ch = 125 then (newToken .RBRACE l.ch, l.readChar)
  else if l.ch = chr ',' then (newToken .COMMA l.ch, l.readChar)
  else if l.ch = chr ';' then (newToken .SEMICOLON l.ch, l.readChar)
  else if l.ch = 0 then (eofToken, l.readChar)
  else if isLetter l.ch then
    let (lit, l') := l.readIdentifier
    (⟨lookupIdent lit, lit⟩, l')
  else if isDigit l.ch then
    let (lit, l') := l.readNumber
    (⟨.INT, lit⟩, l')
  else (newToken .ILLEGAL l.ch, l.readChar)

/-- `NextToken` (lexer.go): skip whitespace, then dispatch on the current
byte. -/
def Lexer.nextToken (l0 : Lexer) : Token × Lexer :=
  nextTokenBody l0.skipWhitespace

/-- The lexer state after `n` calls of `NextToken` on a fresh lexer. -/
def lexIter (input : List Nat) : Nat → Lexer
  | 0 => Lexer.new input
  | n + 1 => (lexIter input n).nextToken.2

/-- The `n`-th token (0-based) produced by successive `NextToken` calls. -/
def nthToken (input : List Nat) (n : Nat) : Token :=
  (lexIter input n).nextToken.1

/-- Collect tokens until the lexer has passed the end of its input.
Interior `EOF` tokens (from NUL bytes inside the input) are kept; the
steady trailing stream of `EOF` tokens is not materialised (the parser
pads with `eofToken`, which is exactly what the real lexer keeps
returning once `position ≥ length`). -/
def tokenizeFuel : Nat → Lexer → List Token
  | 0, _ => []
  | n + 1, l =>
    if l.position ≥ l.input.length then []
    else
      let (t, l') := l.nextToken
      t :: tokenizeFuel n l'

/-- The token stream of an input. -/
def tokenize (input : List Nat) : List Token :=
  tokenizeFuel (input.length + 1) (Lexer.new input)

/-! ## AST (`src/ast/ast.go`)

Go represents possibly-`nil` interface/pointer references (`ast.Expression`,
`*ast.BlockStatement`, `[]ast.Expression`).  Those recursive references are
embedded as the mutual wrapper types `OExpr`, `OBlock`, `OExprList`
(constructor `nil` = Go `nil`), and Go slices of recursive nodes as the
spine lists `ExprList`, `StmtList`, so that all recursion over the AST is
plain structural recursion. -/

/-- `ast.Identifier` (also used for `LetStatement.Name` and function
parameters, which Go types as `*ast.Identifier`). -/
structure Ident where
  tok : Token
  value : List Nat
  deriving DecidableEq, Repr

mutual
/-- A possibly-`nil` `ast.Expression` reference. -/
inductive OExpr where
  | nil
  | val (e : Expr)
/-- The `ast.Expression` variants. -/
inductive Expr where
  | identifier (tok : Token) (value : List Nat)
  | integerLiteral (tok : Token) (value : Int)
  | booleanLiteral (tok : Token) (value : Bool)
  | prefixExpression (tok : Token) (operator : List Nat) (right : OExpr)
  | infixExpression (tok : Token) (left : OExpr) (operator : List Nat) (right : OExpr)
  | ifExpression (tok : Token) (condition : OExpr) (consequence : OBlock) (alternative : OBlock)
  | functionLiteral (tok : Token) (parameters : Option (List Ident)) (body : OBlock)
  | callExpression (tok : Token) (function : OExpr) (arguments : OExprList)
/-- A possibly-`nil` `[]ast.Expression` slice (`CallExpression.Arguments`). -/
inductive OExprList where
  | nil
  | val (es : ExprList)
/-- The spine of a `[]ast.Expression` slice; elements may be `nil`. -/
inductive ExprList where
  | nil
  | cons (head : OExpr) (tail : ExprList)
/-- A possibly-`nil` `*ast.BlockStatement` reference. -/
inductive OBlock where
  | nil
  | val (b : Block)
/-- `ast.BlockStatement`. -/
inductive Block where
  | mk (tok : Token) (statements : StmtList)
/-- The spine of a `[]ast.Statement` slice. -/
inductive StmtList where
  | nil
  | cons (head : Stmt) (tail : StmtList)
/-- The `ast.Statement` variants produced by the parser. -/
inductive Stmt where
  | letStatement (tok : Token) (name : Option Ident) (value : OExpr)
  | returnStatement (tok : Token) (returnValue : OExpr)
  | expressionStatement (tok : Token) (expression : OExpr)
end

/-- Append a statement at the end of a statement list (`append` on the
Go slice). -/
def StmtList.snoc : StmtList → Stmt → StmtList
  | .nil, st => .cons st .nil
  | .cons s rest, st => .cons s (rest.snoc st)

/-- Append an expression at the end of an argument list. -/
def ExprList.snoc : ExprList → OExpr → ExprList
  | .nil, e => .cons e .nil
  | .cons a rest, e => .cons a (rest.snoc e)

/-- Number of statements in a statement list. -/
def StmtList.length : StmtList → Nat
  | .nil => 0
  | .cons _ rest => rest.length + 1

/-- `ast.Program` is a list of statements (`Program.Statements`). -/
abbrev Program := StmtList

/-! ### Pretty-printer (the `String()` methods of ast.go)

The Go printers dereference child pointers without `nil` checks
(`pe.Right.String()`, `ie.Left.String()`, `ie.Condition.String()`,
`ie.Consequence.String()`, `ls.Name.String()`, `fl.Body.String()`,
`ce.Function.String()`, and each call argument).  A `nil` dereference
panics in Go; the embedding returns `none` there.  `nil` slices iterate
as empty, and `LetStatement.Value` / `ReturnStatement.ReturnValue` /
`ExpressionStatement.Expression` are `nil`-checked in the source, so those
produce output, not `none`. -/

/-- `strings.Join(params, ", ")` over parameter names. -/
def paramsJoin : List Ident → List Nat
  | [] => []
  | [i] => i.value
  | i :: rest => i.value ++ str ", " ++ paramsJoin rest

mutual
/-- `Expression.String()`; `none` models the Go panic on a `nil` child. -/
def exprString : Expr → Option (List Nat)
  | .identifier _ v => some v
  | .integerLiteral tok _ => some tok.literal
  | .booleanLiteral tok _ => some tok.literal
  | .prefixExpression _ op r =>
    match r with
    | .nil => none
    | .val r =>
      match exprString r with
      | none => none
      | some rs => some (str "(" ++ op ++ rs ++ str ")")
  | .infixExpression _ lft op r =>
    match lft, r with
    | .val lft, .val r =>
      match exprString lft, exprString r with
      | some ls, some rs => some (str "(" ++ ls ++ str " " ++ op ++ str " " ++ rs ++ str ")")
      | _, _ => none
    | _, _ => none
  | .ifExpression _ c cons alt =>
    match c, cons with
    | .val c, .val cons =>
      match exprString c, blockString cons with
      | some cs, some conss =>
        match alt with
        | .nil => some (str "if" ++ cs ++ str " " ++ conss)
        | .val alt =>
          match blockString alt with
          | none => none
          | some alts => some (str "if" ++ cs ++ str " " ++ conss ++ str "else " ++ alts)
      | _, _ => none
    | _, _ => none
  | .functionLiteral tok ps b =>
    match b with
    | .nil => none
    | .val b =>
      match blockString b with
      | none => none
      | some bs => some (tok.literal ++ str "(" ++ paramsJoin (ps.getD []) ++ str ") " ++ bs)
  | .callExpression _ f args =>
    match f with
    | .nil => none
    | .val f =>
      match exprString f, argsJoin args with
      | some fs, some argss => some (fs ++ str "(" ++ argss ++ str ")")
      | _, _ => none

/-- `strings.Join(args, ", ")` over printed arguments; a `nil` slice prints
as empty, a `nil` element panics (`none`). -/
def argsJoin : OExprList → Option (List Nat)
  | .nil => some []
  | .val es => argsJoinList es

def argsJoinList : ExprList → Option (List Nat)
  | .nil => some []
  | .cons a .nil =>
    (match a with
     | .nil => none
     | .val a => exprString a)
  | .cons a rest =>
    match a with
    | .nil => none
    | .val a =>
      match exprString a, argsJoinList rest with
      | some s, some rs => some (s ++ str ", " ++ rs)
      | _, _ => none

/-- `BlockStatement.String()`: concatenation of child strings. -/
def blockString : Block → Option (List Nat)
  | .mk _ stmts => stmtsString stmts

/-- `Program.String()` / block body: concatenation, no separator. -/
def stmtsString : StmtList → Option (List Nat)
  | .nil => some []
  | .cons s rest =>
    match stmtString s, stmtsString rest with
    | some ss, some rs => some (ss ++ rs)
    | _, _ => none

/-- `Statement.String()`. -/
def stmtString : Stmt → Option (List Nat)
  | .letStatement tok name v =>
    match name with
    | none => none
    | some name =>
      match v with
      | .nil => some (tok.literal ++ str " " ++ name.value ++ str " = " ++ str ";")
      | .val v =>
        match exprString v with
        | none => none
        | some vs => some (tok.literal ++ str " " ++ name.value ++ str " = " ++ vs ++ str ";")
  | .returnStatement tok v =>
    match v with
    | .nil => some (tok.literal ++ str " " ++ str ";")
    | .val v =>
      match exprString v with
      | none => none
      | some vs => some (tok.literal ++ str " " ++ vs ++ str ";")
  | .expressionStatement _ e =>
    match e with
    | .nil => some []
    | .val e => exprString e
end

/-- `Program.String()`. -/
def progString (p : Program) : Option (List Nat) :=
  stmtsString p

/-! ## Parser (`src/parser/parser.go`, final snapshot)

The parser is embedded over the token stream `tokenize input`:
`curToken` is the head of the remaining stream and `peekToken` the next
element, with `eofToken` as padding — exactly what the real lexer returns
once `position ≥ length` (it keeps producing `{EOF, ""}`).  Interior `EOF`
tokens (NUL bytes) are materialised in the stream, so the two-token window
of the Go parser is reproduced faithfully.

Mutually recursive parse functions carry an explicit fuel parameter
(`none` = fuel exhausted); fuel sufficiency is proved for the bound
`parseFuel`.  The extra `w : Bool` parameter selects between the source's
`parseReturnStatement` semicolon `while`-loop (`w = true`, the code as
written) and the single-`if` variant considered by the spec's known-quirk
note (`w = false`); it is used only at that one spot. -/

/-- The precedence constants (`iota` block of parser.go). -/
def LOWEST : Nat := 1
def EQUALS : Nat := 2
def LESSGREATER : Nat := 3
def SUM : Nat := 4
def PRODUCT : Nat := 5
def PREFIX : Nat := 6
def CALL : Nat := 7

/-- The `precedences` map; unregistered kinds default to `LOWEST`
(`peekPrecedence`/`curPrecedence`). -/
def precedenceOf : TokenType → Nat
  | .EQ => EQUALS
  | .NOT_EQ => EQUALS
  | .LT => LESSGREATER
  | .GT => LESSGREATER
  | .PLUS => SUM
  | .MINUS => SUM
  | .SLASH => PRODUCT
  | .ASTERISK => PRODUCT
  | .LPAREN => CALL
  | _ => LOWEST

/-- The kinds with a registered prefix parse function (`registerPrefix`
calls in `New`). -/
def hasPrefixFn : TokenType → Bool
  | .IDENT | .INT | .BANG | .MINUS | .TRUE | .FALSE | .LPAREN | .IF | .FUNCTION => true
  | _ => false

/-- The kinds with a registered infix parse function (`registerInfix`
calls in `New`). -/
def hasInfixFn : TokenType → Bool
  | .PLUS | .MINUS | .SLASH | .ASTERISK | .EQ | .NOT_EQ | .LT | .GT | .LPAREN => true
  | _ => false

/-- `peekError`: `expected next token to be <KIND>, got <KIND> instead`. -/
def expectedMsg (t got : TokenType) : List Nat :=
  str "expected next token to be " ++ typeName t ++ str ", got " ++ typeName got ++ str " instead"

/-- `noPrefixParseFnError`: `no prefix parse function for <KIND> found`. -/
def noPrefixMsg (t : TokenType) : List Nat :=
  str "no prefix parse function for " ++ typeName t ++ str " found"

/-- `could not parse %q as integer` (`%q` wraps the literal in quotes;
the lexer's INT literals are digit runs, so no escaping occurs). -/
def couldNotParseMsg (lit : List Nat) : List Nat :=
  str "could not parse " ++ [34] ++ lit ++ [34] ++ str " as integer"

/-- Maximum value of a signed 64-bit integer. -/
def int64Max : Nat := 9223372036854775807

/-- `strconv.ParseInt(literal, 0, 64)` restricted to the literals the lexer
can produce for `INT` tokens: nonempty runs of ASCII digits (no sign, no
`0x`/`0b`/`0o` prefix is possible, since a letter ends the digit run).
Base 0 means: a literal starting with `0` of length > 1 is octal (each
digit must be `0`-`7`), otherwise decimal; values above `int64Max`
overflow.  Failure (`none`) covers any non-digit-run argument as well. -/
def parseIntBase0 (s : List Nat) : Option Int :=
  if s = [] then none
  else if ¬ (s.all isDigit) then none
  else if s.headD 0 = 48 ∧ s.length > 1 then
    if s.all (fun c => decide (c ≤ 55)) then
      let v := s.foldl (fun acc c => acc * 8 + (c - 48)) 0
      if v ≤ int64Max then some (Int.ofNat v) else none
    else none
  else
    let v := s.foldl (fun acc c => acc * 10 + (c - 48)) 0
    if v ≤ int64Max then some (Int.ofNat v) else none

/-- Parser state: the remaining token stream (head = `curToken`) and the
accumulated `errors`. -/
structure PState where
  ts : List Token
  errors : List (List Nat)
  deriving DecidableEq, Repr

/-- `p.curToken`. -/
def PState.cur (s : PState) : Token := s.ts.headD eofToken

/-- `p.peekToken`. -/
def PState.peek (s : PState) : Token := (s.ts.drop 1).headD eofToken

/-- `p.nextToken()`. -/
def PState.next (s : PState) : PState := { s with ts := s.ts.drop 1 }

/-- Append an error message. -/
def PState.pushError (s : PState) (m : List Nat) : PState :=
  { s with errors := s.errors ++ [m] }

/-- `expectPeek`: advance on match, record `peekError` otherwise. -/
def expectPeek (t : TokenType) (s : PState) : Bool × PState :=
  if s.peek.type = t then (true, s.next)
  else (false, s.pushError (expectedMsg t s.peek.type))

/-- `parseIdentifier` (pure). -/
def parseIdentifier (s : PState) : OExpr × PState :=
  (.val (.identifier s.cur s.cur.literal), s)

/-- `parseBoolean` (pure). -/
def parseBoolean (s : PState) : OExpr × PState :=
  (.val (.booleanLiteral s.cur (s.cur.type = .TRUE)), s)

/-- `parseIntegerLiteral` (pure): on `ParseInt` failure, record the error
and return `nil`. -/
def parseIntegerLiteral (s : PState) : OExpr × PState :=
  match parseIntBase0 s.cur.literal with
  | some v => (.val (.integerLiteral s.cur v), s)
  | none => (.nil, s.pushError (couldNotParseMsg s.cur.literal))

/-- The trailing-semicolon `while`-loop of `parseReturnStatement`. -/
def returnSemiLoop : Nat → PState → Option PState
  | 0, _ => none
  | n + 1, s => if s.peek.type = .SEMICOLON then returnSemiLoop n s.next else some s

/-- The `while peekTokenIs(COMMA)` loop of `parseFunctionParameters`:
advance twice and capture the identifier each iteration. -/
def paramLoop : Nat → List Ident → PState → Option (List Ident × PState)
  | 0, _, _ => none
  | n + 1, acc, s =>
    if s.peek.type = .COMMA then
      paramLoop n (acc ++ [⟨s.next.next.cur, s.next.next.cur.literal⟩]) s.next.next
    else some (acc, s)

mutual

/-- `parseExpression` (the Pratt core): prefix dispatch then the infix
loop.  A missing prefix handler records `noPrefixParseFnError` and yields
`nil`. -/
def parseExpression (w : Bool) : Nat → Nat → PState → Option (OExpr × PState)
  | 0, _, _ => none
  | n + 1, prec, s =>
    if hasPrefixFn s.cur.type then
      match runPrefixFn w n s with
      | none => none
      | some (leftE, s1) => infixLoop w n prec leftE s1
    else some (.nil, s.pushError (noPrefixMsg s.cur.type))

/-- Dispatch to the registered prefix handler for `curToken.Type`
(the `prefixParseFns` map lookup). -/
def runPrefixFn (w : Bool) : Nat → PState → Option (OExpr × PState)
  | 0, _ => none
  | n + 1, s =>
    match s.cur.type with
    | .IDENT => some (parseIdentifier s)
    | .INT => some (parseIntegerLiteral s)
    | .BANG => parsePrefixExpression w n s
    | .MINUS => parsePrefixExpression w n s
    | .TRUE => some (parseBoolean s)
    | .FALSE => some (parseBoolean s)
    | .LPAREN => parseGroupedExpression w n s
    | .IF => parseIfExpression w n s
    | .FUNCTION => parseFunctionLiteral w n s
    | _ => some (.nil, s)

/-- The `for !peekTokenIs(SEMICOLON) && precedence < peekPrecedence` loop
of `parseExpression`: advance and apply the infix handler, or stop if none
is registered. -/
def infixLoop (w : Bool) : Nat → Nat → OExpr → PState → Option (OExpr × PState)
  | 0, _, _, _ => none
  | n + 1, prec, leftE, s =>
    if s.peek.type ≠ .SEMICOLON ∧ prec < precedenceOf s.peek.type then
      if hasInfixFn s.peek.type then
        if s.peek.type = .LPAREN then
          match parseCallExpression w n leftE s.next with
          | none => none
          | some (e, s2) => infixLoop w n prec e s2
        else
          match parseInfixExpression w n leftE s.next with
          | none => none
          | some (e, s2) => infixLoop w n prec e s2
      else some (leftE, s)
    else some (leftE, s)

/-- `parsePrefixExpression`: capture the operator, advance, parse the
right-hand side at `PREFIX`. -/
def parsePrefixExpression (w : Bool) : Nat → PState → Option (OExpr × PState)
  | 0, _ => none
  | n + 1, s =>
    match parseExpression w n PREFIX s.next with
    | none => none
    | some (r, s1) => some (.val (.prefixExpression s.cur s.cur.literal r), s1)

/-- `parseInfixExpression`: capture the operator and its precedence,
advance, parse the right-hand side at that precedence. -/
def parseInfixExpression (w : Bool) : Nat → OExpr → PState → Option (OExpr × PState)
  | 0, _, _ => none
  | n + 1, leftE, s =>
    match parseExpression w n (precedenceOf s.cur.type) s.next with
    | none => none
    | some (r, s1) => some (.val (.infixExpression s.cur leftE s.cur.literal r), s1)

/-- `parseGroupedExpression`: advance past `(`, parse at `LOWEST`,
require `)` (else `nil`). -/
def parseGroupedExpression (w : Bool) : Nat → PState → Option (OExpr × PState)
  | 0, _ => none
  | n + 1, s =>
    match parseExpression w n LOWEST s.next with
    | none => none
    | some (e, s1) =>
      match expectPeek .RPAREN s1 with
      | (true, s2) => some (e, s2)
      | (false, s2) => some (.nil, s2)

/-- `parseIfExpression`. -/
def parseIfExpression (w : Bool) : Nat → PState → Option (OExpr × PState)
  | 0, _ => none
  | n + 1, s =>
    match expectPeek .LPAREN s with
    | (false, s1) => some (.nil, s1)
    | (true, s1) =>
      match parseExpression w n LOWEST s1.next with
      | none => none
      | some (cond, s2) =>
        match expectPeek .RPAREN s2 with
        | (false, s3) => some (.nil, s3)
        | (true, s3) =>
          match expectPeek .LBRACE s3 with
          | (false, s4) => some (.nil, s4)
          | (true, s4) =>
            match parseBlockStatement w n s4 with
            | none => none
            | some (cons, s5) =>
              if s5.peek.type = .ELSE then
                match expectPeek .LBRACE s5.next with
                | (false, s7) => some (.nil, s7)
                | (true, s7) =>
                  match parseBlockStatement w n s7 with
                  | none => none
                  | some (alt, s8) =>
                    some (.val (.ifExpression s.cur cond (.val cons) (.val alt)), s8)
              else some (.val (.ifExpression s.cur cond (.val cons) .nil), s5)

/-- `parseBlockStatement`: advance past `{`, collect statements until
`}` or `EOF` (never returns `nil`). -/
def parseBlockStatement (w : Bool) : Nat → PState → Option (Block × PState)
  | 0, _ => none
  | n + 1, s =>
    match blockLoop w n .nil s.next with
    | none => none
    | some (stmts, s1) => some (Block.mk s.cur stmts, s1)

/-- The statement loop of `parseBlockStatement`. -/
def blockLoop (w : Bool) : Nat → StmtList → PState → Option (StmtList × PState)
  | 0, _, _ => none
  | n + 1, acc, s =>
    if s.cur.type = .RBRACE ∨ s.cur.type = .EOF then some (acc, s)
    else
      match parseStatement w n s with
      | none => none
      | some (none, s1) => blockLoop w n acc s1.next
      | some (some st, s1) => blockLoop w n (acc.snoc st) s1.next

/-- `parseStatement`: dispatch on `curToken.Type`. -/
def parseStatement (w : Bool) : Nat → PState → Option (Option Stmt × PState)
  | 0, _ => none
  | n + 1, s =>
    match s.cur.type with
    | .LET => parseLetStatement w n s
    | .RETURN => parseReturnStatement w n s
    | _ => parseExpressionStatement w n s

/-- `parseLetStatement`: `let <IDENT> = <expr> [;]`; a failed `expectPeek`
yields `nil` (the statement is dropped). -/
def parseLetStatement (w : Bool) : Nat → PState → Option (Option Stmt × PState)
  | 0, _ => none
  | n + 1, s =>
    match expectPeek .IDENT s with
    | (false, s1) => some (none, s1)
    | (true, s1) =>
      match expectPeek .ASSIGN s1 with
      | (false, s2) => some (none, s2)
      | (true, s2) =>
        match parseExpression w n LOWEST s2.next with
        | none => none
        | some (v, s3) =>
          some (some (.letStatement s.cur (some ⟨s1.cur, s1.cur.literal⟩) v),
            if s3.peek.type = .SEMICOLON then s3.next else s3)

/-- `parseReturnStatement`: `return <expr>` then the trailing-semicolon
loop (`w = true`: the source's `while`; `w = false`: the single-`if`
variant of the spec's known-quirk note). -/
def parseReturnStatement (w : Bool) : Nat → PState → Option (Option Stmt × PState)
  | 0, _ => none
  | n + 1, s =>
    match parseExpression w n LOWEST s.next with
    | none => none
    | some (v, s1) =>
      match (if w then returnSemiLoop (n + 1) s1
             else some (if s1.peek.type = .SEMICOLON then s1.next else s1)) with
      | none => none
      | some s2 => some (some (.returnStatement s.cur v), s2)

/-- `parseExpressionStatement`: parse at `LOWEST`, optionally consume one
trailing `;`. -/
def parseExpressionStatement (w : Bool) : Nat → PState → Option (Option Stmt × PState)
  | 0, _ => none
  | n + 1, s =>
    match parseExpression w n LOWEST s with
    | none => none
    | some (e, s1) =>
      some (some (.expressionStatement s.cur e),
        if s1.peek.type = .SEMICOLON then s1.next else s1)

/-- `parseFunctionLiteral`: `fn (params) { body }`. -/
def parseFunctionLiteral (w : Bool) : Nat → PState → Option (OExpr × PState)
  | 0, _ => none
  | n + 1, s =>
    match expectPeek .LPAREN s with
    | (false, s1) => some (.nil, s1)
    | (true, s1) =>
      match parseFunctionParameters w n s1 with
      | none => none
      | some (ps, s2) =>
        match expectPeek .LBRACE s2 with
        | (false, s3) => some (.nil, s3)
        | (true, s3) =>
          match parseBlockStatement w n s3 with
          | none => none
          | some (b, s4) => some (.val (.functionLiteral s.cur ps (.val b)), s4)

/-- `parseFunctionParameters`: captures `curToken` as an identifier with no
kind check; a failed closing-`)` check returns a `nil` slice. -/
def parseFunctionParameters (_w : Bool) : Nat → PState → Option (Option (List Ident) × PState)
  | 0, _ => none
  | n + 1, s =>
    if s.peek.type = .RPAREN then some (some [], s.next)
    else
      match paramLoop (n + 1) [⟨s.next.cur, s.next.cur.literal⟩] s.next with
      | none => none
      | some (ids, s2) =>
        match expectPeek .RPAREN s2 with
        | (false, s3) => some (none, s3)
        | (true, s3) => some (some ids, s3)

/-- `parseCallExpression` (the infix handler registered for `LPAREN`). -/
def parseCallExpression (w : Bool) : Nat → OExpr → PState → Option (OExpr × PState)
  | 0, _, _ => none
  | n + 1, leftE, s =>
    match parseCallArguments w n s with
    | none => none
    | some (args, s1) => some (.val (.callExpression s.cur leftE args), s1)

/-- `parseCallArguments`: comma-separated `parseExpression(LOWEST)` slots;
a failed closing-`)` check returns a `nil` slice. -/
def parseCallArguments (w : Bool) : Nat → PState → Option (OExprList × PState)
  | 0, _ => none
  | n + 1, s =>
    if s.peek.type = .RPAREN then some (.val .nil, s.next)
    else
      match parseExpression w n LOWEST s.next with
      | none => none
      | some (a, s1) =>
        match argLoop w n (ExprList.cons a .nil) s1 with
        | none => none
        | some (args, s2) =>
          match expectPeek .RPAREN s2 with
          | (false, s3) => some (.nil, s3)
          | (true, s3) => some (.val args, s3)

/-- The `while peekTokenIs(COMMA)` loop of `parseCallArguments`. -/
def argLoop (w : Bool) : Nat → ExprList → PState → Option (ExprList × PState)
  | 0, _, _ => none
  | n + 1, acc, s =>
    if s.peek.type = .COMMA then
      match parseExpression w n LOWEST s.next.next with
      | none => none
      | some (a, s1) => argLoop w n (acc.snoc a) s1
    else some (acc, s)

/-- The driver loop of `ParseProgram`: while `curToken ≠ EOF`, parse a
statement, append it if non-`nil`, advance. -/
def programLoop (w : Bool) : Nat → StmtList → PState → Option (StmtList × PState)
  | 0, _, _ => none
  | n + 1, acc, s =>
    if s.cur.type = .EOF then some (acc, s)
    else
      match parseStatement w n s with
      | none => none
      | some (none, s1) => programLoop w n acc s1.next
      | some (some st, s1) => programLoop w n (acc.snoc st) s1.next

end

/-- Fuel that provably suffices for the whole parse of a token stream. -/
def parseFuel (ts : List Token) : Nat := 8 * ts.length + 8

/-- `ParseProgram` + `Errors()`: parse the token stream of `input`, giving
the program and the accumulated error list.  (The fuel-exhaustion fallback
is unreachable: see the fuel-sufficiency theorem.) -/
def parseWith (w : Bool) (input : List Nat) : Program × List (List Nat) :=
  let ts := tokenize input
  match programLoop w (parseFuel ts) .nil ⟨ts, []⟩ with
  | some (prog, s) => (prog, s.errors)
  | none => (.nil, [])

/-- The parser as written (semicolon `while`-loop in `parseReturnStatement`). -/
def ParseProgram (input : List Nat) : Program × List (List Nat) :=
  parseWith true input

/-- The single-`if` variant of `parseReturnStatement` (claim C7). -/
def ParseProgramIfVariant (input : List Nat) : Program × List (List Nat) :=
  parseWith false input

/-! ## Inspectors used by the claim statements -/

/-- Whether a statement list contains an `ExpressionStatement` with an
absent (`nil`) expression. -/
def hasAbsentStmts : StmtList → Bool
  | .nil => false
  | .cons (.expressionStatement _ .nil) _ => true
  | .cons _ rest => hasAbsentStmts rest

/-- Whether the program's first statement is an if-expression statement
whose consequence block contains an `ExpressionStatement` with an absent
expression (an absence nested below top level). -/
def nestedAbsentInIf : Program → Bool
  | .cons (.expressionStatement _ (.val (.ifExpression _ _ (.val (.mk _ bs)) _))) _ =>
    hasAbsentStmts bs
  | _ => false

/-- The parameter names of the program's first statement, when it is a
function-literal expression statement. -/
def firstFnParams : Program → Option (List (List Nat))
  | .cons (.expressionStatement _ (.val (.functionLiteral _ (some ps) _))) _ =>
    some (ps.map Ident.value)
  | _ => none

/-- Drop all parenthesis bytes: two byte strings equal "up to redundant
parenthesization" must agree after this. -/
def parenStrip (s : List Nat) : List Nat :=
  s.filter (fun c => decide (c ≠ 40) && decide (c ≠ 41))

/-! ## Claim theorems: concrete behaviours -/

set_option maxRecDepth 100000

/-- C2: `ParseProgram` on `1 + 2 + 3` yields `((1 + 2) + 3)`
(left-associativity), on `1 + 2 * 3` yields `(1 + (2 * 3))`, on `!-a`
yields `(!(-a))`, and on `(1 + 2) * 3` yields `((1 + 2) * 3)`, each with
an empty error list. -/
theorem c2_precedence_laws :
    ((ParseProgram (str "1 + 2 + 3")).2 = [] ∧
      progString (ParseProgram (str "1 + 2 + 3")).1 = some (str "((1 + 2) + 3)")) ∧
    ((ParseProgram (str "1 + 2 * 3")).2 = [] ∧
      progString (ParseProgram (str "1 + 2 * 3")).1 = some (str "(1 + (2 * 3))")) ∧
    ((ParseProgram (str "!-a")).2 = [] ∧
      progString (ParseProgram (str "!-a")).1 = some (str "(!(-a))")) ∧
    ((ParseProgram (str "(1 + 2) * 3")).2 = [] ∧
      progString (ParseProgram (str "(1 + 2) * 3")).1 = some (str "((1 + 2) * 3)")) := by
  decide

/-- C3 counterexample: on `let x 5;` the returned program is NOT empty —
the driver recovers after the failed `let` and parses the leftover `5;`
as an expression statement. -/
theorem c3_counterexample :
    (ParseProgram (str "let x 5;")).1.length = 1 := by decide

/-- C3 amended: `let x 5;` produces exactly the one diagnostic
`expected next token to be ASSIGN, got INT instead`, and the returned
program consists of a single recovery expression statement `5`. -/
theorem c3_let_diag_amended :
    (ParseProgram (str "let x 5;")).2 =
      [str "expected next token to be ASSIGN, got INT instead"] ∧
    (ParseProgram (str "let x 5;")).1.length = 1 ∧
    progString (ParseProgram (str "let x 5;")).1 = some (str "5") := by decide

/-- C4 counterexample: on `08` (an invalid base-0 integer literal) the
top-level `ExpressionStatement` has an absent expression and the only
diagnostic is the integer-literal failure — not a prefix-miss. -/
theorem c4_counterexample :
    hasAbsentStmts (ParseProgram (str "08")).1 = true ∧
    (ParseProgram (str "08")).2 = [couldNotParseMsg (str "08")] := by decide

/-- C4 amended: an `ExpressionStatement` with an absent expression also
arises from an integer-literal parse failure (`08`), from a failed
grouped sub-parse (`(1`), and nested inside a block from a prefix-miss
(`if (x) { @ }`), not only from a top-level prefix-miss. -/
theorem c4_absent_expr_amended :
    (hasAbsentStmts (ParseProgram (str "08")).1 = true ∧
      (ParseProgram (str "08")).2 = [couldNotParseMsg (str "08")]) ∧
    (hasAbsentStmts (ParseProgram (str "(1")).1 = true ∧
      (ParseProgram (str "(1")).2 = [expectedMsg .RPAREN .EOF]) ∧
    (nestedAbsentInIf (ParseProgram (str "if (x) \x7b @ \x7d")).1 = true ∧
      (ParseProgram (str "if (x) \x7b @ \x7d")).2 = [noPrefixMsg .ILLEGAL]) := by decide

/-- C7 counterexample: replacing the `while` by an `if` is observable —
on `return 1;;` the parser as written reports no errors, while the
single-`if` variant records a prefix-miss for the orphaned semicolon. -/
theorem c7_counterexample :
    (ParseProgram (str "return 1;;")).2 = [] ∧
    (ParseProgramIfVariant (str "return 1;;")).2 = [noPrefixMsg .SEMICOLON] := by decide

/-- C7 amended: on `return 1;;` both variants print the same
`Program.String()` (`return 1;`) but the `if` variant records one extra
`no prefix parse function for SEMICOLON found` diagnostic; with a single
trailing semicolon (`return 1;`) the two variants agree on both outputs. -/
theorem c7_return_semi_amended :
    (progString (ParseProgram (str "return 1;;")).1 = some (str "return 1;") ∧
      progString (ParseProgramIfVariant (str "return 1;;")).1 = some (str "return 1;") ∧
      (ParseProgram (str "return 1;;")).2 = [] ∧
      (ParseProgramIfVariant (str "return 1;;")).2 = [noPrefixMsg .SEMICOLON]) ∧
    (progString (ParseProgram (str "return 1;")).1 = some (str "return 1;") ∧
      progString (ParseProgramIfVariant (str "return 1;")).1 = some (str "return 1;") ∧
      (ParseProgram (str "return 1;")).2 = [] ∧
      (ParseProgramIfVariant (str "return 1;")).2 = []) := by decide

/-- C10: on `fn(1, 2) { a }` the parser records no errors, the function
literal's parameters are identifier nodes named `1` and `2` (no IDENT
kind check), and `Program.String()` is `fn(1, 2) a`. -/
theorem c10_fn_params_unchecked :
    (ParseProgram (str "fn(1, 2) \x7b a \x7d")).2 = [] ∧
    firstFnParams (ParseProgram (str "fn(1, 2) \x7b a \x7d")).1 =
      some [str "1", str "2"] ∧
    progString (ParseProgram (str "fn(1, 2) \x7b a \x7d")).1 =
      some (str "fn(1, 2) a") := by decide

/-- C1 counterexample: the input `if (x) {}` parses with no errors to a
program printing `ifx `; re-lexing and re-parsing that string yields a
program printing `ifx`, and the two differ even after erasing all
parentheses — so the round-trip fails even up to redundant
parenthesization. -/
theorem c1_counterexample :
    (ParseProgram (str "if (x) \x7b\x7d")).2 = [] ∧
    progString (ParseProgram (str "if (x) \x7b\x7d")).1 = some (str "ifx ") ∧
    progString (ParseProgram (str "ifx ")).1 = some (str "ifx") ∧
    parenStrip (str "ifx ") ≠ parenStrip (str "ifx") := by decide

/-! ## Lexer theory

The invariant of lexer states reachable from `Lexer.new`: `readPosition`
is one past `position`, and `ch` caches the byte at `position` (`0` past
the end). -/

/-- The lexer-state invariant. -/
def Lexer.valid (l : Lexer) : Prop :=
  l.readPosition = l.position + 1 ∧
  l.ch = (if l.position < l.input.length then l.input.getD l.position 0 else 0)

theorem readChar_input (l : Lexer) : (l.readChar).input = l.input := rfl

theorem readChar_valid (l : Lexer) : (l.readChar).valid := by
  refine ⟨rfl, ?_⟩
  show (if l.readPosition ≥ l.input.length then 0 else l.input.getD l.readPosition 0) = _
  show _ = (if l.readPosition < l.input.length then l.input.getD l.readPosition 0 else 0)
  rcases lt_or_ge l.readPosition l.input.length with h | h
  · rw [if_neg (by omega), if_pos h]
  · rw [if_pos h, if_neg (by omega)]

theorem readChar_position (l : Lexer) : (l.readChar).position = l.readPosition := rfl

theorem readChar_position_valid (l : Lexer) (h : l.valid) :
    (l.readChar).position = l.position + 1 := by
  rw [readChar_position, h.1]

theorem new_valid (input : List Nat) : (Lexer.new input).valid :=
  readChar_valid _

theorem new_input (input : List Nat) : (Lexer.new input).input = input := rfl

theorem new_position (input : List Nat) : (Lexer.new input).position = 0 := rfl

/-- In a valid state, a nonzero current byte means `position` is inside
the input and `ch` is the byte there. -/
theorem valid_ch_lt (l : Lexer) (h : l.valid) (hch : l.ch ≠ 0) :
    l.position < l.input.length ∧ l.input.getD l.position 0 = l.ch := by
  rcases lt_or_ge l.position l.input.length with hlt | hge
  · exact ⟨hlt, by rw [h.2, if_pos hlt]⟩
  · exact absurd (by rw [h.2, if_neg (by omega)]) hch

/-- In a valid state past the end of input, `ch = 0`. -/
theorem valid_ch_high (l : Lexer) (h : l.valid) (hge : l.input.length ≤ l.position) :
    l.ch = 0 := by
  rw [h.2, if_neg (by omega)]

/-- Specification of the fueled whitespace-skipping loop on valid states
with sufficient fuel. -/
theorem skipWhitespaceFuel_spec :
    ∀ (n : Nat) (l : Lexer), l.valid → l.input.length + 1 - l.position ≤ n →
      (skipWhitespaceFuel n l).valid ∧
      (skipWhitespaceFuel n l).input = l.input ∧
      l.position ≤ (skipWhitespaceFuel n l).position ∧
      isWhitespaceByte (skipWhitespaceFuel n l).ch = false ∧
      (∀ k, l.position ≤ k → k < (skipWhitespaceFuel n l).position →
        isWhitespaceByte (l.input.getD k 0) = true) ∧
      ((skipWhitespaceFuel n l).position ≤ l.input.length ∨
        (skipWhitespaceFuel n l).position = l.position)
  | 0, l, hv, hn => by
    have h0 : skipWhitespaceFuel 0 l = l := rfl
    have hch : l.ch = 0 := valid_ch_high l hv (by omega)
    rw [h0]
    refine ⟨hv, rfl, le_refl _, ?_, fun k hk1 hk2 => absurd hk2 (by omega), Or.inr rfl⟩
    rw [hch]; decide
  | n + 1, l, hv, hn => by
    by_cases hws : isWhitespaceByte l.ch
    · have hunf : skipWhitespaceFuel (n + 1) l = skipWhitespaceFuel n l.readChar := by
        show (if isWhitespaceByte l.ch then skipWhitespaceFuel n l.readChar else l) = _
        rw [if_pos hws]
      have hch0 : l.ch ≠ 0 := by
        intro h0; rw [h0] at hws; exact absurd hws (by decide)
      have hlt := (valid_ch_lt l hv hch0).1
      have hbyte := (valid_ch_lt l hv hch0).2
      have hpos := readChar_position_valid l hv
      have ih := skipWhitespaceFuel_spec n l.readChar (readChar_valid l) (by
        rw [readChar_input, hpos]; omega)
      rw [readChar_input] at ih
      rw [hunf]
      refine ⟨ih.1, ih.2.1, by omega, ih.2.2.2.1, ?_, ?_⟩
      · intro k hk1 hk2
        rcases Nat.eq_or_lt_of_le hk1 with heq | hlt'
        · rw [← heq, hbyte]; exact hws
        · exact ih.2.2.2.2.1 k (by rw [hpos]; omega) hk2
      · rcases ih.2.2.2.2.2 with h | h
        · exact Or.inl h
        · exact Or.inl (by omega)
    · have hunf : skipWhitespaceFuel (n + 1) l = l := by
        show (if isWhitespaceByte l.ch then skipWhitespaceFuel n l.readChar else l) = _
        rw [if_neg hws]
      rw [hunf]
      exact ⟨hv, rfl, le_refl _, by simpa using hws,
        fun k hk1 hk2 => absurd hk2 (by omega), Or.inr rfl⟩

/-- `skipWhitespace` satisfies the loop specification (its fixed fuel
`length + 1` always suffices). -/
theorem skipWhitespace_spec (l : Lexer) (hv : l.valid) :
    (l.skipWhitespace).valid ∧
    (l.skipWhitespace).input = l.input ∧
    l.position ≤ (l.skipWhitespace).position ∧
    isWhitespaceByte (l.skipWhitespace).ch = false ∧
    (∀ k, l.position ≤ k → k < (l.skipWhitespace).position →
      isWhitespaceByte (l.input.getD k 0) = true) ∧
    ((l.skipWhitespace).position ≤ l.input.length ∨
      (l.skipWhitespace).position = l.position) :=
  skipWhitespaceFuel_spec (l.input.length + 1) l hv (by omega)

/-- If the current byte is not whitespace, `skipWhitespace` is the
identity. -/
theorem skipWhitespace_id (l : Lexer) (hws : isWhitespaceByte l.ch = false) :
    l.skipWhitespace = l := by
  show skipWhitespaceFuel (l.input.length + 1) l = l
  show (if isWhitespaceByte l.ch then skipWhitespaceFuel l.input.length l.readChar else l) = l
  rw [hws]; rfl

/-- Specification of the fueled character-run loop (`readIdentifier` /
`readNumber`) on valid states with sufficient fuel, for predicates that
reject the byte `0`. -/
theorem readWhileFuel_spec (p : Nat → Bool) (hp0 : p 0 = false) :
    ∀ (n : Nat) (l : Lexer), l.valid → l.input.length + 1 - l.position ≤ n →
      (readWhileFuel p n l).valid ∧
      (readWhileFuel p n l).input = l.input ∧
      l.position ≤ (readWhileFuel p n l).position ∧
      p (readWhileFuel p n l).ch = false ∧
      (∀ k, l.position ≤ k → k < (readWhileFuel p n l).position →
        p (l.input.getD k 0) = true) ∧
      ((readWhileFuel p n l).position ≤ l.input.length ∨
        (readWhileFuel p n l).position = l.position) ∧
      (p l.ch = true → l.position < (readWhileFuel p n l).position)
  | 0, l, hv, hn => by
    have h0 : readWhileFuel p 0 l = l := rfl
    have hch : l.ch = 0 := valid_ch_high l hv (by omega)
    rw [h0]
    refine ⟨hv, rfl, le_refl _, ?_, fun k hk1 hk2 => absurd hk2 (by omega), Or.inr rfl, ?_⟩
    · rw [hch]; exact hp0
    · rw [hch]; intro hcontra; rw [hcontra] at hp0; cases hp0
  | n + 1, l, hv, hn => by
    by_cases hpc : p l.ch
    · have hunf : readWhileFuel p (n + 1) l = readWhileFuel p n l.readChar := by
        show (if p l.ch then readWhileFuel p n l.readChar else l) = _
        rw [if_pos hpc]
      have hch0 : l.ch ≠ 0 := by
        intro h0; rw [h0] at hpc; rw [hpc] at hp0; cases hp0
      have hlt := (valid_ch_lt l hv hch0).1
      have hbyte := (valid_ch_lt l hv hch0).2
      have hpos := readChar_position_valid l hv
      have ih := readWhileFuel_spec p hp0 n l.readChar (readChar_valid l) (by
        rw [readChar_input, hpos]; omega)
      rw [readChar_input] at ih
      rw [hunf]
      refine ⟨ih.1, ih.2.1, by omega, ih.2.2.2.1, ?_, ?_, fun _ => by omega⟩
      · intro k hk1 hk2
        rcases Nat.eq_or_lt_of_le hk1 with heq | hlt'
        · rw [← heq, hbyte]; exact hpc
        · exact ih.2.2.2.2.1 k (by rw [hpos]; omega) hk2
      · rcases ih.2.2.2.2.2.1 with h | h
        · exact Or.inl h
        · exact Or.inl (by omega)
    · have hunf : readWhileFuel p (n + 1) l = l := by
        show (if p l.ch then readWhileFuel p n l.readChar else l) = _
        rw [if_neg hpc]
      rw [hunf]
      refine ⟨hv, rfl, le_refl _, by simpa using hpc,
        fun k hk1 hk2 => absurd hk2 (by omega), Or.inr rfl, ?_⟩
      intro hcontra; rw [hcontra] at hpc; exact absurd rfl hpc

/-! ### Slice lemmas -/

theorem extract_append (s : List Nat) (a b c : Nat) (hab : a ≤ b) (hbc : b ≤ c) :
    extract s a b ++ extract s b c = extract s a c := by
  unfold extract
  have h1 : c - a = (b - a) + (c - b) := by omega
  rw [h1, List.take_add]
  congr 2
  rw [List.drop_drop]
  congr 1
  omega

theorem extract_single (s : List Nat) (k : Nat) (hk : k < s.length) :
    extract s k (k + 1) = [s.getD k 0] := by
  unfold extract
  rw [List.drop_eq_getElem_cons hk]
  rw [show k + 1 - k = 1 from by omega]
  rw [List.getD_eq_getElem s 0 hk]
  rfl

theorem extract_high (s : List Nat) (a b : Nat) (ha : s.length ≤ a) :
    extract s a b = [] := by
  unfold extract
  rw [List.drop_eq_nil_of_le ha, List.take_nil]

theorem extract_none (s : List Nat) (a b : Nat) (h : b ≤ a) :
    extract s a b = [] := by
  unfold extract
  rw [show b - a = 0 from by omega, List.take_zero]

theorem extract_all (P : Nat → Bool) (s : List Nat) (a b : Nat)
    (h : ∀ k, a ≤ k → k < b → P (s.getD k 0) = true) :
    ∀ c ∈ extract s a b, P c = true := by
  intro c hc
  unfold extract at hc
  obtain ⟨i, hi, hgi⟩ := List.mem_iff_getElem.mp hc
  have hlen : i < b - a ∧ a + i < s.length := by
    have h1 := hi
    simp only [List.length_take, List.length_drop] at h1
    omega
  rw [List.getElem_take, List.getElem_drop] at hgi
  have := h (a + i) (by omega) (by omega)
  rwa [List.getD_eq_getElem s 0 hlen.2, hgi] at this

/-! ### The per-call token lemma -/

/-- A nonzero `peekChar` means `readPosition` is inside the input and
holds that byte. -/
theorem peekChar_lt (l : Lexer) (hp : l.peekChar ≠ 0) :
    l.readPosition < l.input.length ∧ l.input.getD l.readPosition 0 = l.peekChar := by
  unfold Lexer.peekChar at *
  rcases lt_or_ge l.readPosition l.input.length with hlt | hge
  · rw [if_neg (by omega)] at hp ⊢
    exact ⟨hlt, rfl⟩
  · rw [if_pos (by omega)] at hp
    exact absurd rfl hp

/-- In a valid NUL-free state, `ch = 0` forces `position` past the end. -/
theorem valid_ch_zero_high (l : Lexer) (hv : l.valid) (hnz : (0 : Nat) ∉ l.input)
    (hch : l.ch = 0) : l.input.length ≤ l.position := by
  by_contra hlt
  push_neg at hlt
  have h2 := hv.2
  rw [if_pos hlt] at h2
  have h3 : l.input.getD l.position 0 = 0 := by rw [← h2]; exact hch
  rw [List.getD_eq_getElem l.input 0 hlt] at h3
  exact hnz (h3 ▸ List.getElem_mem hlt)

theorem lookupIdent_ne_eof (s : List Nat) : lookupIdent s ≠ .EOF := by
  unfold lookupIdent
  split_ifs <;> decide

/-- Two consecutive bytes as a slice. -/
theorem extract_two (s : List Nat) (k : Nat) (hk : k + 1 < s.length) :
    extract s k (k + 2) = [s.getD k 0, s.getD (k + 1) 0] := by
  rw [← extract_append s k (k + 1) (k + 2) (by omega) (by omega),
    extract_single s k (by omega), extract_single s (k + 1) (by omega)]
  rfl

/-- The master specification of the dispatch `nextTokenBody` on a valid
state: the result state is valid on the same input, the position strictly
advances, on NUL-free inputs the bytes between the old and new positions
are exactly the token's literal, and an `EOF` token can only come from the
`ch = 0` branch. -/
theorem nextTokenBody_spec (sk : Lexer) (hv : sk.valid) :
    (nextTokenBody sk).2.valid ∧
    (nextTokenBody sk).2.input = sk.input ∧
    sk.position < (nextTokenBody sk).2.position ∧
    ((0 : Nat) ∉ sk.input → (∀ c ∈ sk.input, c < 128) →
      extract sk.input sk.position (nextTokenBody sk).2.position
        = (nextTokenBody sk).1.literal) ∧
    ((nextTokenBody sk).1.type = .EOF → sk.ch = 0) := by
  have hsingle : ∀ (t : TokenType), sk.ch ≠ 0 →
      (sk.readChar).valid ∧ (sk.readChar).input = sk.input ∧
      sk.position < (sk.readChar).position ∧
      (sk.ch < 128 →
        extract sk.input sk.position (sk.readChar).position = (newToken t sk.ch).literal) := by
    intro t hch0
    have hlt := (valid_ch_lt sk hv hch0).1
    have hbyte := (valid_ch_lt sk hv hch0).2
    have hpos := readChar_position_valid sk hv
    refine ⟨readChar_valid sk, rfl, by omega, fun h128 => ?_⟩
    rw [hpos, extract_single sk.input sk.position hlt, hbyte]
    show [sk.ch]
      = (if sk.ch < 128 then [sk.ch] else [192 + sk.ch / 64, 128 + sk.ch % 64])
    rw [if_pos h128]
  have hdouble : sk.ch ≠ 0 → sk.peekChar ≠ 0 →
      (sk.readChar.readChar).valid ∧ (sk.readChar.readChar).input = sk.input ∧
      sk.position < (sk.readChar.readChar).position ∧
      extract sk.input sk.position (sk.readChar.readChar).position
        = [sk.ch, sk.peekChar] := by
    intro hch0 hp0
    have hlt := (valid_ch_lt sk hv hch0).1
    have hbyte := (valid_ch_lt sk hv hch0).2
    have hplt := (peekChar_lt sk hp0).1
    have hpbyte := (peekChar_lt sk hp0).2
    have hpos : (sk.readChar.readChar).position = sk.position + 2 := by
      have h1 : (sk.readChar.readChar).position = sk.readPosition + 1 := rfl
      rw [h1, hv.1]
    refine ⟨readChar_valid _, rfl, by omega, ?_⟩
    rw [hpos, extract_two sk.input sk.position (by rw [← hv.1]; omega), hbyte]
    rw [hv.1] at hpbyte
    rw [hpbyte]
  unfold nextTokenBody
  by_cases h1 : sk.ch = chr '='
  · rw [if_pos h1]
    by_cases h2 : sk.peekChar = chr '='
    · rw [if_pos h2]
      have hd := hdouble (by rw [h1]; decide) (by rw [h2]; decide)
      have hv1 : (sk.readChar).valid := readChar_valid sk
      refine ⟨readChar_valid _, hd.2.1, hd.2.2.1, fun _ _ => ?_, by intro h; cases h⟩
      rw [hd.2.2.2, h1, h2]
      rfl
    · rw [if_neg h2]
      have hs := hsingle .ASSIGN (by rw [h1]; decide)
      exact ⟨hs.1, hs.2.1, hs.2.2.1,
        fun _ _ => hs.2.2.2 (by rw [h1]; decide), by intro h; cases h⟩
  · rw [if_neg h1]
    by_cases h3 : sk.ch = chr '!'
    · rw [if_pos h3]
      by_cases h4 : sk.peekChar = chr '='
      · rw [if_pos h4]
        have hd := hdouble (by rw [h3]; decide) (by rw [h4]; decide)
        refine ⟨readChar_valid _, hd.2.1, hd.2.2.1, fun _ _ => ?_, by intro h; cases h⟩
        rw [hd.2.2.2, h3, h4]
        rfl
      · rw [if_neg h4]
        have hs := hsingle .BANG (by rw [h3]; decide)
        exact ⟨hs.1, hs.2.1, hs.2.2.1,
          fun _ _ => hs.2.2.2 (by rw [h3]; decide), by intro h; cases h⟩
    · rw [if_neg h3]
      by_cases h5 : sk.ch = chr '+'
      · rw [if_pos h5]
        have hs := hsingle .PLUS (by rw [h5]; decide)
        exact ⟨hs.1, hs.2.1, hs.2.2.1,
          fun _ _ => hs.2.2.2 (by rw [h5]; decide), by intro h; cases h⟩
      · rw [if_neg h5]
        by_cases h6 : sk.ch = chr '-'
        · rw [if_pos h6]
          have hs := hsingle .MINUS (by rw [h6]; decide)
          exact ⟨hs.1, hs.2.1, hs.2.2.1,
            fun _ _ => hs.2.2.2 (by rw [h6]; decide), by intro h; cases h⟩
        · rw [if_neg h6]
          by_cases h7 : sk.ch = chr '*'
          · rw [if_pos h7]
            have hs := hsingle .ASTERISK (by rw [h7]; decide)
            exact ⟨hs.1, hs.2.1, hs.2.2.1,
              fun _ _ => hs.2.2.2 (by rw [h7]; decide), by intro h; cases h⟩
          · rw [if_neg h7]
            by_cases h8 : sk.ch = chr '/'
            · rw [if_pos h8]
              have hs := hsingle .SLASH (by rw [h8]; decide)
              exact ⟨hs.1, hs.2.1, hs.2.2.1,
                fun _ _ => hs.2.2.2 (by rw [h8]; decide), by intro h; cases h⟩
            · rw [if_neg h8]
              by_cases h9 : sk.ch = chr '<'
              · rw [if_pos h9]
                have hs := hsingle .LT (by rw [h9]; decide)
                exact ⟨hs.1, hs.2.1, hs.2.2.1,
                  fun _ _ => hs.2.2.2 (by rw [h9]; decide), by intro h; cases h⟩
              · rw [if_neg h9]
                by_cases h10 : sk.ch = chr '>'
                · rw [if_pos h10]
                  have hs := hsingle .GT (by rw [h10]; decide)
                  exact ⟨hs.1, hs.2.1, hs.2.2.1,
                    fun _ _ => hs.2.2.2 (by rw [h10]; decide), by intro h; cases h⟩
                · rw [if_neg h10]
                  by_cases h11 : sk.ch = chr '('
                  · rw [if_pos h11]
                    have hs := hsingle .LPAREN (by rw [h11]; decide)
                    exact ⟨hs.1, hs.2.1, hs.2.2.1,
                      fun _ _ => hs.2.2.2 (by rw [h11]; decide), by intro h; cases h⟩
                  · rw [if_neg h11]
                    by_cases h12 : sk.ch = chr ')'
                    · rw [if_pos h12]
                      have hs := hsingle .RPAREN (by rw [h12]; decide)
                      exact ⟨hs.1, hs.2.1, hs.2.2.1,
                        fun _ _ => hs.2.2.2 (by rw [h12]; decide), by intro h; cases h⟩
                    · rw [if_neg h12]
                      by_cases h13 : sk.ch = 123
                      · rw [if_pos h13]
                        have hs := hsingle .LBRACE (by rw [h13]; decide)
                        exact ⟨hs.1, hs.2.1, hs.2.2.1,
                          fun _ _ => hs.2.2.2 (by rw [h13]; decide), by intro h; cases h⟩
                      · rw [if_neg h13]
                        by_cases h14 : sk.ch = 125
                        · rw [if_pos h14]
                          have hs := hsingle .RBRACE (by rw [h14]; decide)
                          exact ⟨hs.1, hs.2.1, hs.2.2.1,
                            fun _ _ => hs.2.2.2 (by rw [h14]; decide), by intro h; cases h⟩
                        · rw [if_neg h14]
                          by_cases h15 : sk.ch = chr ','
                          · rw [if_pos h15]
                            have hs := hsingle .COMMA (by rw [h15]; decide)
                            exact ⟨hs.1, hs.2.1, hs.2.2.1,
                              fun _ _ => hs.2.2.2 (by rw [h15]; decide), by intro h; cases h⟩
                          · rw [if_neg h15]
                            by_cases h16 : sk.ch = chr ';'
                            · rw [if_pos h16]
                              have hs := hsingle .SEMICOLON (by rw [h16]; decide)
                              exact ⟨hs.1, hs.2.1, hs.2.2.1,
                                fun _ _ => hs.2.2.2 (by rw [h16]; decide), by intro h; cases h⟩
                            · rw [if_neg h16]
                              by_cases h17 : sk.ch = 0
                              · rw [if_pos h17]
                                have hpos := readChar_position_valid sk hv
                                refine ⟨readChar_valid sk, rfl, ?_, fun hnz _ => ?_,
                                  fun _ => h17⟩
                                · show sk.position < sk.readChar.position
                                  omega
                                · show extract sk.input sk.position sk.readChar.position
                                    = eofToken.literal
                                  have hge := valid_ch_zero_high sk hv hnz h17
                                  rw [hpos, extract_high sk.input _ _ (by omega)]
                                  rfl
                              · rw [if_neg h17]
                                by_cases h18 : isLetter sk.ch
                                · rw [if_pos h18]
                                  have hr := readWhileFuel_spec isLetter (by decide)
                                    (sk.input.length + 1) sk hv (by omega)
                                  exact ⟨hr.1, hr.2.1, hr.2.2.2.2.2.2 h18, fun _ _ => rfl,
                                    fun h => absurd h (lookupIdent_ne_eof _)⟩
                                · rw [if_neg h18]
                                  by_cases h19 : isDigit sk.ch
                                  · rw [if_pos h19]
                                    have hr := readWhileFuel_spec isDigit (by decide)
                                      (sk.input.length + 1) sk hv (by omega)
                                    exact ⟨hr.1, hr.2.1, hr.2.2.2.2.2.2 h19, fun _ _ => rfl,
                                      by intro h; cases h⟩
                                  · rw [if_neg h19]
                                    have hs := hsingle .ILLEGAL h17
                                    refine ⟨hs.1, hs.2.1, hs.2.2.1, ?_,
                                      by intro h; cases h⟩
                                    intro hnz hascii
                                    refine hs.2.2.2 ?_
                                    have hlt := (valid_ch_lt sk hv h17).1
                                    have hbyte := (valid_ch_lt sk hv h17).2
                                    refine hascii _ ?_
                                    rw [← hbyte, List.getD_eq_getElem sk.input 0 hlt]
                                    exact List.getElem_mem hlt

/-- `NextToken` specification on a valid state (composes the whitespace
skip with the dispatch). -/
theorem nextToken_spec (l : Lexer) (hv : l.valid) :
    (l.nextToken).2.valid ∧
    (l.nextToken).2.input = l.input ∧
    l.position ≤ (l.skipWhitespace).position ∧
    (l.skipWhitespace).position < (l.nextToken).2.position ∧
    (∀ k, l.position ≤ k → k < (l.skipWhitespace).position →
      isWhitespaceByte (l.input.getD k 0) = true) ∧
    ((0 : Nat) ∉ l.input → (∀ c ∈ l.input, c < 128) →
      extract l.input (l.skipWhitespace).position (l.nextToken).2.position
        = (l.nextToken).1.literal) ∧
    ((0 : Nat) ∉ l.input → (l.nextToken).1.type = .EOF →
      l.input.length ≤ (l.skipWhitespace).position) := by
  have hsk := skipWhitespace_spec l hv
  have hb := nextTokenBody_spec l.skipWhitespace hsk.1
  rw [hsk.2.1] at hb
  refine ⟨hb.1, hb.2.1, hsk.2.2.1, hb.2.2.1, hsk.2.2.2.2.1, hb.2.2.2.1, ?_⟩
  intro hnz heof
  have hch0 := hb.2.2.2.2 heof
  have := valid_ch_zero_high l.skipWhitespace hsk.1 (by rw [hsk.2.1]; exact hnz) hch0
  rw [hsk.2.1] at this
  exact this

/-- Iterated lexer states are valid, keep the input, and their position
grows at least linearly. -/
theorem lexIter_facts (input : List Nat) :
    ∀ n, (lexIter input n).valid ∧ (lexIter input n).input = input ∧
      n ≤ (lexIter input n).position
  | 0 => ⟨new_valid input, rfl, Nat.zero_le _⟩
  | n + 1 => by
    obtain ⟨hv, hi, hp⟩ := lexIter_facts input n
    have hnt := nextToken_spec _ hv
    have hstep : lexIter input (n + 1) = ((lexIter input n).nextToken).2 := rfl
    rw [hstep]
    refine ⟨hnt.1, by rw [hnt.2.1, hi], ?_⟩
    have h1 := hnt.2.2.1
    have h2 := hnt.2.2.2.1
    omega

/-- The dispatch at `ch = 0` returns `{EOF, ""}` and advances one byte. -/
theorem nextTokenBody_eof (l : Lexer) (hch : l.ch = 0) :
    nextTokenBody l = (eofToken, l.readChar) := by
  unfold nextTokenBody
  rw [hch]
  rw [if_neg (by decide : ¬((0 : Nat) = chr '=')), if_neg (by decide : ¬((0 : Nat) = chr '!')),
    if_neg (by decide : ¬((0 : Nat) = chr '+')), if_neg (by decide : ¬((0 : Nat) = chr '-')),
    if_neg (by decide : ¬((0 : Nat) = chr '*')), if_neg (by decide : ¬((0 : Nat) = chr '/')),
    if_neg (by decide : ¬((0 : Nat) = chr '<')), if_neg (by decide : ¬((0 : Nat) = chr '>')),
    if_neg (by decide : ¬((0 : Nat) = chr '(')), if_neg (by decide : ¬((0 : Nat) = chr ')')),
    if_neg (by decide : ¬((0 : Nat) = 123)), if_neg (by decide : ¬((0 : Nat) = 125)),
    if_neg (by decide : ¬((0 : Nat) = chr ',')), if_neg (by decide : ¬((0 : Nat) = chr ';')),
    if_pos (rfl : (0 : Nat) = 0)]

/-- Past the end of input, `NextToken` returns `{EOF, ""}` and stays past
the end. -/
theorem nextToken_eof_high (l : Lexer) (hv : l.valid) (hge : l.input.length ≤ l.position) :
    (l.nextToken).1 = eofToken ∧ (l.nextToken).2.valid ∧
    (l.nextToken).2.input = l.input ∧ l.input.length ≤ (l.nextToken).2.position := by
  have hch : l.ch = 0 := valid_ch_high l hv hge
  have hskip : l.skipWhitespace = l := skipWhitespace_id l (by rw [hch]; decide)
  have hnt : l.nextToken = (eofToken, l.readChar) := by
    show nextTokenBody l.skipWhitespace = _
    rw [hskip]
    exact nextTokenBody_eof l hch
  rw [hnt]
  have hpos := readChar_position_valid l hv
  refine ⟨rfl, readChar_valid l, rfl, ?_⟩
  show l.input.length ≤ l.readChar.position
  omega

/-- The byte classes the lexer recognizes (whitespace, the operator and
punctuation bytes, end-of-input `0`, letters, digits); anything else hits
the `ILLEGAL` default branch. -/
def isRecognizedByte (c : Nat) : Bool :=
  isWhitespaceByte c || decide (c = chr '=') || decide (c = chr '!') || decide (c = chr '+') ||
  decide (c = chr '-') || decide (c = chr '*') || decide (c = chr '/') || decide (c = chr '<') ||
  decide (c = chr '>') || decide (c = chr '(') || decide (c = chr ')') || decide (c = 123) ||
  decide (c = 125) || decide (c = chr ',') || decide (c = chr ';') || decide (c = 0) ||
  isLetter c || isDigit c

/-- The dispatch on an unrecognized byte yields `ILLEGAL` with literal
`string(ch)` (the result of `newToken`, i.e. the byte's UTF-8
encoding). -/
theorem nextTokenBody_illegal (sk : Lexer) (h : isRecognizedByte sk.ch = false) :
    nextTokenBody sk = (newToken .ILLEGAL sk.ch, sk.readChar) := by
  simp only [isRecognizedByte, Bool.or_eq_false_iff, decide_eq_false_iff_not] at h
  obtain ⟨⟨⟨⟨⟨⟨⟨⟨⟨⟨⟨⟨⟨⟨⟨⟨⟨_, h61⟩, h33⟩, h43⟩, h45⟩, h42⟩, h47⟩, h60⟩, h62⟩,
    h40⟩, h41⟩, h123⟩, h125⟩, h44⟩, h59⟩, h0⟩, hl⟩, hd⟩ := h
  unfold nextTokenBody
  rw [if_neg h61, if_neg h33, if_neg h43, if_neg h45, if_neg h42, if_neg h47,
    if_neg h60, if_neg h62, if_neg h40, if_neg h41, if_neg h123, if_neg h125,
    if_neg h44, if_neg h59, if_neg h0,
    if_neg (by rw [hl]; decide : ¬ (isLetter sk.ch = true)),
    if_neg (by rw [hd]; decide : ¬ (isDigit sk.ch = true))]

/-! ## Claim theorems: lexer invariants (C5, C6) -/

/-- C6 counterexample: on the input bytes `a NUL b`, the second
`NextToken` call returns `{EOF, ""}` (the embedded NUL byte hits the
`ch = 0` branch) but the third call returns a non-EOF token again — the
first EOF is not final. -/
theorem c6_counterexample :
    nthToken [97, 0, 98] 1 = eofToken ∧ nthToken [97, 0, 98] 2 ≠ eofToken := by decide

/-- C6 amended: for every input there is a number of `NextToken` calls
after which every call returns `{EOF, ""}`; and on inputs containing no
NUL byte, every call after the first EOF also returns `{EOF, ""}` (an
embedded NUL produces a non-final EOF, so the claim's second part needs
the NUL-free restriction). -/
theorem c6_eof_stable (input : List Nat) :
    (∃ N, ∀ k, N ≤ k → nthToken input k = eofToken) ∧
    ((0 : Nat) ∉ input → ∀ k, nthToken input k = eofToken →
      nthToken input (k + 1) = eofToken) := by
  constructor
  · refine ⟨input.length, fun k hk => ?_⟩
    obtain ⟨hv, hi, hp⟩ := lexIter_facts input k
    exact (nextToken_eof_high _ hv (by rw [hi]; omega)).1
  · intro hnz k hk
    obtain ⟨hv, hi, hp⟩ := lexIter_facts input k
    have hnt := nextToken_spec _ hv
    have heof : ((lexIter input k).nextToken).1.type = .EOF := by
      have h1 : ((lexIter input k).nextToken).1 = nthToken input k := rfl
      rw [h1, hk]
      rfl
    have hge := hnt.2.2.2.2.2.2 (by rw [hi]; exact hnz) heof
    rw [hi] at hge
    have h2 : input.length ≤ (lexIter input (k + 1)).position := by
      have h3 := hnt.2.2.2.1
      show input.length ≤ ((lexIter input k).nextToken).2.position
      omega
    obtain ⟨hv', hi', _⟩ := lexIter_facts input (k + 1)
    exact (nextToken_eof_high _ hv' (by rw [hi']; exact h2)).1

/-- C5 counterexample: two failures of the slice property.  (i) On the
input bytes `a NUL b`, the literal of the first token (`a`), the
whitespace skipped before the second token (none), and the literal of the
second token (`""`, the NUL-induced EOF) do not concatenate to the
corresponding input slice, which still contains the NUL byte.  (ii) On
the NUL-free input bytes `a SPACE 200`, the unrecognized byte `200`
yields an `ILLEGAL` token whose literal is the two-byte UTF-8 encoding
`[195, 136]` (`newToken` builds the literal with Go's `string(ch)`), so
the literal is not that input byte and the concatenation again misses the
input slice. -/
theorem c5_counterexample :
    ((nthToken [97, 0, 98] 0).literal
        ++ extract [97, 0, 98] (lexIter [97, 0, 98] 1).position
             ((lexIter [97, 0, 98] 1).skipWhitespace.position)
        ++ (nthToken [97, 0, 98] 1).literal
      ≠ extract [97, 0, 98] ((lexIter [97, 0, 98] 0).skipWhitespace.position)
          ((lexIter [97, 0, 98] 2).position)) ∧
    ((nthToken [97, 32, 200] 1).literal = [195, 136] ∧
      (nthToken [97, 32, 200] 1).literal ≠ [200] ∧
      (nthToken [97, 32, 200] 0).literal
          ++ extract [97, 32, 200] (lexIter [97, 32, 200] 1).position
               ((lexIter [97, 32, 200] 1).skipWhitespace.position)
          ++ (nthToken [97, 32, 200] 1).literal
        ≠ extract [97, 32, 200] ((lexIter [97, 32, 200] 0).skipWhitespace.position)
            ((lexIter [97, 32, 200] 2).position)) := by decide

/-- C5 amended: on inputs containing no NUL byte and no byte ≥ `0x80`,
for any two successive tokens the concatenation `a.literal ++ (whitespace
skipped between them) ++ b.literal` equals the input slice from `a`'s
first byte to the byte after `b`'s last, the skipped bytes all being
whitespace; and any unrecognized byte yields an `ILLEGAL` token whose
literal is exactly that byte.  An embedded NUL byte is consumed by an
`EOF` token with empty literal and falls out of the concatenation, and a
byte ≥ `0x80` gets the two-byte UTF-8 literal Go's `string(ch)` produces,
so both restrictions are necessary. -/
theorem c5_token_slices (input : List Nat) (hnz : (0 : Nat) ∉ input)
    (hascii : ∀ c ∈ input, c < 128) :
    (∀ n : Nat,
      (nthToken input n).literal
        ++ extract input (lexIter input (n + 1)).position
             ((lexIter input (n + 1)).skipWhitespace.position)
        ++ (nthToken input (n + 1)).literal
      = extract input ((lexIter input n).skipWhitespace.position)
          ((lexIter input (n + 2)).position) ∧
      (∀ c ∈ extract input (lexIter input (n + 1)).position
          ((lexIter input (n + 1)).skipWhitespace.position),
        isWhitespaceByte c = true)) ∧
    (∀ n : Nat,
      ((lexIter input n).skipWhitespace.position < input.length →
        isRecognizedByte (input.getD (lexIter input n).skipWhitespace.position 0) = false →
        nthToken input n
          = ⟨.ILLEGAL, [input.getD (lexIter input n).skipWhitespace.position 0]⟩)) := by
  constructor
  · intro n
    obtain ⟨hv0, hi0, _⟩ := lexIter_facts input n
    obtain ⟨hv1, hi1, _⟩ := lexIter_facts input (n + 1)
    have hnt0 := nextToken_spec _ hv0
    have hnt1 := nextToken_spec _ hv1
    rw [hi0] at hnt0
    rw [hi1] at hnt1
    have hstep1 : (lexIter input (n + 1)) = ((lexIter input n).nextToken).2 := rfl
    have hstep2 : (lexIter input (n + 2)) = ((lexIter input (n + 1)).nextToken).2 := rfl
    have hlit0 := hnt0.2.2.2.2.2.1 hnz hascii
    have hlit1 := hnt1.2.2.2.2.2.1 hnz hascii
    have hnth0 : nthToken input n = (lexIter input n).nextToken.1 := rfl
    have hnth1 : nthToken input (n + 1) = (lexIter input (n + 1)).nextToken.1 := rfl
    constructor
    · rw [hnth0, hnth1, List.append_assoc]
      have hws : extract input (lexIter input (n + 1)).position
          ((lexIter input (n + 1)).skipWhitespace.position)
          ++ ((lexIter input (n + 1)).nextToken.1).literal
          = extract input (lexIter input (n + 1)).position
              ((lexIter input (n + 1)).nextToken.2.position) := by
        rw [← hlit1]
        exact extract_append input _ _ _ hnt1.2.2.1 (le_of_lt hnt1.2.2.2.1)
      rw [hws, ← hlit0, hstep2, ← hstep1]
      refine extract_append input _ _ _ ?_ ?_
      · have h1 := hnt0.2.2.2.1
        rw [← hstep1] at h1
        omega
      · have h1 := hnt1.2.2.1
        have h2 := hnt1.2.2.2.1
        omega
    · exact extract_all _ input _ _ (fun k hk1 hk2 => hnt1.2.2.2.2.1 k hk1 hk2)
  · intro n hlt hrec
    obtain ⟨hv0, hi0, _⟩ := lexIter_facts input n
    have hsk := skipWhitespace_spec _ hv0
    set sk := (lexIter input n).skipWhitespace with hskdef
    have hskin : sk.input = input := by rw [hsk.2.1, hi0]
    have hchv := hsk.1.2
    rw [hskin] at hchv
    rw [if_pos hlt] at hchv
    have hrec' : isRecognizedByte sk.ch = false := by rw [hchv]; exact hrec
    have hbody := nextTokenBody_illegal sk hrec'
    have h1 : nthToken input n = (nextTokenBody sk).1 := rfl
    have hb128 : input.getD sk.position 0 < 128 := by
      refine hascii _ ?_
      rw [List.getD_eq_getElem input 0 hlt]
      exact List.getElem_mem hlt
    have hlitb : newToken .ILLEGAL (input.getD sk.position 0)
        = ⟨.ILLEGAL, [input.getD sk.position 0]⟩ := by
      unfold newToken byteString
      rw [if_pos hb128]
    rw [h1, hbody, hchv, hlitb]

/-- Witness for the C6 theorem at a concrete input. -/
theorem c6_eof_stable_witness :
    (∃ N, ∀ k, N ≤ k → nthToken (str "a b") k = eofToken) ∧
    ((0 : Nat) ∉ str "a b" ∧
      (nthToken (str "a b") 2 = eofToken → nthToken (str "a b") 3 = eofToken)) :=
  ⟨(c6_eof_stable (str "a b")).1,
    by decide,
    fun h => (c6_eof_stable (str "a b")).2 (by decide) 2 h⟩

/-- Witness for the C5 theorem at a concrete NUL-free ASCII input
containing an unrecognized byte (`@`). -/
theorem c5_token_slices_witness :
    ((0 : Nat) ∉ str "ab @") ∧ (∀ c ∈ str "ab @", c < 128) ∧
    ((nthToken (str "ab @") 0).literal
        ++ extract (str "ab @") (lexIter (str "ab @") 1).position
             ((lexIter (str "ab @") 1).skipWhitespace.position)
        ++ (nthToken (str "ab @") 1).literal
      = extract (str "ab @") ((lexIter (str "ab @") 0).skipWhitespace.position)
          ((lexIter (str "ab @") 2).position)) :=
  ⟨by decide, by decide,
    ((c5_token_slices (str "ab @") (by decide) (by decide)).1 0).1⟩

/-! ## Parser state lemmas (for the fuel-sufficiency proof, C8) -/

theorem next_ts_len (s : PState) : s.next.ts.length = s.ts.length - 1 := by
  show (s.ts.drop 1).length = _
  rw [List.length_drop]

theorem pushError_ts (s : PState) (m : List Nat) : (s.pushError m).ts = s.ts := rfl

theorem expectPeek_true (t : TokenType) (s s' : PState)
    (h : expectPeek t s = (true, s')) : s' = s.next ∧ s.peek.type = t := by
  unfold expectPeek at h
  split_ifs at h with hp
  · injection h with h1 h2
    exact ⟨h2.symm, hp⟩
  · injection h with h1 h2
    cases h1

theorem expectPeek_false (t : TokenType) (s s' : PState)
    (h : expectPeek t s = (false, s')) : s'.ts = s.ts := by
  unfold expectPeek at h
  split_ifs at h with hp
  · injection h with h1 h2
    cases h1
  · injection h with h1 h2
    rw [← h2]
    rfl

theorem peek_ne_eof_len (s : PState) (h : s.peek.type ≠ .EOF) : 2 ≤ s.ts.length := by
  by_contra hlt
  push_neg at hlt
  have hdrop : s.ts.drop 1 = [] := List.drop_eq_nil_of_le (by omega)
  have hpk : s.peek = eofToken := by
    show (s.ts.drop 1).headD eofToken = _
    rw [hdrop]
    rfl
  exact h (by rw [hpk]; rfl)

theorem cur_ne_eof_len (s : PState) (h : s.cur.type ≠ .EOF) : 1 ≤ s.ts.length := by
  by_contra hlt
  push_neg at hlt
  have hnil : s.ts = [] := List.eq_nil_of_length_eq_zero (by omega)
  have hc : s.cur = eofToken := by
    show s.ts.headD eofToken = _
    rw [hnil]
    rfl
  exact h (by rw [hc]; rfl)

theorem cur_nilts (s : PState) (h : s.ts = []) : s.cur = eofToken := by
  show s.ts.headD eofToken = _
  rw [h]
  rfl

theorem parseIntegerLiteral_ts (s : PState) : (parseIntegerLiteral s).2.ts = s.ts := by
  unfold parseIntegerLiteral
  cases parseIntBase0 s.cur.literal <;> rfl

/-- `parseExpression` on an exhausted token stream needs only one unit of
fuel: the `EOF` padding token has no prefix handler. -/
theorem parseExpression_nilts (w : Bool) (m prec : Nat) (s : PState)
    (hts : s.ts = []) (hm : 1 ≤ m) :
    parseExpression w m prec s = some (.nil, s.pushError (noPrefixMsg s.cur.type)) := by
  obtain ⟨k, rfl⟩ : ∃ k, m = k + 1 := ⟨m - 1, by omega⟩
  have hcur : s.cur.type = .EOF := by rw [cur_nilts s hts]; rfl
  simp only [parseExpression]
  rw [if_neg (by rw [hcur]; decide : ¬ (hasPrefixFn s.cur.type = true))]

/-- `blockLoop` on an exhausted token stream needs only one unit of fuel. -/
theorem blockLoop_nilts (w : Bool) (m : Nat) (acc : StmtList) (s : PState)
    (hts : s.ts = []) (hm : 1 ≤ m) :
    blockLoop w m acc s = some (acc, s) := by
  obtain ⟨k, rfl⟩ : ∃ k, m = k + 1 := ⟨m - 1, by omega⟩
  have hcur : s.cur.type = .EOF := by rw [cur_nilts s hts]; rfl
  simp only [blockLoop]
  rw [if_pos (Or.inr hcur)]

/-- Fuel sufficiency for the trailing-semicolon loop. -/
theorem returnSemiLoop_spec : ∀ (m : Nat) (s : PState), s.ts.length + 1 ≤ m →
    ∃ s', returnSemiLoop m s = some s' ∧ s'.ts.length ≤ s.ts.length
  | 0, _, h => absurd h (by omega)
  | m + 1, s, h => by
    by_cases hp : s.peek.type = .SEMICOLON
    · have hlen : 2 ≤ s.ts.length := peek_ne_eof_len s (by rw [hp]; decide)
      have hnext := next_ts_len s
      obtain ⟨s', h1, h2⟩ := returnSemiLoop_spec m s.next (by omega)
      refine ⟨s', ?_, by omega⟩
      show (if s.peek.type = .SEMICOLON then returnSemiLoop m s.next else some s) = _
      rw [if_pos hp]
      exact h1
    · refine ⟨s, ?_, le_refl _⟩
      show (if s.peek.type = .SEMICOLON then returnSemiLoop m s.next else some s) = _
      rw [if_neg hp]

/-- Fuel sufficiency for the parameter-list loop. -/
theorem paramLoop_spec : ∀ (m : Nat) (acc : List Ident) (s : PState),
    s.ts.length + 1 ≤ m →
    ∃ ids s', paramLoop m acc s = some (ids, s') ∧ s'.ts.length ≤ s.ts.length
  | 0, _, _, h => absurd h (by omega)
  | m + 1, acc, s, h => by
    by_cases hp : s.peek.type = .COMMA
    · have hlen : 2 ≤ s.ts.length := peek_ne_eof_len s (by rw [hp]; decide)
      have hn1 := next_ts_len s
      have hn2 := next_ts_len s.next
      obtain ⟨ids, s', h1, h2⟩ := paramLoop_spec m
        (acc ++ [⟨s.next.next.cur, s.next.next.cur.literal⟩]) s.next.next (by omega)
      refine ⟨ids, s', ?_, by omega⟩
      show (if s.peek.type = .COMMA then paramLoop m _ s.next.next else some (acc, s)) = _
      rw [if_pos hp]
      exact h1
    · refine ⟨acc, s, ?_, le_refl _⟩
      show (if s.peek.type = .COMMA then paramLoop m _ s.next.next else some (acc, s)) = _
      rw [if_neg hp]

/-- Fuel sufficiency for all mutually recursive parse functions at fuel
`n`: each succeeds (no fuel exhaustion) whenever `n` is at least `8 *`
(remaining tokens) plus a per-function rank, and never grows the token
stream. -/
def FuelOk (n : Nat) : Prop :=
  (∀ w prec s, 8 * s.ts.length + 4 ≤ n →
    ∃ e s', parseExpression w n prec s = some (e, s') ∧ s'.ts.length ≤ s.ts.length) ∧
  (∀ w s, 8 * s.ts.length + 3 ≤ n →
    ∃ e s', runPrefixFn w n s = some (e, s') ∧ s'.ts.length ≤ s.ts.length) ∧
  (∀ w prec leftE s, 8 * s.ts.length + 3 ≤ n →
    ∃ e s', infixLoop w n prec leftE s = some (e, s') ∧ s'.ts.length ≤ s.ts.length) ∧
  (∀ w s, 8 * s.ts.length + 2 ≤ n →
    ∃ e s', parsePrefixExpression w n s = some (e, s') ∧ s'.ts.length ≤ s.ts.length) ∧
  (∀ w leftE s, 8 * s.ts.length + 2 ≤ n →
    ∃ e s', parseInfixExpression w n leftE s = some (e, s') ∧ s'.ts.length ≤ s.ts.length) ∧
  (∀ w s, 8 * s.ts.length + 2 ≤ n →
    ∃ e s', parseGroupedExpression w n s = some (e, s') ∧ s'.ts.length ≤ s.ts.length) ∧
  (∀ w s, 8 * s.ts.length + 2 ≤ n →
    ∃ e s', parseIfExpression w n s = some (e, s') ∧ s'.ts.length ≤ s.ts.length) ∧
  (∀ w s, 8 * s.ts.length + 2 ≤ n →
    ∃ b s', parseBlockStatement w n s = some (b, s') ∧ s'.ts.length ≤ s.ts.length) ∧
  (∀ w acc s, 8 * s.ts.length + 7 ≤ n →
    ∃ sts s', blockLoop w n acc s = some (sts, s') ∧ s'.ts.length ≤ s.ts.length) ∧
  (∀ w s, 8 * s.ts.length + 6 ≤ n →
    ∃ st s', parseStatement w n s = some (st, s') ∧ s'.ts.length ≤ s.ts.length) ∧
  (∀ w s, 8 * s.ts.length + 5 ≤ n →
    ∃ st s', parseLetStatement w n s = some (st, s') ∧ s'.ts.length ≤ s.ts.length) ∧
  (∀ w s, 8 * s.ts.length + 5 ≤ n →
    ∃ st s', parseReturnStatement w n s = some (st, s') ∧ s'.ts.length ≤ s.ts.length) ∧
  (∀ w s, 8 * s.ts.length + 5 ≤ n →
    ∃ st s', parseExpressionStatement w n s = some (st, s') ∧ s'.ts.length ≤ s.ts.length) ∧
  (∀ w s, 8 * s.ts.length + 2 ≤ n →
    ∃ e s', parseFunctionLiteral w n s = some (e, s') ∧ s'.ts.length ≤ s.ts.length) ∧
  (∀ w s, 8 * s.ts.length + 1 ≤ n →
    ∃ ps s', parseFunctionParameters w n s = some (ps, s') ∧ s'.ts.length ≤ s.ts.length) ∧
  (∀ w leftE s, 8 * s.ts.length + 6 ≤ n →
    ∃ e s', parseCallExpression w n leftE s = some (e, s') ∧ s'.ts.length ≤ s.ts.length) ∧
  (∀ w s, 8 * s.ts.length + 5 ≤ n →
    ∃ a s', parseCallArguments w n s = some (a, s') ∧ s'.ts.length ≤ s.ts.length) ∧
  (∀ w acc s, 8 * s.ts.length + 4 ≤ n →
    ∃ a s', argLoop w n acc s = some (a, s') ∧ s'.ts.length ≤ s.ts.length) ∧
  (∀ w acc s, 8 * s.ts.length + 7 ≤ n →
    ∃ sts s', programLoop w n acc s = some (sts, s') ∧ s'.ts.length ≤ s.ts.length)

theorem fuelOk : ∀ n, FuelOk n := by
  intro n
  induction n with
  | zero =>
    refine ⟨?_, ?_, ?_, ?_, ?_, ?_, ?_, ?_, ?_, ?_, ?_, ?_, ?_, ?_, ?_, ?_, ?_, ?_, ?_⟩ <;>
      (intros; omega)
  | succ m ih =>
    obtain ⟨ihPE, ihRPF, ihIL, ihPPE, ihPIE, ihPGE, ihPIF, ihPBS, ihBL, ihST,
      ihLET, ihRET, ihES, ihPFL, ihPFP, ihPCE, ihPCA, ihAL, ihPL⟩ := ih
    refine ⟨?_, ?_, ?_, ?_, ?_, ?_, ?_, ?_, ?_, ?_, ?_, ?_, ?_, ?_, ?_, ?_, ?_, ?_, ?_⟩
    -- parseExpression
    case _ =>
      intro w prec s h
      simp only [parseExpression]
      by_cases hpf : hasPrefixFn s.cur.type
      · rw [if_pos hpf]
        obtain ⟨e, s1, h1, h2⟩ := ihRPF w s (by omega)
        rw [h1]
        try dsimp only
        obtain ⟨e2, s2, h3, h4⟩ := ihIL w prec e s1 (by omega)
        exact ⟨e2, s2, h3, by omega⟩
      · rw [if_neg hpf]
        exact ⟨.nil, _, rfl, le_of_eq (by rw [pushError_ts])⟩
    -- runPrefixFn
    case _ =>
      intro w s h
      simp only [runPrefixFn]
      cases htype : s.cur.type
      case IDENT => exact ⟨_, s, rfl, le_refl _⟩
      case INT =>
        refine ⟨_, (parseIntegerLiteral s).2, rfl, le_of_eq (by rw [parseIntegerLiteral_ts])⟩
      case TRUE => exact ⟨_, s, rfl, le_refl _⟩
      case FALSE => exact ⟨_, s, rfl, le_refl _⟩
      case BANG => exact ihPPE w s (by omega)
      case MINUS => exact ihPPE w s (by omega)
      case LPAREN => exact ihPGE w s (by omega)
      case IF => exact ihPIF w s (by omega)
      case FUNCTION => exact ihPFL w s (by omega)
      all_goals exact ⟨.nil, s, rfl, le_refl _⟩
    -- infixLoop
    case _ =>
      intro w prec leftE s h
      simp only [infixLoop]
      by_cases hc : s.peek.type ≠ .SEMICOLON ∧ prec < precedenceOf s.peek.type
      · rw [if_pos hc]
        by_cases hin : hasInfixFn s.peek.type
        · rw [if_pos hin]
          have hlen2 : 2 ≤ s.ts.length := peek_ne_eof_len s (by
            intro he
            rw [he] at hin
            cases hin)
          have hnl := next_ts_len s
          by_cases hlp : s.peek.type = .LPAREN
          · rw [if_pos hlp]
            obtain ⟨e1, s2, h1, h2⟩ := ihPCE w leftE s.next (by omega)
            rw [h1]
            try dsimp only
            obtain ⟨e2, s3, h3, h4⟩ := ihIL w prec e1 s2 (by omega)
            exact ⟨e2, s3, h3, by omega⟩
          · rw [if_neg hlp]
            obtain ⟨e1, s2, h1, h2⟩ := ihPIE w leftE s.next (by omega)
            rw [h1]
            try dsimp only
            obtain ⟨e2, s3, h3, h4⟩ := ihIL w prec e1 s2 (by omega)
            exact ⟨e2, s3, h3, by omega⟩
        · rw [if_neg hin]
          exact ⟨leftE, s, rfl, le_refl _⟩
      · rw [if_neg hc]
        exact ⟨leftE, s, rfl, le_refl _⟩
    -- parsePrefixExpression
    case _ =>
      intro w s h
      simp only [parsePrefixExpression]
      by_cases hts : s.ts = []
      · have hnil : s.next.ts = [] := by
          show s.ts.drop 1 = []
          rw [hts]
          rfl
        rw [parseExpression_nilts w m PREFIX s.next hnil (by omega)]
        refine ⟨_, _, rfl, ?_⟩
        rw [pushError_ts]
        rw [hnil, hts]
      · have hlen : 1 ≤ s.ts.length := List.length_pos.mpr hts
        have hnl := next_ts_len s
        obtain ⟨e, s1, h1, h2⟩ := ihPE w PREFIX s.next (by omega)
        rw [h1]
        try dsimp only
        exact ⟨_, s1, rfl, by omega⟩
    -- parseInfixExpression
    case _ =>
      intro w leftE s h
      simp only [parseInfixExpression]
      by_cases hts : s.ts = []
      · have hnil : s.next.ts = [] := by
          show s.ts.drop 1 = []
          rw [hts]
          rfl
        rw [parseExpression_nilts w m (precedenceOf s.cur.type) s.next hnil (by omega)]
        refine ⟨_, _, rfl, ?_⟩
        rw [pushError_ts]
        rw [hnil, hts]
      · have hlen : 1 ≤ s.ts.length := List.length_pos.mpr hts
        have hnl := next_ts_len s
        obtain ⟨e, s1, h1, h2⟩ := ihPE w (precedenceOf s.cur.type) s.next (by omega)
        rw [h1]
        try dsimp only
        exact ⟨_, s1, rfl, by omega⟩
    -- parseGroupedExpression
    case _ =>
      intro w s h
      simp only [parseGroupedExpression]
      have hnl := next_ts_len s
      have hPE : ∃ e s1, parseExpression w m LOWEST s.next = some (e, s1) ∧
          s1.ts.length ≤ s.ts.length := by
        by_cases hts : s.ts = []
        · have hnil : s.next.ts = [] := by
            show s.ts.drop 1 = []
            rw [hts]
            rfl
          rw [parseExpression_nilts w m LOWEST s.next hnil (by omega)]
          refine ⟨_, _, rfl, ?_⟩
          rw [pushError_ts]
          rw [hnil, hts]
        · have hlen : 1 ≤ s.ts.length := List.length_pos.mpr hts
          obtain ⟨e, s1, h1, h2⟩ := ihPE w LOWEST s.next (by omega)
          exact ⟨e, s1, h1, by omega⟩
      obtain ⟨e, s1, h1, h2⟩ := hPE
      rw [h1]
      try dsimp only
      rcases hep : expectPeek .RPAREN s1 with ⟨b, s2⟩
      cases b
      · try dsimp only
        have h3 := expectPeek_false _ _ _ hep
        exact ⟨.nil, s2, rfl, by rw [h3]; omega⟩
      · try dsimp only
        obtain ⟨hs2, _⟩ := expectPeek_true _ _ _ hep
        subst hs2
        have hnl1 := next_ts_len s1
        exact ⟨e, s1.next, rfl, by omega⟩
    -- parseIfExpression
    case _ =>
      intro w s h
      simp only [parseIfExpression]
      rcases h1 : expectPeek .LPAREN s with ⟨b1, s1⟩
      cases b1
      · try dsimp only
        have h1t := expectPeek_false _ _ _ h1
        exact ⟨.nil, s1, rfl, by rw [h1t]⟩
      · try dsimp only
        obtain ⟨hs1, hpk⟩ := expectPeek_true _ _ _ h1
        have hlen2 : 2 ≤ s.ts.length := peek_ne_eof_len s (by rw [hpk]; decide)
        subst hs1
        have hnl := next_ts_len s
        have hnl2 := next_ts_len s.next
        obtain ⟨cond, s2, h2, h2l⟩ := ihPE w LOWEST s.next.next (by omega)
        rw [h2]
        try dsimp only
        rcases h3 : expectPeek .RPAREN s2 with ⟨b2, s3⟩
        cases b2
        · try dsimp only
          have h3t := expectPeek_false _ _ _ h3
          exact ⟨.nil, s3, rfl, by rw [h3t]; omega⟩
        · try dsimp only
          obtain ⟨hs3, _⟩ := expectPeek_true _ _ _ h3
          subst hs3
          have hnl3 := next_ts_len s2
          rcases h4 : expectPeek .LBRACE s2.next with ⟨b3, s4⟩
          cases b3
          · try dsimp only
            have h4t := expectPeek_false _ _ _ h4
            exact ⟨.nil, s4, rfl, by rw [h4t]; omega⟩
          · try dsimp only
            obtain ⟨hs4, _⟩ := expectPeek_true _ _ _ h4
            subst hs4
            have hnl4 := next_ts_len s2.next
            obtain ⟨cons, s5, h5, h5l⟩ := ihPBS w s2.next.next (by omega)
            rw [h5]
            try dsimp only
            by_cases hel : s5.peek.type = .ELSE
            · rw [if_pos hel]
              rcases h6 : expectPeek .LBRACE s5.next with ⟨b4, s7⟩
              have hnl5 := next_ts_len s5
              cases b4
              · try dsimp only
                have h6t := expectPeek_false _ _ _ h6
                exact ⟨.nil, s7, rfl, by rw [h6t]; omega⟩
              · try dsimp only
                obtain ⟨hs7, _⟩ := expectPeek_true _ _ _ h6
                subst hs7
                have hnl6 := next_ts_len s5.next
                obtain ⟨alt, s8, h7, h7l⟩ := ihPBS w s5.next.next (by omega)
                rw [h7]
                try dsimp only
                exact ⟨_, s8, rfl, by omega⟩
            · rw [if_neg hel]
              exact ⟨_, s5, rfl, by omega⟩
    -- parseBlockStatement
    case _ =>
      intro w s h
      simp only [parseBlockStatement]
      by_cases hts : s.ts = []
      · have hnil : s.next.ts = [] := by
          show s.ts.drop 1 = []
          rw [hts]
          rfl
        rw [blockLoop_nilts w m .nil s.next hnil (by omega)]
        refine ⟨_, _, rfl, ?_⟩
        rw [hnil, hts]
      · have hlen : 1 ≤ s.ts.length := List.length_pos.mpr hts
        have hnl := next_ts_len s
        obtain ⟨sts, s1, h1, h2⟩ := ihBL w .nil s.next (by omega)
        rw [h1]
        try dsimp only
        exact ⟨_, s1, rfl, by omega⟩
    -- blockLoop
    case _ =>
      intro w acc s h
      simp only [blockLoop]
      by_cases hc : s.cur.type = .RBRACE ∨ s.cur.type = .EOF
      · rw [if_pos hc]
        exact ⟨acc, s, rfl, le_refl _⟩
      · rw [if_neg hc]
        push_neg at hc
        have hlen : 1 ≤ s.ts.length := cur_ne_eof_len s hc.2
        obtain ⟨st, s1, h1, h2⟩ := ihST w s (by omega)
        rw [h1]
        try dsimp only
        have hnl := next_ts_len s1
        cases st with
        | none =>
          obtain ⟨sts, s2, h3, h4⟩ := ihBL w acc s1.next (by omega)
          exact ⟨sts, s2, h3, by omega⟩
        | some st =>
          obtain ⟨sts, s2, h3, h4⟩ := ihBL w (acc.snoc st) s1.next (by omega)
          exact ⟨sts, s2, h3, by omega⟩
    -- parseStatement
    case _ =>
      intro w s h
      simp only [parseStatement]
      cases htype : s.cur.type
      case LET => exact ihLET w s (by omega)
      case RETURN => exact ihRET w s (by omega)
      all_goals exact ihES w s (by omega)
    -- parseLetStatement
    case _ =>
      intro w s h
      simp only [parseLetStatement]
      rcases h1 : expectPeek .IDENT s with ⟨b1, s1⟩
      cases b1
      · try dsimp only
        have h1t := expectPeek_false _ _ _ h1
        exact ⟨none, s1, rfl, by rw [h1t]⟩
      · try dsimp only
        obtain ⟨hs1, hpk⟩ := expectPeek_true _ _ _ h1
        have hlen2 : 2 ≤ s.ts.length := peek_ne_eof_len s (by rw [hpk]; decide)
        subst hs1
        have hnl := next_ts_len s
        rcases h2 : expectPeek .ASSIGN s.next with ⟨b2, s2⟩
        cases b2
        · try dsimp only
          have h2t := expectPeek_false _ _ _ h2
          exact ⟨none, s2, rfl, by rw [h2t]; omega⟩
        · try dsimp only
          obtain ⟨hs2, hpk2⟩ := expectPeek_true _ _ _ h2
          have hlen3 : 2 ≤ s.next.ts.length := peek_ne_eof_len s.next (by rw [hpk2]; decide)
          subst hs2
          have hnl2 := next_ts_len s.next
          have hnl3 := next_ts_len s.next.next
          obtain ⟨v, s3, h3, h3l⟩ := ihPE w LOWEST s.next.next.next (by omega)
          rw [h3]
          try dsimp only
          refine ⟨_, _, rfl, ?_⟩
          by_cases hsemi : s3.peek.type = .SEMICOLON
          · rw [if_pos hsemi]
            have hnl4 := next_ts_len s3
            omega
          · rw [if_neg hsemi]
            omega
    -- parseReturnStatement
    case _ =>
      intro w s h
      simp only [parseReturnStatement]
      have hnl := next_ts_len s
      obtain ⟨v, s1, h1, h1l⟩ := ihPE w LOWEST s.next (by omega)
      rw [h1]
      try dsimp only
      cases w
      · rw [if_neg (by decide : ¬ (false = true))]
        refine ⟨_, _, rfl, ?_⟩
        by_cases hsemi : s1.peek.type = .SEMICOLON
        · rw [if_pos hsemi]
          have hnl2 := next_ts_len s1
          omega
        · rw [if_neg hsemi]
          omega
      · rw [if_pos rfl]
        obtain ⟨s2, h2, h2l⟩ := returnSemiLoop_spec (m + 1) s1 (by omega)
        rw [h2]
        try dsimp only
        exact ⟨_, s2, rfl, by omega⟩
    -- parseExpressionStatement
    case _ =>
      intro w s h
      simp only [parseExpressionStatement]
      obtain ⟨e, s1, h1, h1l⟩ := ihPE w LOWEST s (by omega)
      rw [h1]
      try dsimp only
      refine ⟨_, _, rfl, ?_⟩
      by_cases hsemi : s1.peek.type = .SEMICOLON
      · rw [if_pos hsemi]
        have hnl := next_ts_len s1
        omega
      · rw [if_neg hsemi]
        omega
    -- parseFunctionLiteral
    case _ =>
      intro w s h
      simp only [parseFunctionLiteral]
      rcases h1 : expectPeek .LPAREN s with ⟨b1, s1⟩
      cases b1
      · try dsimp only
        have h1t := expectPeek_false _ _ _ h1
        exact ⟨.nil, s1, rfl, by rw [h1t]⟩
      · try dsimp only
        obtain ⟨hs1, hpk⟩ := expectPeek_true _ _ _ h1
        have hlen2 : 2 ≤ s.ts.length := peek_ne_eof_len s (by rw [hpk]; decide)
        subst hs1
        have hnl := next_ts_len s
        obtain ⟨ps, s2, h2, h2l⟩ := ihPFP w s.next (by omega)
        rw [h2]
        try dsimp only
        rcases h3 : expectPeek .LBRACE s2 with ⟨b2, s3⟩
        cases b2
        · try dsimp only
          have h3t := expectPeek_false _ _ _ h3
          exact ⟨.nil, s3, rfl, by rw [h3t]; omega⟩
        · try dsimp only
          obtain ⟨hs3, hpk3⟩ := expectPeek_true _ _ _ h3
          have hlen3 : 2 ≤ s2.ts.length := peek_ne_eof_len s2 (by rw [hpk3]; decide)
          subst hs3
          have hnl3 := next_ts_len s2
          obtain ⟨b, s4, h4, h4l⟩ := ihPBS w s2.next (by omega)
          rw [h4]
          try dsimp only
          exact ⟨_, s4, rfl, by omega⟩
    -- parseFunctionParameters
    case _ =>
      intro w s h
      simp only [parseFunctionParameters]
      by_cases hrp : s.peek.type = .RPAREN
      · rw [if_pos hrp]
        have hnl := next_ts_len s
        exact ⟨some [], s.next, rfl, by omega⟩
      · rw [if_neg hrp]
        have hnl := next_ts_len s
        obtain ⟨ids, s2, h1, h2⟩ := paramLoop_spec (m + 1)
          [⟨s.next.cur, s.next.cur.literal⟩] s.next (by omega)
        rw [h1]
        try dsimp only
        rcases h3 : expectPeek .RPAREN s2 with ⟨b, s3⟩
        cases b
        · try dsimp only
          have h3t := expectPeek_false _ _ _ h3
          exact ⟨none, s3, rfl, by rw [h3t]; omega⟩
        · try dsimp only
          obtain ⟨hs3, _⟩ := expectPeek_true _ _ _ h3
          subst hs3
          have hnl2 := next_ts_len s2
          exact ⟨some ids, s2.next, rfl, by omega⟩
    -- parseCallExpression
    case _ =>
      intro w leftE s h
      simp only [parseCallExpression]
      obtain ⟨args, s1, h1, h1l⟩ := ihPCA w s (by omega)
      rw [h1]
      try dsimp only
      exact ⟨_, s1, rfl, by omega⟩
    -- parseCallArguments
    case _ =>
      intro w s h
      simp only [parseCallArguments]
      by_cases hrp : s.peek.type = .RPAREN
      · rw [if_pos hrp]
        have hnl := next_ts_len s
        exact ⟨.val .nil, s.next, rfl, by omega⟩
      · rw [if_neg hrp]
        have hnl := next_ts_len s
        obtain ⟨a, s1, h1, h1l⟩ := ihPE w LOWEST s.next (by omega)
        rw [h1]
        try dsimp only
        obtain ⟨args, s2, h2, h2l⟩ := ihAL w (ExprList.cons a .nil) s1 (by omega)
        rw [h2]
        try dsimp only
        rcases h3 : expectPeek .RPAREN s2 with ⟨b, s3⟩
        cases b
        · try dsimp only
          have h3t := expectPeek_false _ _ _ h3
          exact ⟨.nil, s3, rfl, by rw [h3t]; omega⟩
        · try dsimp only
          obtain ⟨hs3, _⟩ := expectPeek_true _ _ _ h3
          subst hs3
          have hnl2 := next_ts_len s2
          exact ⟨.val args, s2.next, rfl, by omega⟩
    -- argLoop
    case _ =>
      intro w acc s h
      simp only [argLoop]
      by_cases hcm : s.peek.type = .COMMA
      · rw [if_pos hcm]
        have hlen2 : 2 ≤ s.ts.length := peek_ne_eof_len s (by rw [hcm]; decide)
        have hnl := next_ts_len s
        have hnl2 := next_ts_len s.next
        obtain ⟨a, s1, h1, h1l⟩ := ihPE w LOWEST s.next.next (by omega)
        rw [h1]
        try dsimp only
        obtain ⟨args, s2, h2, h2l⟩ := ihAL w (acc.snoc a) s1 (by omega)
        exact ⟨args, s2, h2, by omega⟩
      · rw [if_neg hcm]
        exact ⟨acc, s, rfl, le_refl _⟩
    -- programLoop
    case _ =>
      intro w acc s h
      simp only [programLoop]
      by_cases hc : s.cur.type = .EOF
      · rw [if_pos hc]
        exact ⟨acc, s, rfl, le_refl _⟩
      · rw [if_neg hc]
        have hlen : 1 ≤ s.ts.length := cur_ne_eof_len s hc
        obtain ⟨st, s1, h1, h2⟩ := ihST w s (by omega)
        rw [h1]
        try dsimp only
        have hnl := next_ts_len s1
        cases st with
        | none =>
          obtain ⟨sts, s2, h3, h4⟩ := ihPL w acc s1.next (by omega)
          exact ⟨sts, s2, h3, by omega⟩
        | some st =>
          obtain ⟨sts, s2, h3, h4⟩ := ihPL w (acc.snoc st) s1.next (by omega)
          exact ⟨sts, s2, h3, by omega⟩

/-! ## Well-formedness of the AST (C9)

`wf*` expresses that every mandatory child reference is present
(recursively): exactly the condition under which the Go `String()`
printers dereference no `nil` pointer. -/

mutual
def wfExpr : Expr → Bool
  | .identifier _ _ => true
  | .integerLiteral _ _ => true
  | .booleanLiteral _ _ => true
  | .prefixExpression _ _ r => wfOExpr r
  | .infixExpression _ l _ r => wfOExpr l && wfOExpr r
  | .ifExpression _ c cons alt => wfOExpr c && wfOBlockReq cons && wfOBlockOpt alt
  | .functionLiteral _ ps b => ps.isSome && wfOBlockReq b
  | .callExpression _ f args => wfOExpr f && wfOExprListReq args

def wfOExpr : OExpr → Bool
  | .nil => false
  | .val e => wfExpr e

def wfOBlockReq : OBlock → Bool
  | .nil => false
  | .val b => wfBlock b

def wfOBlockOpt : OBlock → Bool
  | .nil => true
  | .val b => wfBlock b

def wfOExprListReq : OExprList → Bool
  | .nil => false
  | .val es => wfExprList es

def wfExprList : ExprList → Bool
  | .nil => true
  | .cons a rest => wfOExpr a && wfExprList rest

def wfBlock : Block → Bool
  | .mk _ sts => wfStmts sts

def wfStmts : StmtList → Bool
  | .nil => true
  | .cons st rest => wfStmt st && wfStmts rest

def wfStmt : Stmt → Bool
  | .letStatement _ name v => name.isSome && wfOExpr v
  | .returnStatement _ v => wfOExpr v
  | .expressionStatement _ e => wfOExpr e
end

/-! ### Printer unfolding lemmas (the equations hold by `rfl`; the
auto-generated equation lemmas for the nested matches are unusable) -/

theorem exprString_prefix_val (t : Token) (op : List Nat) (r : Expr) :
    exprString (.prefixExpression t op (.val r))
      = match exprString r with
        | none => none
        | some rs => some (str "(" ++ op ++ rs ++ str ")") := rfl

theorem exprString_infix_vv (t : Token) (l : Expr) (op : List Nat) (r : Expr) :
    exprString (.infixExpression t (.val l) op (.val r))
      = match exprString l, exprString r with
        | some ls, some rs =>
          some (str "(" ++ ls ++ str " " ++ op ++ str " " ++ rs ++ str ")")
        | _, _ => none := rfl

theorem exprString_if_vv (t : Token) (c : Expr) (cons : Block) :
    exprString (.ifExpression t (.val c) (.val cons) .nil)
      = match exprString c, blockString cons with
        | some cs, some conss => some (str "if" ++ cs ++ str " " ++ conss)
        | _, _ => none := rfl

theorem exprString_if_vvv (t : Token) (c : Expr) (cons alt : Block) :
    exprString (.ifExpression t (.val c) (.val cons) (.val alt))
      = match exprString c, blockString cons with
        | some cs, some conss =>
          (match blockString alt with
           | none => none
           | some alts => some (str "if" ++ cs ++ str " " ++ conss ++ str "else " ++ alts))
        | _, _ => none := rfl

theorem exprString_fn_val (t : Token) (ps : Option (List Ident)) (b : Block) :
    exprString (.functionLiteral t ps (.val b))
      = match blockString b with
        | none => none
        | some bs => some (t.literal ++ str "(" ++ paramsJoin (ps.getD []) ++ str ") " ++ bs) := rfl

theorem exprString_call_vv (t : Token) (f : Expr) (es : ExprList) :
    exprString (.callExpression t (.val f) (.val es))
      = match exprString f, argsJoinList es with
        | some fs, some argss => some (fs ++ str "(" ++ argss ++ str ")")
        | _, _ => none := rfl

theorem argsJoinList_single_val (a : Expr) :
    argsJoinList (.cons (.val a) .nil) = exprString a := rfl

theorem argsJoinList_cons_val (a : Expr) (b : OExpr) (tl : ExprList) :
    argsJoinList (.cons (.val a) (.cons b tl))
      = match exprString a, argsJoinList (.cons b tl) with
        | some s, some rs => some (s ++ str ", " ++ rs)
        | _, _ => none := rfl

theorem stmtsString_cons (st : Stmt) (rest : StmtList) :
    stmtsString (.cons st rest)
      = match stmtString st, stmtsString rest with
        | some ss, some rs => some (ss ++ rs)
        | _, _ => none := rfl

theorem stmtString_let_sv (t : Token) (name : Ident) (v : Expr) :
    stmtString (.letStatement t (some name) (.val v))
      = match exprString v with
        | none => none
        | some vs => some (t.literal ++ str " " ++ name.value ++ str " = " ++ vs ++ str ";") := rfl

theorem stmtString_ret_v (t : Token) (v : Expr) :
    stmtString (.returnStatement t (.val v))
      = match exprString v with
        | none => none
        | some vs => some (t.literal ++ str " " ++ vs ++ str ";") := rfl

theorem stmtString_expr_v (t : Token) (e : Expr) :
    stmtString (.expressionStatement t (.val e)) = exprString e := rfl

theorem blockString_mk (t : Token) (sts : StmtList) :
    blockString (.mk t sts) = stmtsString sts := rfl

/- On a well-formed AST the printer dereferences no absent child:
`String()` is total there. -/
mutual
theorem wfExpr_print : ∀ (e : Expr), wfExpr e = true → (exprString e).isSome = true
  | .identifier _ _, _ => rfl
  | .integerLiteral _ _, _ => rfl
  | .booleanLiteral _ _, _ => rfl
  | .prefixExpression t op r, h => by
    cases r with
    | nil => simp [wfExpr, wfOExpr] at h
    | val r' =>
      have hr := wfExpr_print r' (by simpa [wfExpr, wfOExpr] using h)
      obtain ⟨rs, hrs⟩ := Option.isSome_iff_exists.mp hr
      rw [exprString_prefix_val, hrs]
      rfl
  | .infixExpression t l op r, h => by
    cases l with
    | nil => simp [wfExpr, wfOExpr] at h
    | val l' =>
      cases r with
      | nil => simp [wfExpr, wfOExpr] at h
      | val r' =>
        have h2 : wfExpr l' = true ∧ wfExpr r' = true := by
          simpa [wfExpr, wfOExpr] using h
        have hl := wfExpr_print l' h2.1
        have hr := wfExpr_print r' h2.2
        obtain ⟨ls, hls⟩ := Option.isSome_iff_exists.mp hl
        obtain ⟨rs, hrs⟩ := Option.isSome_iff_exists.mp hr
        rw [exprString_infix_vv, hls, hrs]
        rfl
  | .ifExpression t c cons alt, h => by
    cases c with
    | nil => simp [wfExpr, wfOExpr] at h
    | val c' =>
      cases cons with
      | nil => simp [wfExpr, wfOBlockReq] at h
      | val cons' =>
        have h2 : (wfExpr c' = true ∧ wfBlock cons' = true) ∧ wfOBlockOpt alt = true := by
          simpa [wfExpr, wfOExpr, wfOBlockReq] using h
        have hc := wfExpr_print c' h2.1.1
        have hcons := wfBlock_print cons' h2.1.2
        obtain ⟨cs, hcs⟩ := Option.isSome_iff_exists.mp hc
        obtain ⟨conss, hconss⟩ := Option.isSome_iff_exists.mp hcons
        cases alt with
        | nil =>
          rw [exprString_if_vv, hcs, hconss]
          rfl
        | val alt' =>
          have halt := wfBlock_print alt' (by simpa [wfOBlockOpt] using h2.2)
          obtain ⟨alts, halts⟩ := Option.isSome_iff_exists.mp halt
          rw [exprString_if_vvv, hcs, hconss, halts]
          rfl
  | .functionLiteral t ps b, h => by
    cases b with
    | nil => simp [wfExpr, wfOBlockReq] at h
    | val b' =>
      have hb := wfBlock_print b' (by simp [wfExpr, wfOBlockReq] at h; exact h.2)
      obtain ⟨bs, hbs⟩ := Option.isSome_iff_exists.mp hb
      rw [exprString_fn_val, hbs]
      rfl
  | .callExpression t f args, h => by
    cases f with
    | nil => simp [wfExpr, wfOExpr] at h
    | val f' =>
      have h2 : wfExpr f' = true ∧ wfOExprListReq args = true := by
        simpa [wfExpr, wfOExpr] using h
      have hf := wfExpr_print f' h2.1
      cases args with
      | nil => simp [wfOExprListReq] at h2
      | val es =>
        have hes := wfExprList_print es (by simpa [wfOExprListReq] using h2.2)
        obtain ⟨fs, hfs⟩ := Option.isSome_iff_exists.mp hf
        obtain ⟨argss, hargss⟩ := Option.isSome_iff_exists.mp hes
        rw [exprString_call_vv, hfs, hargss]
        rfl

theorem wfExprList_print : ∀ (es : ExprList), wfExprList es = true →
    (argsJoinList es).isSome = true
  | .nil, _ => rfl
  | .cons a rest, h => by
    cases a with
    | nil => simp [wfExprList, wfOExpr] at h
    | val a' =>
      have h2 : wfExpr a' = true ∧ wfExprList rest = true := by
        simpa [wfExprList, wfOExpr] using h
      have ha := wfExpr_print a' h2.1
      have hrest := wfExprList_print rest h2.2
      obtain ⟨as_, has⟩ := Option.isSome_iff_exists.mp ha
      cases rest with
      | nil =>
        rw [argsJoinList_single_val, has]
        rfl
      | cons b tl =>
        obtain ⟨rs, hrs⟩ := Option.isSome_iff_exists.mp hrest
        rw [argsJoinList_cons_val, has, hrs]
        rfl

theorem wfBlock_print : ∀ (b : Block), wfBlock b = true → (blockString b).isSome = true
  | .mk _ sts, h => wfStmts_print sts (by simpa [wfBlock] using h)

theorem wfStmts_print : ∀ (sts : StmtList), wfStmts sts = true →
    (stmtsString sts).isSome = true
  | .nil, _ => rfl
  | .cons st rest, h => by
    have h2 : wfStmt st = true ∧ wfStmts rest = true := by
      simpa [wfStmts] using h
    have hs := wfStmt_print st h2.1
    have hrest := wfStmts_print rest h2.2
    obtain ⟨ss, hss⟩ := Option.isSome_iff_exists.mp hs
    obtain ⟨rs, hrs⟩ := Option.isSome_iff_exists.mp hrest
    rw [stmtsString_cons, hss, hrs]
    rfl

theorem wfStmt_print : ∀ (st : Stmt), wfStmt st = true → (stmtString st).isSome = true
  | .letStatement t name v, h => by
    cases name with
    | none => simp [wfStmt] at h
    | some name' =>
      cases v with
      | nil => simp [wfStmt, wfOExpr] at h
      | val v' =>
        have hv := wfExpr_print v' (by simpa [wfStmt, wfOExpr] using h)
        obtain ⟨vs, hvs⟩ := Option.isSome_iff_exists.mp hv
        rw [stmtString_let_sv, hvs]
        rfl
  | .returnStatement t v, h => by
    cases v with
    | nil => simp [wfStmt, wfOExpr] at h
    | val v' =>
      have hv := wfExpr_print v' (by simpa [wfStmt, wfOExpr] using h)
      obtain ⟨vs, hvs⟩ := Option.isSome_iff_exists.mp hv
      rw [stmtString_ret_v, hvs]
      rfl
  | .expressionStatement t e, h => by
    cases e with
    | nil => simp [wfStmt, wfOExpr] at h
    | val e' =>
      have he := wfExpr_print e' (by simpa [wfStmt, wfOExpr] using h)
      rw [stmtString_expr_v]
      exact he
end

/-! ### Error-accumulation lemmas -/

theorem next_errors (s : PState) : s.next.errors = s.errors := rfl

theorem expectPeek_true_errors (t : TokenType) (s s' : PState)
    (h : expectPeek t s = (true, s')) : s'.errors = s.errors := by
  rw [(expectPeek_true t s s' h).1]
  rfl

theorem expectPeek_false_errors (t : TokenType) (s s' : PState)
    (h : expectPeek t s = (false, s')) :
    s'.errors = s.errors ++ [expectedMsg t s.peek.type] := by
  unfold expectPeek at h
  split_ifs at h with hp
  · injection h with h1 h2
    cases h1
  · injection h with h1 h2
    rw [← h2]
    rfl

theorem returnSemiLoop_errors : ∀ (m : Nat) (s s' : PState),
    returnSemiLoop m s = some s' → s'.errors = s.errors
  | 0, _, _, h => by cases h
  | m + 1, s, s', h => by
    by_cases hp : s.peek.type = .SEMICOLON
    · have h2 : returnSemiLoop m s.next = some s' := by
        have hunf : returnSemiLoop (m + 1) s = returnSemiLoop m s.next := by
          show (if s.peek.type = .SEMICOLON then returnSemiLoop m s.next else some s) = _
          rw [if_pos hp]
        rw [← hunf]
        exact h
      rw [returnSemiLoop_errors m s.next s' h2]
      rfl
    · have hunf : returnSemiLoop (m + 1) s = some s := by
        show (if s.peek.type = .SEMICOLON then returnSemiLoop m s.next else some s) = _
        rw [if_neg hp]
      rw [hunf] at h
      injection h with h1
      rw [← h1]

theorem paramLoop_errors : ∀ (m : Nat) (acc : List Ident) (s : PState) (ids : List Ident)
    (s' : PState), paramLoop m acc s = some (ids, s') → s'.errors = s.errors
  | 0, _, _, _, _, h => by cases h
  | m + 1, acc, s, ids, s', h => by
    by_cases hp : s.peek.type = .COMMA
    · have h2 : paramLoop m (acc ++ [⟨s.next.next.cur, s.next.next.cur.literal⟩]) s.next.next
          = some (ids, s') := by
        have hunf : paramLoop (m + 1) acc s
            = paramLoop m (acc ++ [⟨s.next.next.cur, s.next.next.cur.literal⟩]) s.next.next := by
          show (if s.peek.type = .COMMA then _ else some (acc, s)) = _
          rw [if_pos hp]
        rw [← hunf]
        exact h
      rw [paramLoop_errors m _ s.next.next ids s' h2]
      rfl
    · have hunf : paramLoop (m + 1) acc s = some (acc, s) := by
        show (if s.peek.type = .COMMA then _ else some (acc, s)) = _
        rw [if_neg hp]
      rw [hunf] at h
      injection h with h1
      injection h1 with h2 h3
      rw [← h3]

theorem wfStmts_snoc : ∀ (acc : StmtList) (st : Stmt), wfStmts acc = true →
    wfStmt st = true → wfStmts (acc.snoc st) = true
  | .nil, st, _, hst => by simp [StmtList.snoc, wfStmts, hst]
  | .cons s rest, st, h, hst => by
    have h2 : wfStmt s = true ∧ wfStmts rest = true := by simpa [wfStmts] using h
    have h3 := wfStmts_snoc rest st h2.2 hst
    simp [StmtList.snoc, wfStmts, h2.1, h3]

theorem wfExprList_snoc : ∀ (acc : ExprList) (a : OExpr), wfExprList acc = true →
    wfOExpr a = true → wfExprList (acc.snoc a) = true
  | .nil, a, _, ha => by simp [ExprList.snoc, wfExprList, ha]
  | .cons b rest, a, h, ha => by
    have h2 : wfOExpr b = true ∧ wfExprList rest = true := by simpa [wfExprList] using h
    have h3 := wfExprList_snoc rest a h2.2 ha
    simp [ExprList.snoc, wfExprList, h2.1, h3]

/-- Error accumulation and well-formedness for all parse functions at
fuel `n`: errors only grow (`s'.errors = s.errors ++ d`), and when a call
adds no error (`d = []`) its result has every mandatory child present. -/
def ErrOk (n : Nat) : Prop :=
  (∀ w prec s e s', parseExpression w n prec s = some (e, s') →
    ∃ d, s'.errors = s.errors ++ d ∧ (d = [] → wfOExpr e = true)) ∧
  (∀ w s e s', hasPrefixFn s.cur.type = true → runPrefixFn w n s = some (e, s') →
    ∃ d, s'.errors = s.errors ++ d ∧ (d = [] → wfOExpr e = true)) ∧
  (∀ w prec leftE s e s', infixLoop w n prec leftE s = some (e, s') →
    ∃ d, s'.errors = s.errors ++ d ∧
      (d = [] → wfOExpr leftE = true → wfOExpr e = true)) ∧
  (∀ w s e s', parsePrefixExpression w n s = some (e, s') →
    ∃ d, s'.errors = s.errors ++ d ∧ (d = [] → wfOExpr e = true)) ∧
  (∀ w leftE s e s', parseInfixExpression w n leftE s = some (e, s') →
    ∃ d, s'.errors = s.errors ++ d ∧
      (d = [] → wfOExpr leftE = true → wfOExpr e = true)) ∧
  (∀ w s e s', parseGroupedExpression w n s = some (e, s') →
    ∃ d, s'.errors = s.errors ++ d ∧ (d = [] → wfOExpr e = true)) ∧
  (∀ w s e s', parseIfExpression w n s = some (e, s') →
    ∃ d, s'.errors = s.errors ++ d ∧ (d = [] → wfOExpr e = true)) ∧
  (∀ w s b s', parseBlockStatement w n s = some (b, s') →
    ∃ d, s'.errors = s.errors ++ d ∧ (d = [] → wfBlock b = true)) ∧
  (∀ w acc s sts s', blockLoop w n acc s = some (sts, s') →
    ∃ d, s'.errors = s.errors ++ d ∧
      (d = [] → wfStmts acc = true → wfStmts sts = true)) ∧
  (∀ w s st s', parseStatement w n s = some (st, s') →
    ∃ d, s'.errors = s.errors ++ d ∧
      (d = [] → ∀ t, st = some t → wfStmt t = true)) ∧
  (∀ w s st s', parseLetStatement w n s = some (st, s') →
    ∃ d, s'.errors = s.errors ++ d ∧
      (d = [] → ∀ t, st = some t → wfStmt t = true)) ∧
  (∀ w s st s', parseReturnStatement w n s = some (st, s') →
    ∃ d, s'.errors = s.errors ++ d ∧
      (d = [] → ∀ t, st = some t → wfStmt t = true)) ∧
  (∀ w s st s', parseExpressionStatement w n s = some (st, s') →
    ∃ d, s'.errors = s.errors ++ d ∧
      (d = [] → ∀ t, st = some t → wfStmt t = true)) ∧
  (∀ w s e s', parseFunctionLiteral w n s = some (e, s') →
    ∃ d, s'.errors = s.errors ++ d ∧ (d = [] → wfOExpr e = true)) ∧
  (∀ w s ps s', parseFunctionParameters w n s = some (ps, s') →
    ∃ d, s'.errors = s.errors ++ d ∧ (d = [] → ps.isSome = true)) ∧
  (∀ w leftE s e s', parseCallExpression w n leftE s = some (e, s') →
    ∃ d, s'.errors = s.errors ++ d ∧
      (d = [] → wfOExpr leftE = true → wfOExpr e = true)) ∧
  (∀ w s a s', parseCallArguments w n s = some (a, s') →
    ∃ d, s'.errors = s.errors ++ d ∧ (d = [] → wfOExprListReq a = true)) ∧
  (∀ w acc s a s', argLoop w n acc s = some (a, s') →
    ∃ d, s'.errors = s.errors ++ d ∧
      (d = [] → wfExprList acc = true → wfExprList a = true)) ∧
  (∀ w acc s sts s', programLoop w n acc s = some (sts, s') →
    ∃ d, s'.errors = s.errors ++ d ∧
      (d = [] → wfStmts acc = true → wfStmts sts = true))

theorem errOk : ∀ n, ErrOk n := by
  intro n
  induction n with
  | zero =>
    refine ⟨fun w prec s e s' h => ?_, fun w s e s' hpf h => ?_,
      fun w prec leftE s e s' h => ?_, fun w s e s' h => ?_,
      fun w leftE s e s' h => ?_, fun w s e s' h => ?_, fun w s e s' h => ?_,
      fun w s b s' h => ?_, fun w acc s sts s' h => ?_, fun w s st s' h => ?_,
      fun w s st s' h => ?_, fun w s st s' h => ?_, fun w s st s' h => ?_,
      fun w s e s' h => ?_, fun w s ps s' h => ?_, fun w leftE s e s' h => ?_,
      fun w s a s' h => ?_, fun w acc s a s' h => ?_,
      fun w acc s sts s' h => ?_⟩ <;>
      exact Option.noConfusion h
  | succ m ih =>
    obtain ⟨ihPE, ihRPF, ihIL, ihPPE, ihPIE, ihPGE, ihPIF, ihPBS, ihBL, ihST,
      ihLET, ihRET, ihES, ihPFL, ihPFP, ihPCE, ihPCA, ihAL, ihPL⟩ := ih
    refine ⟨?_, ?_, ?_, ?_, ?_, ?_, ?_, ?_, ?_, ?_, ?_, ?_, ?_, ?_, ?_, ?_, ?_, ?_, ?_⟩
    -- parseExpression
    case _ =>
      intro w prec s e s' h
      simp only [parseExpression] at h
      split_ifs at h with hpf
      · cases hrp : runPrefixFn w m s with
        | none => rw [hrp] at h; cases h
        | some p1 =>
          obtain ⟨e1, s1⟩ := p1
          rw [hrp] at h
          try dsimp only at h
          obtain ⟨d1, hd1, hw1⟩ := ihRPF w s e1 s1 hpf hrp
          obtain ⟨d2, hd2, hw2⟩ := ihIL w prec e1 s1 e s' h
          refine ⟨d1 ++ d2, by rw [hd2, hd1, List.append_assoc], fun hd => ?_⟩
          obtain ⟨hd1e, hd2e⟩ := List.append_eq_nil.mp hd
          exact hw2 hd2e (hw1 hd1e)
      · injection h with h1
        injection h1 with he hs
        refine ⟨[noPrefixMsg s.cur.type], ?_, fun hd => absurd hd (by simp)⟩
        rw [← hs]
        rfl
    -- runPrefixFn
    case _ =>
      intro w s e s' hpf h
      simp only [runPrefixFn] at h
      cases htype : s.cur.type <;> rw [htype] at h hpf
      case IDENT =>
        have h1 : parseIdentifier s = (e, s') := by injection h
        have he : (parseIdentifier s).1 = e := congrArg Prod.fst h1
        have hs : s = s' := congrArg Prod.snd h1
        refine ⟨[], by rw [← hs]; simp, fun _ => ?_⟩
        rw [← he]
        rfl
      case INT =>
        cases hpi : parseIntBase0 s.cur.literal with
        | some v =>
          have hred : parseIntegerLiteral s = (.val (.integerLiteral s.cur v), s) := by
            unfold parseIntegerLiteral
            rw [hpi]
          rw [hred] at h
          injection h with h1
          injection h1 with he hs
          refine ⟨[], by rw [← hs]; simp, fun _ => ?_⟩
          rw [← he]
          rfl
        | none =>
          have hred : parseIntegerLiteral s
              = (.nil, s.pushError (couldNotParseMsg s.cur.literal)) := by
            unfold parseIntegerLiteral
            rw [hpi]
          rw [hred] at h
          injection h with h1
          injection h1 with he hs
          refine ⟨[couldNotParseMsg s.cur.literal], ?_, fun hd => absurd hd (by simp)⟩
          rw [← hs]
          rfl
      case TRUE =>
        have h1 : parseBoolean s = (e, s') := by injection h
        have he : (parseBoolean s).1 = e := congrArg Prod.fst h1
        have hs : s = s' := congrArg Prod.snd h1
        refine ⟨[], by rw [← hs]; simp, fun _ => ?_⟩
        rw [← he]
        rfl
      case FALSE =>
        have h1 : parseBoolean s = (e, s') := by injection h
        have he : (parseBoolean s).1 = e := congrArg Prod.fst h1
        have hs : s = s' := congrArg Prod.snd h1
        refine ⟨[], by rw [← hs]; simp, fun _ => ?_⟩
        rw [← he]
        rfl
      case BANG => exact ihPPE w s e s' h
      case MINUS => exact ihPPE w s e s' h
      case LPAREN => exact ihPGE w s e s' h
      case IF => exact ihPIF w s e s' h
      case FUNCTION => exact ihPFL w s e s' h
      all_goals exact absurd hpf (by decide)
    -- infixLoop
    case _ =>
      intro w prec leftE s e s' h
      simp only [infixLoop] at h
      split_ifs at h with hc hin hlp
      · cases hpc : parseCallExpression w m leftE s.next with
        | none => rw [hpc] at h; cases h
        | some p1 =>
          obtain ⟨e1, s2⟩ := p1
          rw [hpc] at h
          try dsimp only at h
          obtain ⟨d1, hd1, hw1⟩ := ihPCE w leftE s.next e1 s2 hpc
          rw [next_errors] at hd1
          obtain ⟨d2, hd2, hw2⟩ := ihIL w prec e1 s2 e s' h
          refine ⟨d1 ++ d2, by rw [hd2, hd1, List.append_assoc], fun hd hl => ?_⟩
          obtain ⟨hd1e, hd2e⟩ := List.append_eq_nil.mp hd
          exact hw2 hd2e (hw1 hd1e hl)
      · cases hpi : parseInfixExpression w m leftE s.next with
        | none => rw [hpi] at h; cases h
        | some p1 =>
          obtain ⟨e1, s2⟩ := p1
          rw [hpi] at h
          try dsimp only at h
          obtain ⟨d1, hd1, hw1⟩ := ihPIE w leftE s.next e1 s2 hpi
          rw [next_errors] at hd1
          obtain ⟨d2, hd2, hw2⟩ := ihIL w prec e1 s2 e s' h
          refine ⟨d1 ++ d2, by rw [hd2, hd1, List.append_assoc], fun hd hl => ?_⟩
          obtain ⟨hd1e, hd2e⟩ := List.append_eq_nil.mp hd
          exact hw2 hd2e (hw1 hd1e hl)
      · injection h with h1
        injection h1 with he hs
        refine ⟨[], by rw [← hs]; simp, fun _ hl => ?_⟩
        rw [← he]
        exact hl
      · injection h with h1
        injection h1 with he hs
        refine ⟨[], by rw [← hs]; simp, fun _ hl => ?_⟩
        rw [← he]
        exact hl
    -- parsePrefixExpression
    case _ =>
      intro w s e s' h
      simp only [parsePrefixExpression] at h
      cases hpe : parseExpression w m PREFIX s.next with
      | none => rw [hpe] at h; cases h
      | some p1 =>
        obtain ⟨r, s1⟩ := p1
        rw [hpe] at h
        try dsimp only at h
        obtain ⟨d, hd, hw⟩ := ihPE w PREFIX s.next r s1 hpe
        rw [next_errors] at hd
        injection h with h1
        injection h1 with he hs
        refine ⟨d, by rw [← hs]; exact hd, fun hd0 => ?_⟩
        rw [← he]
        have hr := hw hd0
        simp [wfOExpr, wfExpr, hr]
    -- parseInfixExpression
    case _ =>
      intro w leftE s e s' h
      simp only [parseInfixExpression] at h
      cases hpe : parseExpression w m (precedenceOf s.cur.type) s.next with
      | none => rw [hpe] at h; cases h
      | some p1 =>
        obtain ⟨r, s1⟩ := p1
        rw [hpe] at h
        try dsimp only at h
        obtain ⟨d, hd, hw⟩ := ihPE w (precedenceOf s.cur.type) s.next r s1 hpe
        rw [next_errors] at hd
        injection h with h1
        injection h1 with he hs
        refine ⟨d, by rw [← hs]; exact hd, fun hd0 hl => ?_⟩
        rw [← he]
        have hr := hw hd0
        simp [wfOExpr, wfExpr, hr]
        simpa [wfOExpr] using hl
    -- parseGroupedExpression
    case _ =>
      intro w s e s' h
      simp only [parseGroupedExpression] at h
      cases hpe : parseExpression w m LOWEST s.next with
      | none => rw [hpe] at h; cases h
      | some p1 =>
        obtain ⟨e1, s1⟩ := p1
        rw [hpe] at h
        try dsimp only at h
        obtain ⟨d1, hd1, hw1⟩ := ihPE w LOWEST s.next e1 s1 hpe
        rw [next_errors] at hd1
        rcases hep : expectPeek .RPAREN s1 with ⟨b, s2⟩
        rw [hep] at h
        cases b
        · try dsimp only at h
          injection h with h1
          injection h1 with he hs
          have herr := expectPeek_false_errors _ _ _ hep
          refine ⟨d1 ++ [expectedMsg .RPAREN s1.peek.type], ?_,
            fun hd => absurd (List.append_eq_nil.mp hd).2 (by simp)⟩
          rw [← hs, herr, hd1, List.append_assoc]
        · try dsimp only at h
          injection h with h1
          injection h1 with he hs
          have herr := expectPeek_true_errors _ _ _ hep
          refine ⟨d1, ?_, fun hd0 => ?_⟩
          · rw [← hs, herr, hd1]
          · rw [← he]
            exact hw1 hd0
    -- parseIfExpression
    case _ =>
      intro w s e s' h
      simp only [parseIfExpression] at h
      rcases h1 : expectPeek .LPAREN s with ⟨b1, s1⟩
      rw [h1] at h
      cases b1
      · try dsimp only at h
        injection h with h2
        injection h2 with he hs
        refine ⟨[expectedMsg .LPAREN s.peek.type], ?_, fun hd => absurd hd (by simp)⟩
        rw [← hs]
        exact expectPeek_false_errors _ _ _ h1
      · try dsimp only at h
        have herr1 := expectPeek_true_errors _ _ _ h1
        cases hpe : parseExpression w m LOWEST s1.next with
        | none => rw [hpe] at h; cases h
        | some p2 =>
          obtain ⟨cond, s2⟩ := p2
          rw [hpe] at h
          try dsimp only at h
          obtain ⟨d1, hd1, hw1⟩ := ihPE w LOWEST s1.next cond s2 hpe
          rw [next_errors, herr1] at hd1
          rcases h3 : expectPeek .RPAREN s2 with ⟨b2, s3⟩
          rw [h3] at h
          cases b2
          · try dsimp only at h
            injection h with h4
            injection h4 with he hs
            refine ⟨d1 ++ [expectedMsg .RPAREN s2.peek.type], ?_,
              fun hd => absurd (List.append_eq_nil.mp hd).2 (by simp)⟩
            rw [← hs, expectPeek_false_errors _ _ _ h3, hd1, List.append_assoc]
          · try dsimp only at h
            have herr3 := expectPeek_true_errors _ _ _ h3
            rcases h4 : expectPeek .LBRACE s3 with ⟨b3, s4⟩
            rw [h4] at h
            cases b3
            · try dsimp only at h
              injection h with h5
              injection h5 with he hs
              refine ⟨d1 ++ [expectedMsg .LBRACE s3.peek.type], ?_,
                fun hd => absurd (List.append_eq_nil.mp hd).2 (by simp)⟩
              rw [← hs, expectPeek_false_errors _ _ _ h4, herr3, hd1, List.append_assoc]
            · try dsimp only at h
              have herr4 := expectPeek_true_errors _ _ _ h4
              cases hbs : parseBlockStatement w m s4 with
              | none => rw [hbs] at h; cases h
              | some p3 =>
                obtain ⟨cons, s5⟩ := p3
                rw [hbs] at h
                try dsimp only at h
                obtain ⟨d2, hd2, hw2⟩ := ihPBS w s4 cons s5 hbs
                rw [herr4, herr3, hd1] at hd2
                split_ifs at h with hel
                · rcases h6 : expectPeek .LBRACE s5.next with ⟨b4, s7⟩
                  rw [h6] at h
                  cases b4
                  · try dsimp only at h
                    injection h with h7
                    injection h7 with he hs
                    refine ⟨(d1 ++ d2) ++ [expectedMsg .LBRACE s5.next.peek.type], ?_,
                      fun hd => absurd (List.append_eq_nil.mp hd).2 (by simp)⟩
                    rw [← hs, expectPeek_false_errors _ _ _ h6, next_errors, hd2,
                      List.append_assoc, List.append_assoc, List.append_assoc]
                  · try dsimp only at h
                    have herr6 := expectPeek_true_errors _ _ _ h6
                    cases hbs2 : parseBlockStatement w m s7 with
                    | none => rw [hbs2] at h; cases h
                    | some p4 =>
                      obtain ⟨alt, s8⟩ := p4
                      rw [hbs2] at h
                      try dsimp only at h
                      obtain ⟨d3, hd3, hw3⟩ := ihPBS w s7 alt s8 hbs2
                      rw [herr6, next_errors, hd2] at hd3
                      injection h with h8
                      injection h8 with he hs
                      refine ⟨(d1 ++ d2) ++ d3, ?_, fun hd => ?_⟩
                      · rw [← hs, hd3, List.append_assoc, List.append_assoc,
                          List.append_assoc]
                      · obtain ⟨hd12, hd3e⟩ := List.append_eq_nil.mp hd
                        obtain ⟨hd1e, hd2e⟩ := List.append_eq_nil.mp hd12
                        rw [← he]
                        have hc := hw1 hd1e
                        have hcons := hw2 hd2e
                        have halt := hw3 hd3e
                        simp [wfOExpr, wfExpr, wfOBlockReq, wfOBlockOpt, hc, hcons, halt]
                · injection h with h8
                  injection h8 with he hs
                  refine ⟨d1 ++ d2, by rw [← hs, hd2, List.append_assoc], fun hd => ?_⟩
                  obtain ⟨hd1e, hd2e⟩ := List.append_eq_nil.mp hd
                  rw [← he]
                  have hc := hw1 hd1e
                  have hcons := hw2 hd2e
                  simp [wfOExpr, wfExpr, wfOBlockReq, wfOBlockOpt, hc, hcons]
    -- parseBlockStatement
    case _ =>
      intro w s b s' h
      simp only [parseBlockStatement] at h
      cases hbl : blockLoop w m .nil s.next with
      | none => rw [hbl] at h; cases h
      | some p1 =>
        obtain ⟨sts, s1⟩ := p1
        rw [hbl] at h
        try dsimp only at h
        obtain ⟨d, hd, hw⟩ := ihBL w .nil s.next sts s1 hbl
        rw [next_errors] at hd
        injection h with h1
        injection h1 with hb hs
        refine ⟨d, by rw [← hs]; exact hd, fun hd0 => ?_⟩
        rw [← hb]
        have := hw hd0 rfl
        simpa [wfBlock] using this
    -- blockLoop
    case _ =>
      intro w acc s sts s' h
      simp only [blockLoop] at h
      split_ifs at h with hc
      · injection h with h1
        injection h1 with hsts hs
        refine ⟨[], by rw [← hs]; simp, fun _ hacc => ?_⟩
        rw [← hsts]
        exact hacc
      · cases hst : parseStatement w m s with
        | none => rw [hst] at h; cases h
        | some p1 =>
          obtain ⟨st?, s1⟩ := p1
          rw [hst] at h
          obtain ⟨d1, hd1, hw1⟩ := ihST w s st? s1 hst
          cases st? with
          | none =>
            try dsimp only at h
            obtain ⟨d2, hd2, hw2⟩ := ihBL w acc s1.next sts s' h
            rw [next_errors, hd1] at hd2
            refine ⟨d1 ++ d2, by rw [hd2, List.append_assoc], fun hd hacc => ?_⟩
            obtain ⟨hd1e, hd2e⟩ := List.append_eq_nil.mp hd
            exact hw2 hd2e hacc
          | some st =>
            try dsimp only at h
            obtain ⟨d2, hd2, hw2⟩ := ihBL w (acc.snoc st) s1.next sts s' h
            rw [next_errors, hd1] at hd2
            refine ⟨d1 ++ d2, by rw [hd2, List.append_assoc], fun hd hacc => ?_⟩
            obtain ⟨hd1e, hd2e⟩ := List.append_eq_nil.mp hd
            exact hw2 hd2e (wfStmts_snoc acc st hacc (hw1 hd1e st rfl))
    -- parseStatement
    case _ =>
      intro w s st s' h
      simp only [parseStatement] at h
      cases htype : s.cur.type <;> rw [htype] at h
      case LET => exact ihLET w s st s' h
      case RETURN => exact ihRET w s st s' h
      all_goals exact ihES w s st s' h
    -- parseLetStatement
    case _ =>
      intro w s st s' h
      simp only [parseLetStatement] at h
      rcases h1 : expectPeek .IDENT s with ⟨b1, s1⟩
      rw [h1] at h
      cases b1
      · try dsimp only at h
        injection h with h2
        injection h2 with hst hs
        refine ⟨[expectedMsg .IDENT s.peek.type], ?_, fun hd => absurd hd (by simp)⟩
        rw [← hs]
        exact expectPeek_false_errors _ _ _ h1
      · try dsimp only at h
        have herr1 := expectPeek_true_errors _ _ _ h1
        rcases h2 : expectPeek .ASSIGN s1 with ⟨b2, s2⟩
        rw [h2] at h
        cases b2
        · try dsimp only at h
          injection h with h3
          injection h3 with hst hs
          refine ⟨[expectedMsg .ASSIGN s1.peek.type], ?_, fun hd => absurd hd (by simp)⟩
          rw [← hs, expectPeek_false_errors _ _ _ h2, herr1]
        · try dsimp only at h
          have herr2 := expectPeek_true_errors _ _ _ h2
          cases hpe : parseExpression w m LOWEST s2.next with
          | none => rw [hpe] at h; cases h
          | some p1 =>
            obtain ⟨v, s3⟩ := p1
            rw [hpe] at h
            try dsimp only at h
            obtain ⟨d, hd, hw⟩ := ihPE w LOWEST s2.next v s3 hpe
            rw [next_errors, herr2, herr1] at hd
            injection h with h4
            injection h4 with hst hs
            refine ⟨d, ?_, fun hd0 t ht => ?_⟩
            · rw [← hs]
              by_cases hsemi : s3.peek.type = .SEMICOLON
              · rw [if_pos hsemi, next_errors]
                exact hd
              · rw [if_neg hsemi]
                exact hd
            · rw [← hst] at ht
              injection ht with ht1
              rw [← ht1]
              have hv := hw hd0
              simp [wfStmt, hv]
    -- parseReturnStatement
    case _ =>
      intro w s st s' h
      simp only [parseReturnStatement] at h
      cases hpe : parseExpression w m LOWEST s.next with
      | none => rw [hpe] at h; cases h
      | some p1 =>
        obtain ⟨v, s1⟩ := p1
        rw [hpe] at h
        try dsimp only at h
        obtain ⟨d, hd, hw⟩ := ihPE w LOWEST s.next v s1 hpe
        rw [next_errors] at hd
        cases w
        · rw [if_neg (by decide : ¬ (false = true))] at h
          try dsimp only at h
          injection h with h1
          injection h1 with hst hs
          refine ⟨d, ?_, fun hd0 t ht => ?_⟩
          · rw [← hs]
            by_cases hsemi : s1.peek.type = .SEMICOLON
            · rw [if_pos hsemi, next_errors]
              exact hd
            · rw [if_neg hsemi]
              exact hd
          · rw [← hst] at ht
            injection ht with ht1
            rw [← ht1]
            have hv := hw hd0
            simp [wfStmt, hv]
        · rw [if_pos rfl] at h
          cases hrs : returnSemiLoop (m + 1) s1 with
          | none => rw [hrs] at h; cases h
          | some s2 =>
            rw [hrs] at h
            try dsimp only at h
            injection h with h1
            injection h1 with hst hs
            refine ⟨d, ?_, fun hd0 t ht => ?_⟩
            · rw [← hs, returnSemiLoop_errors _ _ _ hrs]
              exact hd
            · rw [← hst] at ht
              injection ht with ht1
              rw [← ht1]
              have hv := hw hd0
              simp [wfStmt, hv]
    -- parseExpressionStatement
    case _ =>
      intro w s st s' h
      simp only [parseExpressionStatement] at h
      cases hpe : parseExpression w m LOWEST s with
      | none => rw [hpe] at h; cases h
      | some p1 =>
        obtain ⟨e1, s1⟩ := p1
        rw [hpe] at h
        try dsimp only at h
        obtain ⟨d, hd, hw⟩ := ihPE w LOWEST s e1 s1 hpe
        injection h with h1
        injection h1 with hst hs
        refine ⟨d, ?_, fun hd0 t ht => ?_⟩
        · rw [← hs]
          by_cases hsemi : s1.peek.type = .SEMICOLON
          · rw [if_pos hsemi, next_errors]
            exact hd
          · rw [if_neg hsemi]
            exact hd
        · rw [← hst] at ht
          injection ht with ht1
          rw [← ht1]
          have he := hw hd0
          simp [wfStmt, he]
    -- parseFunctionLiteral
    case _ =>
      intro w s e s' h
      simp only [parseFunctionLiteral] at h
      rcases h1 : expectPeek .LPAREN s with ⟨b1, s1⟩
      rw [h1] at h
      cases b1
      · try dsimp only at h
        injection h with h2
        injection h2 with he hs
        refine ⟨[expectedMsg .LPAREN s.peek.type], ?_, fun hd => absurd hd (by simp)⟩
        rw [← hs]
        exact expectPeek_false_errors _ _ _ h1
      · try dsimp only at h
        have herr1 := expectPeek_true_errors _ _ _ h1
        cases hfp : parseFunctionParameters w m s1 with
        | none => rw [hfp] at h; cases h
        | some p1 =>
          obtain ⟨ps, s2⟩ := p1
          rw [hfp] at h
          try dsimp only at h
          obtain ⟨d1, hd1, hw1⟩ := ihPFP w s1 ps s2 hfp
          rw [herr1] at hd1
          rcases h3 : expectPeek .LBRACE s2 with ⟨b2, s3⟩
          rw [h3] at h
          cases b2
          · try dsimp only at h
            injection h with h4
            injection h4 with he hs
            refine ⟨d1 ++ [expectedMsg .LBRACE s2.peek.type], ?_,
              fun hd => absurd (List.append_eq_nil.mp hd).2 (by simp)⟩
            rw [← hs, expectPeek_false_errors _ _ _ h3, hd1, List.append_assoc]
          · try dsimp only at h
            have herr3 := expectPeek_true_errors _ _ _ h3
            cases hbs : parseBlockStatement w m s3 with
            | none => rw [hbs] at h; cases h
            | some p2 =>
              obtain ⟨bb, s4⟩ := p2
              rw [hbs] at h
              try dsimp only at h
              obtain ⟨d2, hd2, hw2⟩ := ihPBS w s3 bb s4 hbs
              rw [herr3, hd1] at hd2
              injection h with h5
              injection h5 with he hs
              refine ⟨d1 ++ d2, by rw [← hs, hd2, List.append_assoc], fun hd => ?_⟩
              obtain ⟨hd1e, hd2e⟩ := List.append_eq_nil.mp hd
              rw [← he]
              have hps := hw1 hd1e
              have hb := hw2 hd2e
              simp [wfOExpr, wfExpr, wfOBlockReq, hps, hb]
    -- parseFunctionParameters
    case _ =>
      intro w s ps s' h
      simp only [parseFunctionParameters] at h
      split_ifs at h with hrp
      · injection h with h1
        injection h1 with hps hs
        refine ⟨[], by rw [← hs, next_errors]; simp, fun _ => ?_⟩
        rw [← hps]
        rfl
      · cases hpl : paramLoop (m + 1) [⟨s.next.cur, s.next.cur.literal⟩] s.next with
        | none => rw [hpl] at h; cases h
        | some p1 =>
          obtain ⟨ids, s2⟩ := p1
          rw [hpl] at h
          try dsimp only at h
          have herr := paramLoop_errors _ _ _ _ _ hpl
          rw [next_errors] at herr
          rcases h3 : expectPeek .RPAREN s2 with ⟨b, s3⟩
          rw [h3] at h
          cases b
          · try dsimp only at h
            injection h with h4
            injection h4 with hps hs
            refine ⟨[expectedMsg .RPAREN s2.peek.type], ?_, fun hd => absurd hd (by simp)⟩
            rw [← hs, expectPeek_false_errors _ _ _ h3, herr]
          · try dsimp only at h
            injection h with h4
            injection h4 with hps hs
            refine ⟨[], ?_, fun _ => ?_⟩
            · rw [← hs, expectPeek_true_errors _ _ _ h3, herr]
              simp
            · rw [← hps]
              rfl
    -- parseCallExpression
    case _ =>
      intro w leftE s e s' h
      simp only [parseCallExpression] at h
      cases hca : parseCallArguments w m s with
      | none => rw [hca] at h; cases h
      | some p1 =>
        obtain ⟨args, s1⟩ := p1
        rw [hca] at h
        try dsimp only at h
        obtain ⟨d, hd, hw⟩ := ihPCA w s args s1 hca
        injection h with h1
        injection h1 with he hs
        refine ⟨d, by rw [← hs]; exact hd, fun hd0 hl => ?_⟩
        rw [← he]
        have hargs := hw hd0
        simp [wfOExpr, wfExpr, hargs]
        simpa [wfOExpr] using hl
    -- parseCallArguments
    case _ =>
      intro w s a s' h
      simp only [parseCallArguments] at h
      split_ifs at h with hrp
      · injection h with h1
        injection h1 with ha hs
        refine ⟨[], by rw [← hs, next_errors]; simp, fun _ => ?_⟩
        rw [← ha]
        rfl
      · cases hpe : parseExpression w m LOWEST s.next with
        | none => rw [hpe] at h; cases h
        | some p1 =>
          obtain ⟨a1, s1⟩ := p1
          rw [hpe] at h
          try dsimp only at h
          obtain ⟨d1, hd1, hw1⟩ := ihPE w LOWEST s.next a1 s1 hpe
          rw [next_errors] at hd1
          cases hal : argLoop w m (ExprList.cons a1 .nil) s1 with
          | none => rw [hal] at h; cases h
          | some p2 =>
            obtain ⟨args, s2⟩ := p2
            rw [hal] at h
            try dsimp only at h
            obtain ⟨d2, hd2, hw2⟩ := ihAL w (ExprList.cons a1 .nil) s1 args s2 hal
            rw [hd1] at hd2
            rcases h3 : expectPeek .RPAREN s2 with ⟨b, s3⟩
            rw [h3] at h
            cases b
            · try dsimp only at h
              injection h with h4
              injection h4 with ha hs
              refine ⟨(d1 ++ d2) ++ [expectedMsg .RPAREN s2.peek.type], ?_,
                fun hd => absurd (List.append_eq_nil.mp hd).2 (by simp)⟩
              rw [← hs, expectPeek_false_errors _ _ _ h3, hd2]
              simp [List.append_assoc]
            · try dsimp only at h
              injection h with h4
              injection h4 with ha hs
              refine ⟨d1 ++ d2, ?_, fun hd => ?_⟩
              · rw [← hs, expectPeek_true_errors _ _ _ h3, hd2, List.append_assoc]
              · obtain ⟨hd1e, hd2e⟩ := List.append_eq_nil.mp hd
                rw [← ha]
                have ha1 := hw1 hd1e
                have hargs := hw2 hd2e (by simp [wfExprList, ha1])
                simpa [wfOExprListReq] using hargs
    -- argLoop
    case _ =>
      intro w acc s a s' h
      simp only [argLoop] at h
      split_ifs at h with hcm
      · cases hpe : parseExpression w m LOWEST s.next.next with
        | none => rw [hpe] at h; cases h
        | some p1 =>
          obtain ⟨a1, s1⟩ := p1
          rw [hpe] at h
          try dsimp only at h
          obtain ⟨d1, hd1, hw1⟩ := ihPE w LOWEST s.next.next a1 s1 hpe
          rw [next_errors, next_errors] at hd1
          obtain ⟨d2, hd2, hw2⟩ := ihAL w (acc.snoc a1) s1 a s' h
          rw [hd1] at hd2
          refine ⟨d1 ++ d2, by rw [hd2, List.append_assoc], fun hd hacc => ?_⟩
          obtain ⟨hd1e, hd2e⟩ := List.append_eq_nil.mp hd
          exact hw2 hd2e (wfExprList_snoc acc a1 hacc (hw1 hd1e))
      · injection h with h1
        injection h1 with ha hs
        refine ⟨[], by rw [← hs]; simp, fun _ hacc => ?_⟩
        rw [← ha]
        exact hacc
    -- programLoop
    case _ =>
      intro w acc s sts s' h
      simp only [programLoop] at h
      split_ifs at h with hc
      · injection h with h1
        injection h1 with hsts hs
        refine ⟨[], by rw [← hs]; simp, fun _ hacc => ?_⟩
        rw [← hsts]
        exact hacc
      · cases hst : parseStatement w m s with
        | none => rw [hst] at h; cases h
        | some p1 =>
          obtain ⟨st?, s1⟩ := p1
          rw [hst] at h
          obtain ⟨d1, hd1, hw1⟩ := ihST w s st? s1 hst
          cases st? with
          | none =>
            try dsimp only at h
            obtain ⟨d2, hd2, hw2⟩ := ihPL w acc s1.next sts s' h
            rw [next_errors, hd1] at hd2
            refine ⟨d1 ++ d2, by rw [hd2, List.append_assoc], fun hd hacc => ?_⟩
            obtain ⟨hd1e, hd2e⟩ := List.append_eq_nil.mp hd
            exact hw2 hd2e hacc
          | some st =>
            try dsimp only at h
            obtain ⟨d2, hd2, hw2⟩ := ihPL w (acc.snoc st) s1.next sts s' h
            rw [next_errors, hd1] at hd2
            refine ⟨d1 ++ d2, by rw [hd2, List.append_assoc], fun hd hacc => ?_⟩
            obtain ⟨hd1e, hd2e⟩ := List.append_eq_nil.mp hd
            exact hw2 hd2e (wfStmts_snoc acc st hacc (hw1 hd1e st rfl))

/-- C8: `ParseProgram` terminates on every finite input: the fuel
`parseFuel` provably suffices for the whole parse of the token stream of
any input (the driver loop never hits fuel exhaustion), for the parser as
written and for the C7 variant alike. -/
theorem c8_parse_terminates (w : Bool) (input : List Nat) :
    ∃ prog s', programLoop w (parseFuel (tokenize input)) .nil
      ⟨tokenize input, []⟩ = some (prog, s') := by
  obtain ⟨prog, s', h1, _⟩ := (fuelOk (parseFuel (tokenize input))).2.2.2.2.2.2.2.2.2.2.2.2.2.2.2.2.2.2
    w .nil ⟨tokenize input, []⟩ (by
      show 8 * (tokenize input).length + 7 ≤ 8 * (tokenize input).length + 8
      omega)
  exact ⟨prog, s', h1⟩

/-- C9: on an error-free parse, every node of the returned program has
all mandatory children present (`wfStmts`), so `Program.String()`
dereferences no absent child and is well-defined. -/
theorem c9_error_free_wellformed (input : List Nat) (prog : Program)
    (errs : List (List Nat)) (h : ParseProgram input = (prog, errs))
    (herrs : errs = []) :
    wfStmts prog = true ∧ (progString prog).isSome = true := by
  simp only [ParseProgram, parseWith] at h
  obtain ⟨p0, s0, hpl⟩ := c8_parse_terminates true input
  rw [hpl] at h
  try dsimp only at h
  injection h with h1 h2
  obtain ⟨d, hd, hw⟩ :=
    (errOk (parseFuel (tokenize input))).2.2.2.2.2.2.2.2.2.2.2.2.2.2.2.2.2.2
      true .nil ⟨tokenize input, []⟩ p0 s0 hpl
  have hde : d = [] := by
    rw [h2, herrs] at hd
    simpa using hd.symm
  have hwf := hw hde rfl
  rw [h1] at hwf
  exact ⟨hwf, wfStmts_print prog hwf⟩

/-- Witness for C9 at a concrete error-free input. -/
theorem c9_witness :
    wfStmts (ParseProgram (str "let x = 5;")).1 = true ∧
    (progString (ParseProgram (str "let x = 5;")).1).isSome = true :=
  c9_error_free_wellformed (str "let x = 5;") _ _ rfl (by decide)

/-! ## C1: the printer round-trip on the fully-parenthesized fragment

The spec's parenthetical says the printer is idempotent for
fully-parenthesized infix/prefix forms.  The fragment below captures
exactly those forms as produced by an error-free parse: identifier,
integer-literal and boolean leaves with the canonical literals the lexer
produces, and prefix/infix nodes (which the printer always wraps in
parentheses) over the registered operators. -/

/-- The token kind an operator literal of the fragment re-lexes to. -/
def fragOpType (op : List Nat) : TokenType :=
  if op = str "+" then .PLUS
  else if op = str "-" then .MINUS
  else if op = str "*" then .ASTERISK
  else if op = str "/" then .SLASH
  else if op = str "<" then .LT
  else if op = str ">" then .GT
  else if op = str "==" then .EQ
  else if op = str "!=" then .NOT_EQ
  else if op = str "!" then .BANG
  else .ILLEGAL

mutual
/-- The fully-parenthesized identifier/integer/boolean/prefix/infix
fragment with canonical literals: identifier values are nonempty
non-keyword letter runs, integer literals are digit runs accepted by
`ParseInt`, boolean literals are `true`/`false`, and the operators are
the registered prefix/infix operator literals. -/
def fragExpr : Expr → Bool
  | .identifier _ v =>
    decide (v ≠ []) && v.all isLetter && decide (lookupIdent v = .IDENT)
  | .integerLiteral tok _ =>
    decide (tok.literal ≠ []) && tok.literal.all isDigit &&
      (parseIntBase0 tok.literal).isSome
  | .booleanLiteral tok _ =>
    decide (tok.literal = str "true") || decide (tok.literal = str "false")
  | .prefixExpression _ op r =>
    (decide (op = str "!") || decide (op = str "-")) && fragOExpr r
  | .infixExpression _ l op r =>
    (decide (op = str "+") || decide (op = str "-") || decide (op = str "*") ||
     decide (op = str "/") || decide (op = str "<") || decide (op = str ">") ||
     decide (op = str "==") || decide (op = str "!=")) &&
    fragOExpr l && fragOExpr r
  | .ifExpression _ _ _ _ => false
  | .functionLiteral _ _ _ => false
  | .callExpression _ _ _ => false

def fragOExpr : OExpr → Bool
  | .nil => false
  | .val e => fragExpr e
end

mutual
/-- The token list re-lexing the printed form of a fragment expression
produces. -/
def canonicalToks : Expr → List Token
  | .identifier _ v => [⟨.IDENT, v⟩]
  | .integerLiteral tok _ => [⟨.INT, tok.literal⟩]
  | .booleanLiteral tok _ => [⟨lookupIdent tok.literal, tok.literal⟩]
  | .prefixExpression _ op r =>
    ⟨.LPAREN, str "("⟩ :: ⟨fragOpType op, op⟩ ::
      (canonicalToksO r ++ [⟨.RPAREN, str ")"⟩])
  | .infixExpression _ l op r =>
    ⟨.LPAREN, str "("⟩ ::
      (canonicalToksO l ++ ⟨fragOpType op, op⟩ ::
        (canonicalToksO r ++ [⟨.RPAREN, str ")"⟩]))
  | .ifExpression _ _ _ _ => []
  | .functionLiteral _ _ _ => []
  | .callExpression _ _ _ => []

def canonicalToksO : OExpr → List Token
  | .nil => []
  | .val e => canonicalToks e
end

/-- The final token of `canonicalToks` (on the fragment). -/
def lastTok : Expr → Token
  | .identifier _ v => ⟨.IDENT, v⟩
  | .integerLiteral tok _ => ⟨.INT, tok.literal⟩
  | .booleanLiteral tok _ => ⟨lookupIdent tok.literal, tok.literal⟩
  | _ => ⟨.RPAREN, str ")"⟩

/-- `TokSeq l ts l'`: successive `NextToken` calls starting from `l`
produce exactly the tokens `ts` and leave the lexer in state `l'`. -/
def TokSeq : Lexer → List Token → Lexer → Prop
  | l, [], l' => l' = l
  | l, t :: ts, l' => (l.nextToken).1 = t ∧ TokSeq (l.nextToken).2 ts l'

theorem tokSeq_append (ts1 : List Token) :
    ∀ (ts2 : List Token) (l l1 l2 : Lexer), TokSeq l ts1 l1 → TokSeq l1 ts2 l2 →
    TokSeq l (ts1 ++ ts2) l2 := by
  induction ts1 with
  | nil =>
    intro ts2 l l1 l2 h1 h2
    have he : l1 = l := h1
    rw [← he]
    simpa using h2
  | cons t ts ih =>
    intro ts2 l l1 l2 h1 h2
    exact ⟨h1.1, ih ts2 _ l1 l2 h1.2 h2⟩

/-! ### Suffix decomposition of valid lexer states -/

theorem getD_headD_drop (s : List Nat) (k : Nat) :
    s.getD k 0 = (List.drop k s).headD 0 := by
  rcases lt_or_ge k s.length with h | h
  · rw [List.getD_eq_getElem s 0 h, List.drop_eq_getElem_cons h]
    rfl
  · rw [List.drop_eq_nil_of_le h, List.getD_eq_default s 0 (by omega)]
    rfl

/-- A valid state whose remaining input starts with byte `c` has `ch = c`
and one `readChar` moves the remaining input past `c`. -/
theorem suffix_cons (l : Lexer) (c : Nat) (rest : List Nat) (hv : l.valid)
    (hd : List.drop l.position l.input = c :: rest) :
    l.ch = c ∧ l.position < l.input.length ∧
    List.drop (l.readChar).position (l.readChar).input = rest := by
  have hlt : l.position < l.input.length := by
    have hlen := congrArg List.length hd
    simp only [List.length_drop, List.length_cons] at hlen
    omega
  have hsplit := (List.drop_eq_getElem_cons hlt).symm.trans hd
  injection hsplit with h1 h2
  refine ⟨?_, hlt, ?_⟩
  · rw [hv.2, if_pos hlt, List.getD_eq_getElem l.input 0 hlt, h1]
  · rw [readChar_input, readChar_position_valid l hv]
    exact h2

/-- A valid state with no remaining input is past the end and has
`ch = 0`. -/
theorem suffix_nil (l : Lexer) (hv : l.valid)
    (hd : List.drop l.position l.input = []) :
    l.input.length ≤ l.position ∧ l.ch = 0 := by
  have hge : l.input.length ≤ l.position := by
    have hlen := congrArg List.length hd
    simp only [List.length_drop, List.length_nil] at hlen
    omega
  exact ⟨hge, valid_ch_high l hv hge⟩

/-- `ch` equals the head of the remaining input (with default `0`). -/
theorem suffix_ch (l : Lexer) (hv : l.valid) :
    l.ch = (List.drop l.position l.input).headD 0 := by
  cases hd : List.drop l.position l.input with
  | nil => rw [(suffix_nil l hv hd).2]; rfl
  | cons c r => rw [(suffix_cons l c r hv hd).1]; rfl

/-- `peekChar` equals the second byte of the remaining input (with
default `0`). -/
theorem suffix_peek (l : Lexer) (c : Nat) (rest : List Nat) (hv : l.valid)
    (hd : List.drop l.position l.input = c :: rest) :
    l.peekChar = rest.headD 0 := by
  have h2 := (suffix_cons l c rest hv hd).2.2
  rw [readChar_input, readChar_position_valid l hv] at h2
  have hrc : (l.readChar).ch = rest.headD 0 := by
    have := suffix_ch l.readChar (readChar_valid l)
    rw [readChar_input, readChar_position_valid l hv, h2] at this
    exact this
  have hshape : (l.readChar).ch
      = (if l.readPosition ≥ l.input.length then 0 else l.input.getD l.readPosition 0) := rfl
  unfold Lexer.peekChar
  rw [← hshape, hrc]

/-- The bytes of the remaining input, indexed from the current
position. -/
theorem suffix_bytes (s : List Nat) (p : Nat) (v rest : List Nat)
    (hd : List.drop p s = v ++ rest) :
    (∀ i, i < v.length → s.getD (p + i) 0 = v.getD i 0) ∧
    s.getD (p + v.length) 0 = rest.headD 0 := by
  constructor
  · intro i hi
    rw [getD_headD_drop, ← List.drop_drop i p s, hd,
      List.drop_append_of_le_length (by omega), getD_headD_drop]
    cases hvd : v.drop i with
    | nil =>
      exfalso
      have := congrArg List.length hvd
      simp only [List.length_drop, List.length_nil] at this
      omega
    | cons a tl => rfl
  · rw [getD_headD_drop, ← List.drop_drop v.length p s, hd, List.drop_left]

/-! ### Dispatch lemmas for known leading bytes -/

/-- The single-byte token kinds appearing in printed fragment forms. -/
def punctType : Nat → TokenType
  | 40 => .LPAREN
  | 41 => .RPAREN
  | 43 => .PLUS
  | 45 => .MINUS
  | 42 => .ASTERISK
  | 47 => .SLASH
  | 60 => .LT
  | 62 => .GT
  | _ => .ILLEGAL

theorem isLetter_not_special (c : Nat) (h : isLetter c = true) :
    c ≠ 61 ∧ c ≠ 33 ∧ c ≠ 43 ∧ c ≠ 45 ∧ c ≠ 42 ∧ c ≠ 47 ∧ c ≠ 60 ∧
    c ≠ 62 ∧ c ≠ 40 ∧ c ≠ 41 ∧ c ≠ 123 ∧ c ≠ 125 ∧ c ≠ 44 ∧ c ≠ 59 ∧
    c ≠ 0 ∧ isWhitespaceByte c = false := by
  have hc : ((97 ≤ c ∧ c ≤ 122) ∨ (65 ≤ c ∧ c ≤ 90)) ∨ c = 95 := by
    simpa [isLetter, decide_eq_true_eq] using h
  refine ⟨by omega, by omega, by omega, by omega, by omega, by omega, by omega,
    by omega, by omega, by omega, by omega, by omega, by omega, by omega,
    by omega, ?_⟩
  simp only [isWhitespaceByte, Bool.or_eq_false_iff, decide_eq_false_iff_not]
  omega

theorem isDigit_not_special (c : Nat) (h : isDigit c = true) :
    c ≠ 61 ∧ c ≠ 33 ∧ c ≠ 43 ∧ c ≠ 45 ∧ c ≠ 42 ∧ c ≠ 47 ∧ c ≠ 60 ∧
    c ≠ 62 ∧ c ≠ 40 ∧ c ≠ 41 ∧ c ≠ 123 ∧ c ≠ 125 ∧ c ≠ 44 ∧ c ≠ 59 ∧
    c ≠ 0 ∧ isLetter c = false ∧ isWhitespaceByte c = false := by
  have hc : 48 ≤ c ∧ c ≤ 57 := by
    simpa [isDigit, decide_eq_true_eq] using h
  refine ⟨by omega, by omega, by omega, by omega, by omega, by omega, by omega,
    by omega, by omega, by omega, by omega, by omega, by omega, by omega,
    by omega, ?_, ?_⟩
  · simp only [isLetter, Bool.or_eq_false_iff, Bool.and_eq_false_iff,
      decide_eq_false_iff_not]
    omega
  · simp only [isWhitespaceByte, Bool.or_eq_false_iff, decide_eq_false_iff_not]
    omega

/-- `nextTokenBody` on a recognized single-byte punctuator. -/
theorem body_punct (l : Lexer) (c : Nat) (rest : List Nat) (hv : l.valid)
    (hd : List.drop l.position l.input = c :: rest)
    (hc : c = 40 ∨ c = 41 ∨ c = 43 ∨ c = 45 ∨ c = 42 ∨ c = 47 ∨ c = 60 ∨ c = 62) :
    nextTokenBody l = (⟨punctType c, [c]⟩, l.readChar) := by
  have hch := (suffix_cons l c rest hv hd).1
  unfold nextTokenBody
  rw [hch]
  rcases hc with rfl | rfl | rfl | rfl | rfl | rfl | rfl | rfl
  · rw [if_neg (by decide : ¬((40 : Nat) = chr '=')),
      if_neg (by decide : ¬((40 : Nat) = chr '!')),
      if_neg (by decide : ¬((40 : Nat) = chr '+')),
      if_neg (by decide : ¬((40 : Nat) = chr '-')),
      if_neg (by decide : ¬((40 : Nat) = chr '*')),
      if_neg (by decide : ¬((40 : Nat) = chr '/')),
      if_neg (by decide : ¬((40 : Nat) = chr '<')),
      if_neg (by decide : ¬((40 : Nat) = chr '>')),
      if_pos (by decide : (40 : Nat) = chr '(')]
    rfl
  · rw [if_neg (by decide : ¬((41 : Nat) = chr '=')),
      if_neg (by decide : ¬((41 : Nat) = chr '!')),
      if_neg (by decide : ¬((41 : Nat) = chr '+')),
      if_neg (by decide : ¬((41 : Nat) = chr '-')),
      if_neg (by decide : ¬((41 : Nat) = chr '*')),
      if_neg (by decide : ¬((41 : Nat) = chr '/')),
      if_neg (by decide : ¬((41 : Nat) = chr '<')),
      if_neg (by decide : ¬((41 : Nat) = chr '>')),
      if_neg (by decide : ¬((41 : Nat) = chr '(')),
      if_pos (by decide : (41 : Nat) = chr ')')]
    rfl
  · rw [if_neg (by decide : ¬((43 : Nat) = chr '=')),
      if_neg (by decide : ¬((43 : Nat) = chr '!')),
      if_pos (by decide : (43 : Nat) = chr '+')]
    rfl
  · rw [if_neg (by decide : ¬((45 : Nat) = chr '=')),
      if_neg (by decide : ¬((45 : Nat) = chr '!')),
      if_neg (by decide : ¬((45 : Nat) = chr '+')),
      if_pos (by decide : (45 : Nat) = chr '-')]
    rfl
  · rw [if_neg (by decide : ¬((42 : Nat) = chr '=')),
      if_neg (by decide : ¬((42 : Nat) = chr '!')),
      if_neg (by decide : ¬((42 : Nat) = chr '+')),
      if_neg (by decide : ¬((42 : Nat) = chr '-')),
      if_pos (by decide : (42 : Nat) = chr '*')]
    rfl
  · rw [if_neg (by decide : ¬((47 : Nat) = chr '=')),
      if_neg (by decide : ¬((47 : Nat) = chr '!')),
      if_neg (by decide : ¬((47 : Nat) = chr '+')),
      if_neg (by decide : ¬((47 : Nat) = chr '-')),
      if_neg (by decide : ¬((47 : Nat) = chr '*')),
      if_pos (by decide : (47 : Nat) = chr '/')]
    rfl
  · rw [if_neg (by decide : ¬((60 : Nat) = chr '=')),
      if_neg (by decide : ¬((60 : Nat) = chr '!')),
      if_neg (by decide : ¬((60 : Nat) = chr '+')),
      if_neg (by decide : ¬((60 : Nat) = chr '-')),
      if_neg (by decide : ¬((60 : Nat) = chr '*')),
      if_neg (by decide : ¬((60 : Nat) = chr '/')),
      if_pos (by decide : (60 : Nat) = chr '<')]
    rfl
  · rw [if_neg (by decide : ¬((62 : Nat) = chr '=')),
      if_neg (by decide : ¬((62 : Nat) = chr '!')),
      if_neg (by decide : ¬((62 : Nat) = chr '+')),
      if_neg (by decide : ¬((62 : Nat) = chr '-')),
      if_neg (by decide : ¬((62 : Nat) = chr '*')),
      if_neg (by decide : ¬((62 : Nat) = chr '/')),
      if_neg (by decide : ¬((62 : Nat) = chr '<')),
      if_pos (by decide : (62 : Nat) = chr '>')]
    rfl

/-- `nextTokenBody` on `!` not followed by `=`. -/
theorem body_bang (l : Lexer) (rest : List Nat) (hv : l.valid)
    (hd : List.drop l.position l.input = 33 :: rest)
    (hpk : rest.headD 0 ≠ 61) :
    nextTokenBody l = (⟨.BANG, [33]⟩, l.readChar) := by
  have hch := (suffix_cons l 33 rest hv hd).1
  have hpe : ¬ (l.peekChar = chr '=') := by
    rw [suffix_peek l 33 rest hv hd, show chr '=' = 61 from by decide]
    exact hpk
  unfold nextTokenBody
  rw [hch, if_neg (by decide : ¬((33 : Nat) = chr '=')),
    if_pos (by decide : (33 : Nat) = chr '!'), if_neg hpe]
  rfl

/-- `nextTokenBody` on `==`. -/
theorem body_eq2 (l : Lexer) (rest : List Nat) (hv : l.valid)
    (hd : List.drop l.position l.input = 61 :: 61 :: rest) :
    nextTokenBody l = (⟨.EQ, str "=="⟩, l.readChar.readChar) := by
  have hch := (suffix_cons l 61 (61 :: rest) hv hd).1
  have hpe : l.peekChar = chr '=' := by
    rw [suffix_peek l 61 (61 :: rest) hv hd, List.headD_cons]
    decide
  unfold nextTokenBody
  rw [hch, if_pos (by decide : (61 : Nat) = chr '='), if_pos hpe]

/-- `nextTokenBody` on `!=`. -/
theorem body_neq2 (l : Lexer) (rest : List Nat) (hv : l.valid)
    (hd : List.drop l.position l.input = 33 :: 61 :: rest) :
    nextTokenBody l = (⟨.NOT_EQ, str "!="⟩, l.readChar.readChar) := by
  have hch := (suffix_cons l 33 (61 :: rest) hv hd).1
  have hpe : l.peekChar = chr '=' := by
    rw [suffix_peek l 33 (61 :: rest) hv hd, List.headD_cons]
    decide
  unfold nextTokenBody
  rw [hch, if_neg (by decide : ¬((33 : Nat) = chr '=')),
    if_pos (by decide : (33 : Nat) = chr '!'), if_pos hpe]

/-- `nextTokenBody` on a letter. -/
theorem nextTokenBody_letter (l : Lexer) (hlet : isLetter l.ch = true) :
    nextTokenBody l
      = (⟨lookupIdent (l.readIdentifier).1, (l.readIdentifier).1⟩,
         (l.readIdentifier).2) := by
  have hns := isLetter_not_special l.ch hlet
  unfold nextTokenBody
  rw [if_neg (by rw [show chr '=' = 61 from by decide]; exact hns.1),
    if_neg (by rw [show chr '!' = 33 from by decide]; exact hns.2.1),
    if_neg (by rw [show chr '+' = 43 from by decide]; exact hns.2.2.1),
    if_neg (by rw [show chr '-' = 45 from by decide]; exact hns.2.2.2.1),
    if_neg (by rw [show chr '*' = 42 from by decide]; exact hns.2.2.2.2.1),
    if_neg (by rw [show chr '/' = 47 from by decide]; exact hns.2.2.2.2.2.1),
    if_neg (by rw [show chr '<' = 60 from by decide]; exact hns.2.2.2.2.2.2.1),
    if_neg (by rw [show chr '>' = 62 from by decide]; exact hns.2.2.2.2.2.2.2.1),
    if_neg (by rw [show chr '(' = 40 from by decide]; exact hns.2.2.2.2.2.2.2.2.1),
    if_neg (by rw [show chr ')' = 41 from by decide]; exact hns.2.2.2.2.2.2.2.2.2.1),
    if_neg hns.2.2.2.2.2.2.2.2.2.2.1,
    if_neg hns.2.2.2.2.2.2.2.2.2.2.2.1,
    if_neg (by rw [show chr ',' = 44 from by decide]; exact hns.2.2.2.2.2.2.2.2.2.2.2.2.1),
    if_neg (by rw [show chr ';' = 59 from by decide]; exact hns.2.2.2.2.2.2.2.2.2.2.2.2.2.1),
    if_neg hns.2.2.2.2.2.2.2.2.2.2.2.2.2.2.1,
    if_pos hlet]

/-- `nextTokenBody` on a digit. -/
theorem nextTokenBody_digit (l : Lexer) (hdig : isDigit l.ch = true) :
    nextTokenBody l = (⟨.INT, (l.readNumber).1⟩, (l.readNumber).2) := by
  have hns := isDigit_not_special l.ch hdig
  unfold nextTokenBody
  rw [if_neg (by rw [show chr '=' = 61 from by decide]; exact hns.1),
    if_neg (by rw [show chr '!' = 33 from by decide]; exact hns.2.1),
    if_neg (by rw [show chr '+' = 43 from by decide]; exact hns.2.2.1),
    if_neg (by rw [show chr '-' = 45 from by decide]; exact hns.2.2.2.1),
    if_neg (by rw [show chr '*' = 42 from by decide]; exact hns.2.2.2.2.1),
    if_neg (by rw [show chr '/' = 47 from by decide]; exact hns.2.2.2.2.2.1),
    if_neg (by rw [show chr '<' = 60 from by decide]; exact hns.2.2.2.2.2.2.1),
    if_neg (by rw [show chr '>' = 62 from by decide]; exact hns.2.2.2.2.2.2.2.1),
    if_neg (by rw [show chr '(' = 40 from by decide]; exact hns.2.2.2.2.2.2.2.2.1),
    if_neg (by rw [show chr ')' = 41 from by decide]; exact hns.2.2.2.2.2.2.2.2.2.1),
    if_neg hns.2.2.2.2.2.2.2.2.2.2.1,
    if_neg hns.2.2.2.2.2.2.2.2.2.2.2.1,
    if_neg (by rw [show chr ',' = 44 from by decide]; exact hns.2.2.2.2.2.2.2.2.2.2.2.2.1),
    if_neg (by rw [show chr ';' = 59 from by decide]; exact hns.2.2.2.2.2.2.2.2.2.2.2.2.2.1),
    if_neg hns.2.2.2.2.2.2.2.2.2.2.2.2.2.2.1,
    if_neg (by rw [hns.2.2.2.2.2.2.2.2.2.2.2.2.2.2.2.1]; decide),
    if_pos hdig]

/-- The character-run loop on a state whose remaining input starts with a
maximal run `v` of accepted bytes advances exactly past `v`. -/
theorem readWhile_run (p : Nat → Bool) (hp0 : p 0 = false)
    (l : Lexer) (v rest : List Nat) (hv : l.valid)
    (hd : List.drop l.position l.input = v ++ rest)
    (hall : ∀ c ∈ v, p c = true)
    (hstop : p (rest.headD 0) = false) :
    (readWhileFuel p (l.input.length + 1) l).valid ∧
    (readWhileFuel p (l.input.length + 1) l).input = l.input ∧
    (readWhileFuel p (l.input.length + 1) l).position = l.position + v.length := by
  have hs := readWhileFuel_spec p hp0 (l.input.length + 1) l hv (by omega)
  refine ⟨hs.1, hs.2.1, ?_⟩
  have hlen : l.input.length - l.position = v.length + rest.length := by
    have h := congrArg List.length hd
    simp only [List.length_drop, List.length_append] at h
    exact h
  have hbytes := suffix_bytes l.input l.position v rest hd
  set q := (readWhileFuel p (l.input.length + 1) l).position with hq
  have hge : l.position ≤ q := hs.2.2.1
  rcases Nat.lt_trichotomy q (l.position + v.length) with hlt | heq | hgt
  · exfalso
    have hvnil : v ≠ [] := by
      intro hnil
      rw [hnil] at hlt
      simp only [List.length_nil] at hlt
      omega
    have hvpos : 1 ≤ v.length := List.length_pos.mpr hvnil
    have hqlen : q < l.input.length := by omega
    have hchq : (readWhileFuel p (l.input.length + 1) l).ch = l.input.getD q 0 := by
      have h2 := hs.1.2
      rw [hs.2.1, ← hq] at h2
      rw [h2, if_pos hqlen]
    have hvi := hbytes.1 (q - l.position) (by omega)
    rw [show l.position + (q - l.position) = q from by omega] at hvi
    have hmem : v.getD (q - l.position) 0 ∈ v := by
      have hql : q - l.position < v.length := by omega
      rw [List.getD_eq_getElem v 0 hql]
      exact List.getElem_mem hql
    have hptrue := hall _ hmem
    rw [← hvi, ← hchq, hs.2.2.2.1] at hptrue
    cases hptrue
  · exact heq
  · exfalso
    have hrange := hs.2.2.2.2.1 (l.position + v.length) (by omega) hgt
    rw [hbytes.2, hstop] at hrange
    cases hrange

/-- `skipWhitespace` on a state whose remaining input is an optional
single space followed by a non-whitespace byte skips exactly that
prefix. -/
theorem skip_to (l : Lexer) (pre s2 : List Nat) (hv : l.valid)
    (hpre : pre = [] ∨ pre = [32])
    (hd : List.drop l.position l.input = pre ++ s2)
    (hnw : isWhitespaceByte (s2.headD 0) = false) :
    (l.skipWhitespace).valid ∧ (l.skipWhitespace).input = l.input ∧
    (l.skipWhitespace).position = l.position + pre.length ∧
    List.drop (l.skipWhitespace).position l.input = s2 := by
  rcases hpre with rfl | rfl
  · simp only [List.nil_append] at hd
    have hch : l.ch = s2.headD 0 := by
      rw [suffix_ch l hv, hd]
    have hid := skipWhitespace_id l (by rw [hch]; exact hnw)
    rw [hid]
    exact ⟨hv, rfl, by simp, hd⟩
  · simp only [List.cons_append, List.nil_append] at hd
    obtain ⟨hch, hlt, hd2⟩ := suffix_cons l 32 s2 hv hd
    rw [readChar_input, readChar_position_valid l hv] at hd2
    have hch2 : (l.readChar).ch = s2.headD 0 := by
      rw [suffix_ch l.readChar (readChar_valid l), readChar_input,
        readChar_position_valid l hv, hd2]
    obtain ⟨m, hm⟩ : ∃ m, l.input.length = m + 1 := ⟨l.input.length - 1, by omega⟩
    have hstep : l.skipWhitespace = l.readChar := by
      show skipWhitespaceFuel (l.input.length + 1) l = l.readChar
      have h1 : skipWhitespaceFuel (l.input.length + 1) l
          = skipWhitespaceFuel l.input.length l.readChar := by
        show (if isWhitespaceByte l.ch then skipWhitespaceFuel l.input.length l.readChar
              else l) = _
        rw [if_pos (by rw [hch]; decide)]
      rw [h1, hm]
      show (if isWhitespaceByte l.readChar.ch then skipWhitespaceFuel m l.readChar.readChar
            else l.readChar) = _
      rw [if_neg (by rw [hch2, hnw]; decide)]
    rw [hstep]
    refine ⟨readChar_valid l, readChar_input l, ?_, ?_⟩
    · rw [readChar_position_valid l hv]
      simp
    · rw [readChar_position_valid l hv]
      exact hd2

/-! ### `NextToken`-level step lemmas -/

/-- A single-byte punctuator token, with an optional leading space. -/
theorem tok_punct (l : Lexer) (pre : List Nat) (c : Nat) (rest : List Nat)
    (hv : l.valid) (hpre : pre = [] ∨ pre = [32])
    (hc : c = 40 ∨ c = 41 ∨ c = 43 ∨ c = 45 ∨ c = 42 ∨ c = 47 ∨ c = 60 ∨ c = 62)
    (hd : List.drop l.position l.input = pre ++ (c :: rest)) :
    (l.nextToken).1 = ⟨punctType c, [c]⟩ ∧ (l.nextToken).2.valid ∧
    (l.nextToken).2.input = l.input ∧
    (l.nextToken).2.position = l.position + pre.length + 1 ∧
    List.drop (l.nextToken).2.position (l.nextToken).2.input = rest := by
  have hnw : isWhitespaceByte ((c :: rest).headD 0) = false := by
    rw [List.headD_cons]
    rcases hc with rfl | rfl | rfl | rfl | rfl | rfl | rfl | rfl <;> decide
  obtain ⟨hsv, hsi, hsp, hsd⟩ := skip_to l pre (c :: rest) hv hpre hd hnw
  have hsd' : List.drop (l.skipWhitespace).position (l.skipWhitespace).input
      = c :: rest := by rw [hsi]; exact hsd
  have hb := body_punct l.skipWhitespace c rest hsv hsd' hc
  have hnt : l.nextToken = (⟨punctType c, [c]⟩, (l.skipWhitespace).readChar) := by
    show nextTokenBody l.skipWhitespace = _
    rw [hb]
  obtain ⟨_, _, hrd⟩ := suffix_cons l.skipWhitespace c rest hsv hsd'
  rw [hnt]
  refine ⟨rfl, readChar_valid _, ?_, ?_, ?_⟩
  · show (l.skipWhitespace).readChar.input = l.input
    rw [readChar_input, hsi]
  · show (l.skipWhitespace).readChar.position = _
    rw [readChar_position_valid _ hsv, hsp]
  · show List.drop (l.skipWhitespace).readChar.position (l.skipWhitespace).readChar.input
        = rest
    exact hrd

/-- A `!` token (not followed by `=`), with an optional leading space. -/
theorem tok_bang (l : Lexer) (pre : List Nat) (rest : List Nat)
    (hv : l.valid) (hpre : pre = [] ∨ pre = [32])
    (hpk : rest.headD 0 ≠ 61)
    (hd : List.drop l.position l.input = pre ++ (33 :: rest)) :
    (l.nextToken).1 = ⟨.BANG, [33]⟩ ∧ (l.nextToken).2.valid ∧
    (l.nextToken).2.input = l.input ∧
    (l.nextToken).2.position = l.position + pre.length + 1 ∧
    List.drop (l.nextToken).2.position (l.nextToken).2.input = rest := by
  obtain ⟨hsv, hsi, hsp, hsd⟩ := skip_to l pre (33 :: rest) hv hpre hd
    (by rw [List.headD_cons]; decide)
  have hsd' : List.drop (l.skipWhitespace).position (l.skipWhitespace).input
      = 33 :: rest := by rw [hsi]; exact hsd
  have hb := body_bang l.skipWhitespace rest hsv hsd' hpk
  have hnt : l.nextToken = (⟨.BANG, [33]⟩, (l.skipWhitespace).readChar) := by
    show nextTokenBody l.skipWhitespace = _
    rw [hb]
  obtain ⟨_, _, hrd⟩ := suffix_cons l.skipWhitespace 33 rest hsv hsd'
  rw [hnt]
  refine ⟨rfl, readChar_valid _, ?_, ?_, ?_⟩
  · show (l.skipWhitespace).readChar.input = l.input
    rw [readChar_input, hsi]
  · show (l.skipWhitespace).readChar.position = _
    rw [readChar_position_valid _ hsv, hsp]
  · exact hrd

/-- A two-byte operator token (`==` or `!=`), with an optional leading
space. -/
theorem tok_op2 (l : Lexer) (pre : List Nat) (c : Nat) (rest : List Nat)
    (hv : l.valid) (hpre : pre = [] ∨ pre = [32])
    (hc : c = 61 ∨ c = 33)
    (hd : List.drop l.position l.input = pre ++ (c :: 61 :: rest)) :
    (l.nextToken).1 = ⟨if c = 61 then .EQ else .NOT_EQ, [c, 61]⟩ ∧
    (l.nextToken).2.valid ∧ (l.nextToken).2.input = l.input ∧
    (l.nextToken).2.position = l.position + pre.length + 2 ∧
    List.drop (l.nextToken).2.position (l.nextToken).2.input = rest := by
  have hnw : isWhitespaceByte ((c :: 61 :: rest).headD 0) = false := by
    rw [List.headD_cons]
    rcases hc with rfl | rfl <;> decide
  obtain ⟨hsv, hsi, hsp, hsd⟩ := skip_to l pre (c :: 61 :: rest) hv hpre hd hnw
  have hsd' : List.drop (l.skipWhitespace).position (l.skipWhitespace).input
      = c :: 61 :: rest := by rw [hsi]; exact hsd
  obtain ⟨_, _, hrd1⟩ := suffix_cons l.skipWhitespace c (61 :: rest) hsv hsd'
  obtain ⟨_, _, hrd2⟩ :=
    suffix_cons (l.skipWhitespace).readChar 61 rest (readChar_valid _) hrd1
  have hfin : ∀ t : Token,
      l.nextToken = (t, (l.skipWhitespace).readChar.readChar) →
      (l.nextToken).1 = t ∧ (l.nextToken).2.valid ∧
      (l.nextToken).2.input = l.input ∧
      (l.nextToken).2.position = l.position + pre.length + 2 ∧
      List.drop (l.nextToken).2.position (l.nextToken).2.input = rest := by
    intro t hnt
    rw [hnt]
    refine ⟨rfl, readChar_valid _, ?_, ?_, ?_⟩
    · show (l.skipWhitespace).readChar.readChar.input = l.input
      rw [readChar_input, readChar_input, hsi]
    · show (l.skipWhitespace).readChar.readChar.position = _
      rw [readChar_position_valid _ (readChar_valid _),
        readChar_position_valid _ hsv, hsp]
    · exact hrd2
  rcases hc with rfl | rfl
  · rw [if_pos rfl]
    exact hfin ⟨.EQ, [61, 61]⟩ (by
      show nextTokenBody l.skipWhitespace = _
      rw [body_eq2 l.skipWhitespace rest hsv hsd']
      rfl)
  · rw [if_neg (by decide)]
    exact hfin ⟨.NOT_EQ, [33, 61]⟩ (by
      show nextTokenBody l.skipWhitespace = _
      rw [body_neq2 l.skipWhitespace rest hsv hsd']
      rfl)

/-- A letter-run token (identifier or keyword), with an optional leading
space. -/
theorem tok_letters (l : Lexer) (pre v rest : List Nat)
    (hv : l.valid) (hpre : pre = [] ∨ pre = [32])
    (hne : v ≠ []) (hall : ∀ c ∈ v, isLetter c = true)
    (hstop : isLetter (rest.headD 0) = false)
    (hd : List.drop l.position l.input = pre ++ (v ++ rest)) :
    (l.nextToken).1 = ⟨lookupIdent v, v⟩ ∧ (l.nextToken).2.valid ∧
    (l.nextToken).2.input = l.input ∧
    (l.nextToken).2.position = l.position + pre.length + v.length ∧
    List.drop (l.nextToken).2.position (l.nextToken).2.input = rest := by
  obtain ⟨c, v', rfl⟩ : ∃ c v', v = c :: v' := by
    cases v with
    | nil => exact absurd rfl hne
    | cons c v' => exact ⟨c, v', rfl⟩
  have hcl : isLetter c = true := hall c (List.mem_cons_self c v')
  have hnw : isWhitespaceByte ((c :: v' ++ rest).headD 0) = false := by
    rw [List.cons_append, List.headD_cons]
    exact (isLetter_not_special c hcl).2.2.2.2.2.2.2.2.2.2.2.2.2.2.2
  obtain ⟨hsv, hsi, hsp, hsd⟩ := skip_to l pre ((c :: v') ++ rest) hv hpre hd hnw
  have hsd' : List.drop (l.skipWhitespace).position (l.skipWhitespace).input
      = (c :: v') ++ rest := by rw [hsi]; exact hsd
  have hch : (l.skipWhitespace).ch = c := by
    rw [List.cons_append] at hsd'
    exact (suffix_cons l.skipWhitespace c (v' ++ rest) hsv hsd').1
  have hrun := readWhile_run isLetter (by decide) l.skipWhitespace (c :: v') rest
    hsv hsd' hall hstop
  have hlit : ((l.skipWhitespace).readIdentifier).1 = c :: v' := by
    show extract (l.skipWhitespace).input (l.skipWhitespace).position
      (readWhileFuel isLetter ((l.skipWhitespace).input.length + 1)
        l.skipWhitespace).position = _
    rw [hrun.2.2]
    unfold extract
    rw [show (l.skipWhitespace).position + (c :: v').length
        - (l.skipWhitespace).position = (c :: v').length from by omega]
    rw [hsd', List.take_left]
  have hl2v : ((l.skipWhitespace).readIdentifier).2
      = readWhileFuel isLetter ((l.skipWhitespace).input.length + 1)
          l.skipWhitespace := rfl
  have hnt : l.nextToken
      = (⟨lookupIdent ((l.skipWhitespace).readIdentifier).1,
          ((l.skipWhitespace).readIdentifier).1⟩,
         ((l.skipWhitespace).readIdentifier).2) := by
    show nextTokenBody l.skipWhitespace = _
    exact nextTokenBody_letter l.skipWhitespace (by rw [hch]; exact hcl)
  rw [hnt]
  refine ⟨by rw [hlit], ?_, ?_, ?_, ?_⟩
  · rw [hl2v]
    exact hrun.1
  · rw [hl2v, hrun.2.1, hsi]
  · rw [hl2v, hrun.2.2, hsp]
  · rw [hl2v, hrun.2.2, hrun.2.1, hsi, hsp]
    have hdd : List.drop (l.position + pre.length + (c :: v').length) l.input
        = List.drop (c :: v').length (List.drop (l.position + pre.length) l.input) := by
      rw [List.drop_drop]
    rw [hdd]
    rw [show List.drop (l.position + pre.length) l.input
        = (c :: v') ++ rest from by rw [← hsp, ← hsi, hsd']]
    rw [List.drop_left]

/-- A digit-run token, with an optional leading space. -/
theorem tok_digits (l : Lexer) (pre v rest : List Nat)
    (hv : l.valid) (hpre : pre = [] ∨ pre = [32])
    (hne : v ≠ []) (hall : ∀ c ∈ v, isDigit c = true)
    (hstop : isDigit (rest.headD 0) = false)
    (hd : List.drop l.position l.input = pre ++ (v ++ rest)) :
    (l.nextToken).1 = ⟨.INT, v⟩ ∧ (l.nextToken).2.valid ∧
    (l.nextToken).2.input = l.input ∧
    (l.nextToken).2.position = l.position + pre.length + v.length ∧
    List.drop (l.nextToken).2.position (l.nextToken).2.input = rest := by
  obtain ⟨c, v', rfl⟩ : ∃ c v', v = c :: v' := by
    cases v with
    | nil => exact absurd rfl hne
    | cons c v' => exact ⟨c, v', rfl⟩
  have hcd : isDigit c = true := hall c (List.mem_cons_self c v')
  have hnw : isWhitespaceByte ((c :: v' ++ rest).headD 0) = false := by
    rw [List.cons_append, List.headD_cons]
    exact (isDigit_not_special c hcd).2.2.2.2.2.2.2.2.2.2.2.2.2.2.2.2
  obtain ⟨hsv, hsi, hsp, hsd⟩ := skip_to l pre ((c :: v') ++ rest) hv hpre hd hnw
  have hsd' : List.drop (l.skipWhitespace).position (l.skipWhitespace).input
      = (c :: v') ++ rest := by rw [hsi]; exact hsd
  have hch : (l.skipWhitespace).ch = c := by
    rw [List.cons_append] at hsd'
    exact (suffix_cons l.skipWhitespace c (v' ++ rest) hsv hsd').1
  have hrun := readWhile_run isDigit (by decide) l.skipWhitespace (c :: v') rest
    hsv hsd' hall hstop
  have hlit : ((l.skipWhitespace).readNumber).1 = c :: v' := by
    show extract (l.skipWhitespace).input (l.skipWhitespace).position
      (readWhileFuel isDigit ((l.skipWhitespace).input.length + 1)
        l.skipWhitespace).position = _
    rw [hrun.2.2]
    unfold extract
    rw [show (l.skipWhitespace).position + (c :: v').length
        - (l.skipWhitespace).position = (c :: v').length from by omega]
    rw [hsd', List.take_left]
  have hl2v : ((l.skipWhitespace).readNumber).2
      = readWhileFuel isDigit ((l.skipWhitespace).input.length + 1)
          l.skipWhitespace := rfl
  have hnt : l.nextToken
      = (⟨.INT, ((l.skipWhitespace).readNumber).1⟩,
         ((l.skipWhitespace).readNumber).2) := by
    show nextTokenBody l.skipWhitespace = _
    exact nextTokenBody_digit l.skipWhitespace (by rw [hch]; exact hcd)
  rw [hnt]
  refine ⟨by rw [hlit], ?_, ?_, ?_, ?_⟩
  · rw [hl2v]
    exact hrun.1
  · rw [hl2v, hrun.2.1, hsi]
  · rw [hl2v, hrun.2.2, hsp]
  · rw [hl2v, hrun.2.2, hrun.2.1, hsi, hsp]
    have hdd : List.drop (l.position + pre.length + (c :: v').length) l.input
        = List.drop (c :: v').length (List.drop (l.position + pre.length) l.input) := by
      rw [List.drop_drop]
    rw [hdd]
    rw [show List.drop (l.position + pre.length) l.input
        = (c :: v') ++ rest from by rw [← hsp, ← hsi, hsd']]
    rw [List.drop_left]

/-! ### Printed fragment forms as byte lists -/

theorem str_lparen : str "(" = [40] := by decide
theorem str_rparen : str ")" = [41] := by decide
theorem str_space : str " " = [32] := by decide
theorem str_bang : str "!" = [33] := by decide
theorem str_dash : str "-" = [45] := by decide
theorem str_plus : str "+" = [43] := by decide
theorem str_star : str "*" = [42] := by decide
theorem str_slash : str "/" = [47] := by decide
theorem str_lt : str "<" = [60] := by decide
theorem str_gt : str ">" = [62] := by decide
theorem str_eqeq : str "==" = [61, 61] := by decide
theorem str_noteq : str "!=" = [33, 61] := by decide

theorem headD_append_ne (xs ys : List Nat) (h : xs ≠ []) :
    (xs ++ ys).headD 0 = xs.headD 0 := by
  cases xs with
  | nil => exact absurd rfl h
  | cons a tl => rfl

/-- The separator condition on what follows a printed fragment form:
nothing, a space, or a closing parenthesis. -/
theorem restOk_not_letter (rest : List Nat)
    (h : rest = [] ∨ rest.headD 0 = 32 ∨ rest.headD 0 = 41) :
    isLetter (rest.headD 0) = false := by
  rcases h with rfl | h | h
  · decide
  · rw [h]; decide
  · rw [h]; decide

theorem restOk_not_digit (rest : List Nat)
    (h : rest = [] ∨ rest.headD 0 = 32 ∨ rest.headD 0 = 41) :
    isDigit (rest.headD 0) = false := by
  rcases h with rfl | h | h
  · decide
  · rw [h]; decide
  · rw [h]; decide

/-- A printed fragment form is nonempty and starts with `(`, a letter, or
a digit. -/
theorem frag_print_head : ∀ (e : Expr), fragExpr e = true →
    ∀ (P : List Nat), exprString e = some P →
    P ≠ [] ∧ (P.headD 0 = 40 ∨ isLetter (P.headD 0) = true ∨
      isDigit (P.headD 0) = true)
  | .identifier t v, hf, P, hP => by
    have hf2 : (v ≠ [] ∧ ∀ c ∈ v, isLetter c = true) ∧ lookupIdent v = .IDENT := by
      simpa [fragExpr, List.all_eq_true] using hf
    have hPv : v = P := by
      have h : some v = some P := hP
      injection h
    subst hPv
    refine ⟨hf2.1.1, Or.inr (Or.inl ?_)⟩
    cases v with
    | nil => exact absurd rfl hf2.1.1
    | cons c v' => exact hf2.1.2 c (List.mem_cons_self c v')
  | .integerLiteral t n, hf, P, hP => by
    have hf2 : (t.literal ≠ [] ∧ ∀ c ∈ t.literal, isDigit c = true) ∧
        (parseIntBase0 t.literal).isSome = true := by
      simpa [fragExpr, List.all_eq_true] using hf
    have hPv : t.literal = P := by
      have h : some t.literal = some P := hP
      injection h
    subst hPv
    refine ⟨hf2.1.1, Or.inr (Or.inr ?_)⟩
    cases hl : t.literal with
    | nil => exact absurd hl hf2.1.1
    | cons c v' =>
      exact hf2.1.2 c (by rw [hl]; exact List.mem_cons_self c v')
  | .booleanLiteral t b, hf, P, hP => by
    have hf2 : t.literal = str "true" ∨ t.literal = str "false" := by
      simpa [fragExpr] using hf
    have hPv : t.literal = P := by
      have h : some t.literal = some P := hP
      injection h
    subst hPv
    rcases hf2 with h | h <;> rw [h]
    · exact ⟨by decide, Or.inr (Or.inl (by decide))⟩
    · exact ⟨by decide, Or.inr (Or.inl (by decide))⟩
  | .prefixExpression t op r, hf, P, hP => by
    cases r with
    | nil => simp [fragExpr, fragOExpr] at hf
    | val r' =>
      rw [exprString_prefix_val] at hP
      cases hrs : exprString r' with
      | none => rw [hrs] at hP; exact Option.noConfusion hP
      | some rs =>
        rw [hrs] at hP
        have hPv : str "(" ++ op ++ rs ++ str ")" = P := by
          injection hP
        subst hPv
        constructor
        · intro hcon
          have := congrArg List.length hcon
          simp only [List.length_append, str_lparen, str_rparen,
            List.length_cons, List.length_nil] at this
          omega
        · exact Or.inl (by rw [str_lparen]; rfl)
  | .infixExpression t lft op r, hf, P, hP => by
    cases lft with
    | nil => simp [fragExpr, fragOExpr] at hf
    | val l' =>
      cases r with
      | nil => simp [fragExpr, fragOExpr] at hf
      | val r' =>
        rw [exprString_infix_vv] at hP
        cases hls : exprString l' with
        | none => rw [hls] at hP; exact Option.noConfusion hP
        | some ls =>
          cases hrs : exprString r' with
          | none => rw [hls, hrs] at hP; exact Option.noConfusion hP
          | some rs =>
            rw [hls, hrs] at hP
            have hPv : str "(" ++ ls ++ str " " ++ op ++ str " " ++ rs ++ str ")"
                = P := by injection hP
            subst hPv
            constructor
            · intro hcon
              have := congrArg List.length hcon
              simp only [List.length_append, str_lparen, str_rparen, str_space,
                List.length_cons, List.length_nil] at this
              omega
            · exact Or.inl (by rw [str_lparen]; rfl)
  | .ifExpression _ _ _ _, hf, P, hP => by simp [fragExpr] at hf
  | .functionLiteral _ _ _, hf, P, hP => by simp [fragExpr] at hf
  | .callExpression _ _ _, hf, P, hP => by simp [fragExpr] at hf

/-- Re-lexing the printed form of a fragment expression produces exactly
its canonical token list, from any valid lexer state whose remaining
input is that form with an optional leading space and a separator-headed
tail (nothing, a space, or `)`). -/
theorem frag_lex : ∀ (e : Expr), fragExpr e = true →
    ∀ (P : List Nat), exprString e = some P →
    ∀ (l : Lexer) (pre rest : List Nat), l.valid →
    (pre = [] ∨ pre = [32]) →
    (rest = [] ∨ rest.headD 0 = 32 ∨ rest.headD 0 = 41) →
    List.drop l.position l.input = pre ++ (P ++ rest) →
    ∃ l', TokSeq l (canonicalToks e) l' ∧ l'.valid ∧ l'.input = l.input ∧
      l'.position = l.position + pre.length + P.length ∧
      List.drop l'.position l.input = rest
  | .identifier t v, hf, P, hP, l, pre, rest, hv, hpre, hrest, hd => by
    have hf2 : (v ≠ [] ∧ ∀ c ∈ v, isLetter c = true) ∧ lookupIdent v = .IDENT := by
      simpa [fragExpr, List.all_eq_true] using hf
    have hPv : v = P := by
      have h : some v = some P := hP
      injection h
    subst hPv
    have ht := tok_letters l pre v rest hv hpre hf2.1.1 hf2.1.2
      (restOk_not_letter rest hrest) hd
    refine ⟨(l.nextToken).2, ⟨?_, rfl⟩, ht.2.1, ht.2.2.1, ht.2.2.2.1, ?_⟩
    · rw [ht.1, hf2.2]
    · have h5 := ht.2.2.2.2
      rwa [ht.2.2.1] at h5
  | .integerLiteral t n, hf, P, hP, l, pre, rest, hv, hpre, hrest, hd => by
    have hf2 : (t.literal ≠ [] ∧ ∀ c ∈ t.literal, isDigit c = true) ∧
        (parseIntBase0 t.literal).isSome = true := by
      simpa [fragExpr, List.all_eq_true] using hf
    have hPv : t.literal = P := by
      have h : some t.literal = some P := hP
      injection h
    subst hPv
    have ht := tok_digits l pre t.literal rest hv hpre hf2.1.1 hf2.1.2
      (restOk_not_digit rest hrest) hd
    refine ⟨(l.nextToken).2, ⟨ht.1, rfl⟩, ht.2.1, ht.2.2.1, ht.2.2.2.1, ?_⟩
    have h5 := ht.2.2.2.2
    rwa [ht.2.2.1] at h5
  | .booleanLiteral t b, hf, P, hP, l, pre, rest, hv, hpre, hrest, hd => by
    have hf2 : t.literal = str "true" ∨ t.literal = str "false" := by
      simpa [fragExpr] using hf
    have hPv : t.literal = P := by
      have h : some t.literal = some P := hP
      injection h
    subst hPv
    have hprops : t.literal ≠ [] ∧ ∀ c ∈ t.literal, isLetter c = true := by
      rcases hf2 with h | h <;> rw [h]
      · exact ⟨by decide, by decide⟩
      · exact ⟨by decide, by decide⟩
    have ht := tok_letters l pre t.literal rest hv hpre hprops.1 hprops.2
      (restOk_not_letter rest hrest) hd
    refine ⟨(l.nextToken).2, ⟨ht.1, rfl⟩, ht.2.1, ht.2.2.1, ht.2.2.2.1, ?_⟩
    have h5 := ht.2.2.2.2
    rwa [ht.2.2.1] at h5
  | .prefixExpression t op r, hf, P, hP, l, pre, rest, hv, hpre, hrest, hd => by
    cases r with
    | nil => simp [fragExpr, fragOExpr] at hf
    | val r' =>
      have hf2 : (op = str "!" ∨ op = str "-") ∧ fragExpr r' = true := by
        simpa [fragExpr, fragOExpr] using hf
      rw [exprString_prefix_val] at hP
      cases hrs : exprString r' with
      | none => rw [hrs] at hP; exact Option.noConfusion hP
      | some rs =>
        rw [hrs] at hP
        have hPv : str "(" ++ op ++ rs ++ str ")" = P := by injection hP
        subst hPv
        have hhead := frag_print_head r' hf2.2 rs hrs
        have hopb : op = [33] ∨ op = [45] := by
          rcases hf2.1 with h | h <;> rw [h] <;> decide
        have hd1 : List.drop l.position l.input
            = pre ++ (40 :: (op ++ (rs ++ (41 :: rest)))) := by
          rw [hd]
          simp [str_lparen, str_rparen, List.append_assoc]
        have ht1 := tok_punct l pre 40 (op ++ (rs ++ (41 :: rest))) hv hpre
          (Or.inl rfl) hd1
        set l1 := (l.nextToken).2 with hl1
        have hstep : (l1.nextToken).1 = ⟨fragOpType op, op⟩ ∧
            (l1.nextToken).2.valid ∧ (l1.nextToken).2.input = l1.input ∧
            (l1.nextToken).2.position = l1.position + op.length ∧
            List.drop (l1.nextToken).2.position (l1.nextToken).2.input
              = rs ++ (41 :: rest) := by
          rcases hopb with rfl | rfl
          · have hpk : (rs ++ (41 :: rest)).headD 0 ≠ 61 := by
              rw [headD_append_ne rs _ hhead.1]
              rcases hhead.2 with h | h | h
              · rw [h]; decide
              · exact (isLetter_not_special _ h).1
              · exact (isDigit_not_special _ h).1
            have hdd : List.drop l1.position l1.input
                = [] ++ (33 :: (rs ++ (41 :: rest))) := by
              simpa using ht1.2.2.2.2
            have h2 := tok_bang l1 [] (rs ++ (41 :: rest)) ht1.2.1 (Or.inl rfl)
              hpk hdd
            refine ⟨?_, h2.2.1, h2.2.2.1, ?_, h2.2.2.2.2⟩
            · rw [h2.1]
              decide
            · rw [h2.2.2.2.1]
              simp
          · have hdd : List.drop l1.position l1.input
                = [] ++ (45 :: (rs ++ (41 :: rest))) := by
              simpa using ht1.2.2.2.2
            have h2 := tok_punct l1 [] 45 (rs ++ (41 :: rest)) ht1.2.1
              (Or.inl rfl) (Or.inr (Or.inr (Or.inr (Or.inl rfl)))) hdd
            refine ⟨?_, h2.2.1, h2.2.2.1, ?_, h2.2.2.2.2⟩
            · rw [h2.1]
              decide
            · rw [h2.2.2.2.1]
              simp
        obtain ⟨l3, hseq3, hv3, hi3, hp3, hdrop3⟩ :=
          frag_lex r' hf2.2 rs hrs (l1.nextToken).2 [] (41 :: rest) hstep.2.1
            (Or.inl rfl) (Or.inr (Or.inr rfl)) (by simpa using hstep.2.2.2.2)
        have hd3 : List.drop l3.position l3.input = [] ++ (41 :: rest) := by
          rw [hi3]
          simpa using hdrop3
        have ht4 := tok_punct l3 [] 41 rest hv3 (Or.inl rfl)
          (Or.inr (Or.inl rfl)) hd3
        refine ⟨(l3.nextToken).2, ?_, ht4.2.1, ?_, ?_, ?_⟩
        · show TokSeq l (⟨.LPAREN, str "("⟩ :: ⟨fragOpType op, op⟩ ::
            (canonicalToksO (.val r') ++ [⟨.RPAREN, str ")"⟩])) (l3.nextToken).2
          refine ⟨?_, ?_, ?_⟩
          · rw [ht1.1]
            decide
          · exact hstep.1
          · exact tokSeq_append (canonicalToks r') [⟨.RPAREN, str ")"⟩]
              (l1.nextToken).2 l3 (l3.nextToken).2 hseq3
              ⟨by rw [ht4.1]; decide, rfl⟩
        · rw [ht4.2.2.1, hi3, hstep.2.2.1, ht1.2.2.1]
        · rw [ht4.2.2.2.1, hp3, hstep.2.2.2.1, ht1.2.2.2.1]
          simp only [List.length_nil, List.length_append, str_lparen, str_rparen,
            List.length_cons]
          omega
        · have h9 := ht4.2.2.2.2
          rw [ht4.2.2.1, hi3, hstep.2.2.1, ht1.2.2.1] at h9
          exact h9
  | .infixExpression t lft op r, hf, P, hP, l, pre, rest, hv, hpre, hrest, hd => by
    cases lft with
    | nil => simp [fragExpr, fragOExpr] at hf
    | val l' =>
      cases r with
      | nil => simp [fragExpr, fragOExpr] at hf
      | val r' =>
        have hf2 : ((((((((op = str "+" ∨ op = str "-") ∨ op = str "*") ∨
            op = str "/") ∨ op = str "<") ∨ op = str ">") ∨ op = str "==") ∨
            op = str "!=") ∧
            fragExpr l' = true) ∧ fragExpr r' = true := by
          simpa [fragExpr, fragOExpr] using hf
        rw [exprString_infix_vv] at hP
        cases hls : exprString l' with
        | none => rw [hls] at hP; exact Option.noConfusion hP
        | some ls =>
          cases hrs : exprString r' with
          | none => rw [hls, hrs] at hP; exact Option.noConfusion hP
          | some rs =>
            rw [hls, hrs] at hP
            have hPv : str "(" ++ ls ++ str " " ++ op ++ str " " ++ rs ++ str ")"
                = P := by injection hP
            subst hPv
            have hopb : op = [43] ∨ op = [45] ∨ op = [42] ∨ op = [47] ∨
                op = [60] ∨ op = [62] ∨ op = [61, 61] ∨ op = [33, 61] := by
              rcases hf2.1.1 with ((((((h | h) | h) | h) | h) | h) | h) | h <;>
                rw [h] <;> decide
            have hd1 : List.drop l.position l.input
                = pre ++ (40 :: (ls ++ (32 :: (op ++ (32 :: (rs ++ (41 :: rest))))))) := by
              rw [hd]
              simp [str_lparen, str_rparen, str_space, List.append_assoc]
            have ht1 := tok_punct l pre 40
              (ls ++ (32 :: (op ++ (32 :: (rs ++ (41 :: rest)))))) hv hpre
              (Or.inl rfl) hd1
            set l1 := (l.nextToken).2 with hl1
            obtain ⟨l2, hseq2, hv2, hi2, hp2, hdrop2⟩ :=
              frag_lex l' hf2.1.2 ls hls l1 []
                (32 :: (op ++ (32 :: (rs ++ (41 :: rest))))) ht1.2.1
                (Or.inl rfl) (Or.inr (Or.inl rfl)) (by simpa using ht1.2.2.2.2)
            have hdrop2' : List.drop l2.position l2.input
                = 32 :: (op ++ (32 :: (rs ++ (41 :: rest)))) := by
              rw [hi2]
              exact hdrop2
            have hstep : (l2.nextToken).1 = ⟨fragOpType op, op⟩ ∧
                (l2.nextToken).2.valid ∧ (l2.nextToken).2.input = l2.input ∧
                (l2.nextToken).2.position = l2.position + 1 + op.length ∧
                List.drop (l2.nextToken).2.position (l2.nextToken).2.input
                  = 32 :: (rs ++ (41 :: rest)) := by
              rcases hopb with rfl | rfl | rfl | rfl | rfl | rfl | rfl | rfl
              · have h2 := tok_punct l2 [32] 43 (32 :: (rs ++ (41 :: rest))) hv2
                  (Or.inr rfl) (Or.inr (Or.inr (Or.inl rfl))) (by rw [hdrop2']; rfl)
                refine ⟨?_, h2.2.1, h2.2.2.1, ?_, h2.2.2.2.2⟩
                · rw [h2.1]
                  decide
                · rw [h2.2.2.2.1]
                  simp
              · have h2 := tok_punct l2 [32] 45 (32 :: (rs ++ (41 :: rest))) hv2
                  (Or.inr rfl) (Or.inr (Or.inr (Or.inr (Or.inl rfl)))) (by rw [hdrop2']; rfl)
                refine ⟨?_, h2.2.1, h2.2.2.1, ?_, h2.2.2.2.2⟩
                · rw [h2.1]
                  decide
                · rw [h2.2.2.2.1]
                  simp
              · have h2 := tok_punct l2 [32] 42 (32 :: (rs ++ (41 :: rest))) hv2
                  (Or.inr rfl) (Or.inr (Or.inr (Or.inr (Or.inr (Or.inl rfl)))))
                  (by rw [hdrop2']; rfl)
                refine ⟨?_, h2.2.1, h2.2.2.1, ?_, h2.2.2.2.2⟩
                · rw [h2.1]
                  decide
                · rw [h2.2.2.2.1]
                  simp
              · have h2 := tok_punct l2 [32] 47 (32 :: (rs ++ (41 :: rest))) hv2
                  (Or.inr rfl)
                  (Or.inr (Or.inr (Or.inr (Or.inr (Or.inr (Or.inl rfl))))))
                  (by rw [hdrop2']; rfl)
                refine ⟨?_, h2.2.1, h2.2.2.1, ?_, h2.2.2.2.2⟩
                · rw [h2.1]
                  decide
                · rw [h2.2.2.2.1]
                  simp
              · have h2 := tok_punct l2 [32] 60 (32 :: (rs ++ (41 :: rest))) hv2
                  (Or.inr rfl)
                  (Or.inr (Or.inr (Or.inr (Or.inr (Or.inr (Or.inr (Or.inl rfl)))))))
                  (by rw [hdrop2']; rfl)
                refine ⟨?_, h2.2.1, h2.2.2.1, ?_, h2.2.2.2.2⟩
                · rw [h2.1]
                  decide
                · rw [h2.2.2.2.1]
                  simp
              · have h2 := tok_punct l2 [32] 62 (32 :: (rs ++ (41 :: rest))) hv2
                  (Or.inr rfl)
                  (Or.inr (Or.inr (Or.inr (Or.inr (Or.inr (Or.inr (Or.inr rfl)))))))
                  (by rw [hdrop2']; rfl)
                refine ⟨?_, h2.2.1, h2.2.2.1, ?_, h2.2.2.2.2⟩
                · rw [h2.1]
                  decide
                · rw [h2.2.2.2.1]
                  simp
              · have h2 := tok_op2 l2 [32] 61 (32 :: (rs ++ (41 :: rest))) hv2
                  (Or.inr rfl) (Or.inl rfl) (by rw [hdrop2']; rfl)
                refine ⟨?_, h2.2.1, h2.2.2.1, ?_, h2.2.2.2.2⟩
                · rw [h2.1]
                  decide
                · rw [h2.2.2.2.1]
                  simp
              · have h2 := tok_op2 l2 [32] 33 (32 :: (rs ++ (41 :: rest))) hv2
                  (Or.inr rfl) (Or.inr rfl) (by rw [hdrop2']; rfl)
                refine ⟨?_, h2.2.1, h2.2.2.1, ?_, h2.2.2.2.2⟩
                · rw [h2.1]
                  decide
                · rw [h2.2.2.2.1]
                  simp
            obtain ⟨l4, hseq4, hv4, hi4, hp4, hdrop4⟩ :=
              frag_lex r' hf2.2 rs hrs (l2.nextToken).2 [32] (41 :: rest)
                hstep.2.1 (Or.inr rfl) (Or.inr (Or.inr rfl))
                (by rw [hstep.2.2.2.2]; rfl)
            have hd5 : List.drop l4.position l4.input = [] ++ (41 :: rest) := by
              rw [hi4]
              simpa using hdrop4
            have ht5 := tok_punct l4 [] 41 rest hv4 (Or.inl rfl)
              (Or.inr (Or.inl rfl)) hd5
            refine ⟨(l4.nextToken).2, ?_, ht5.2.1, ?_, ?_, ?_⟩
            · show TokSeq l (⟨.LPAREN, str "("⟩ ::
                (canonicalToksO (.val l') ++ ⟨fragOpType op, op⟩ ::
                  (canonicalToksO (.val r') ++ [⟨.RPAREN, str ")"⟩])))
                (l4.nextToken).2
              refine ⟨?_, ?_⟩
              · rw [ht1.1]
                decide
              · exact tokSeq_append (canonicalToks l')
                  (⟨fragOpType op, op⟩ ::
                    (canonicalToks r' ++ [⟨.RPAREN, str ")"⟩]))
                  l1 l2 (l4.nextToken).2 hseq2
                  ⟨hstep.1, tokSeq_append (canonicalToks r')
                    [⟨.RPAREN, str ")"⟩] (l2.nextToken).2 l4 (l4.nextToken).2
                    hseq4 ⟨by rw [ht5.1]; decide, rfl⟩⟩
            · rw [ht5.2.2.1, hi4, hstep.2.2.1, hi2, ht1.2.2.1]
            · rw [ht5.2.2.2.1, hp4, hstep.2.2.2.1, hp2, ht1.2.2.2.1]
              simp only [List.length_nil, List.length_cons, List.length_append,
                str_lparen, str_rparen, str_space]
              omega
            · have h9 := ht5.2.2.2.2
              rw [ht5.2.2.1, hi4, hstep.2.2.1, hi2, ht1.2.2.1] at h9
              exact h9
  | .ifExpression _ _ _ _, hf, P, hP, l, pre, rest, hv, hpre, hrest, hd => by
    simp [fragExpr] at hf
  | .functionLiteral _ _ _, hf, P, hP, l, pre, rest, hv, hpre, hrest, hd => by
    simp [fragExpr] at hf
  | .callExpression _ _ _, hf, P, hP, l, pre, rest, hv, hpre, hrest, hd => by
    simp [fragExpr] at hf

/-! ### From token sequences to `tokenize` -/

/-- Along a `TokSeq` from a valid state, the position never decreases,
and validity and the input are preserved. -/
theorem tokSeq_pos_le : ∀ (ts : List Token) (l lf : Lexer), l.valid →
    TokSeq l ts lf → l.position ≤ lf.position ∧ lf.valid ∧ lf.input = l.input
  | [], l, lf, hv, hs => by
    have he : lf = l := hs
    subst he
    exact ⟨le_refl _, hv, rfl⟩
  | t :: ts, l, lf, hv, hs => by
    have hnt := nextToken_spec l hv
    obtain ⟨h1, h2⟩ := hs
    have ih := tokSeq_pos_le ts (l.nextToken).2 lf hnt.1 h2
    refine ⟨?_, ih.2.1, by rw [ih.2.2, hnt.2.1]⟩
    have ha := hnt.2.2.1
    have hb := hnt.2.2.2.1
    omega

/-- `tokenizeFuel` reproduces a complete token sequence that ends exactly
at the end of the input. -/
theorem tokenizeFuel_of_tokSeq : ∀ (ts : List Token) (l lf : Lexer) (n : Nat),
    l.valid → TokSeq l ts lf → lf.position = l.input.length →
    l.input.length + 1 - l.position ≤ n →
    tokenizeFuel n l = ts
  | [], l, lf, n, hv, hs, hp, hn => by
    have he : lf = l := hs
    subst he
    obtain ⟨m, rfl⟩ : ∃ m, n = m + 1 := ⟨n - 1, by omega⟩
    simp only [tokenizeFuel]
    rw [if_pos (by omega)]
  | t :: ts, l, lf, n, hv, hs, hp, hn => by
    obtain ⟨h1, h2⟩ := hs
    have hnt := nextToken_spec l hv
    have hlt : l.position < l.input.length := by
      have hle := (tokSeq_pos_le ts (l.nextToken).2 lf hnt.1 h2).1
      have ha := hnt.2.2.1
      have hb := hnt.2.2.2.1
      omega
    obtain ⟨m, rfl⟩ : ∃ m, n = m + 1 := ⟨n - 1, by omega⟩
    have hrec := tokenizeFuel_of_tokSeq ts (l.nextToken).2 lf m hnt.1 h2
      (by rw [hnt.2.1]; exact hp) (by
        rw [hnt.2.1]
        have ha := hnt.2.2.1
        have hb := hnt.2.2.2.1
        omega)
    simp only [tokenizeFuel]
    rw [if_neg (by omega)]
    show (l.nextToken).1 :: tokenizeFuel m (l.nextToken).2 = t :: ts
    rw [h1, hrec]

/-- Tokenizing the printed form of a fragment expression yields its
canonical token list. -/
theorem tokenize_frag (e : Expr) (hf : fragExpr e = true) (P : List Nat)
    (hP : exprString e = some P) :
    tokenize P = canonicalToks e := by
  obtain ⟨lf, hseq, hvf, hif, hpf, hdropf⟩ :=
    frag_lex e hf P hP (Lexer.new P) [] [] (new_valid P) (Or.inl rfl)
      (Or.inl rfl) (by rw [new_input, new_position]; simp)
  have hpos : lf.position = (Lexer.new P).input.length := by
    rw [new_input, hpf, new_position]
    simp
  have hfuel : (Lexer.new P).input.length + 1 - (Lexer.new P).position
      ≤ P.length + 1 := by
    rw [new_input, new_position]
    omega
  exact tokenizeFuel_of_tokSeq (canonicalToks e) (Lexer.new P) lf (P.length + 1)
    (new_valid P) hseq hpos hfuel

/-! ### Evaluation lemmas for the Pratt core on known token shapes -/

theorem headD_append_tok (xs ys : List Token) (h : xs ≠ []) :
    (xs ++ ys).headD eofToken = xs.headD eofToken := by
  cases xs with
  | nil => exact absurd rfl h
  | cons a tl => rfl

/-- The canonical token list of a fragment expression is nonempty and its
head has a registered prefix parse function. -/
theorem frag_head_prefixFn : ∀ (e : Expr), fragExpr e = true →
    canonicalToks e ≠ [] ∧
    hasPrefixFn ((canonicalToks e).headD eofToken).type = true
  | .identifier t v, _ => ⟨List.cons_ne_nil _ _, rfl⟩
  | .integerLiteral t n, _ => ⟨List.cons_ne_nil _ _, rfl⟩
  | .booleanLiteral t b, hf => by
    have hf2 : t.literal = str "true" ∨ t.literal = str "false" := by
      simpa [fragExpr] using hf
    refine ⟨List.cons_ne_nil _ _, ?_⟩
    show hasPrefixFn (lookupIdent t.literal) = true
    rcases hf2 with h | h <;> rw [h] <;> decide
  | .prefixExpression t op r, hf => by
    cases r with
    | nil => simp [fragExpr, fragOExpr] at hf
    | val r' => exact ⟨List.cons_ne_nil _ _, rfl⟩
  | .infixExpression t lft op r, hf => by
    cases lft with
    | nil => simp [fragExpr, fragOExpr] at hf
    | val l' =>
      cases r with
      | nil => simp [fragExpr, fragOExpr] at hf
      | val r' => exact ⟨List.cons_ne_nil _ _, rfl⟩
  | .ifExpression _ _ _ _, hf => by simp [fragExpr] at hf
  | .functionLiteral _ _ _, hf => by simp [fragExpr] at hf
  | .callExpression _ _ _, hf => by simp [fragExpr] at hf

theorem fragOp_infix_facts (op : List Nat)
    (h : op = [43] ∨ op = [45] ∨ op = [42] ∨ op = [47] ∨
      op = [60] ∨ op = [62] ∨ op = [61, 61] ∨ op = [33, 61]) :
    fragOpType op ≠ .SEMICOLON ∧ hasInfixFn (fragOpType op) = true ∧
    fragOpType op ≠ .LPAREN ∧ 2 ≤ precedenceOf (fragOpType op) := by
  rcases h with rfl | rfl | rfl | rfl | rfl | rfl | rfl | rfl <;>
    exact ⟨by decide, by decide, by decide, by decide⟩

theorem runPrefixFn_lparen (w : Bool) (m : Nat) (s : PState)
    (hcur : s.cur.type = .LPAREN) :
    runPrefixFn w (m + 1) s = parseGroupedExpression w m s := by
  simp only [runPrefixFn]
  rw [hcur]

theorem runPrefixFn_bang (w : Bool) (m : Nat) (s : PState)
    (hcur : s.cur.type = .BANG) :
    runPrefixFn w (m + 1) s = parsePrefixExpression w m s := by
  simp only [runPrefixFn]
  rw [hcur]

theorem runPrefixFn_minus (w : Bool) (m : Nat) (s : PState)
    (hcur : s.cur.type = .MINUS) :
    runPrefixFn w (m + 1) s = parsePrefixExpression w m s := by
  simp only [runPrefixFn]
  rw [hcur]

theorem parseGroupedExpression_eval (w : Bool) (m : Nat) (s : PState)
    (e' : Expr) (s1 : PState)
    (hpe : parseExpression w m LOWEST s.next = some (.val e', s1))
    (hrp : s1.peek.type = .RPAREN) :
    parseGroupedExpression w (m + 1) s = some (.val e', s1.next) := by
  simp only [parseGroupedExpression]
  rw [hpe]
  try dsimp only
  have hep : expectPeek .RPAREN s1 = (true, s1.next) := by
    unfold expectPeek
    rw [if_pos hrp]
  rw [hep]

theorem parsePrefixExpression_eval (w : Bool) (m : Nat) (s : PState)
    (r : OExpr) (s1 : PState)
    (hpe : parseExpression w m PREFIX s.next = some (r, s1)) :
    parsePrefixExpression w (m + 1) s
      = some (.val (.prefixExpression s.cur s.cur.literal r), s1) := by
  simp only [parsePrefixExpression]
  rw [hpe]

theorem parseInfixExpression_eval (w : Bool) (m : Nat) (leftE : OExpr)
    (s : PState) (r : OExpr) (s1 : PState)
    (hpe : parseExpression w m (precedenceOf s.cur.type) s.next = some (r, s1)) :
    parseInfixExpression w (m + 1) leftE s
      = some (.val (.infixExpression s.cur leftE s.cur.literal r), s1) := by
  simp only [parseInfixExpression]
  rw [hpe]

theorem parseExpression_eval (w : Bool) (m prec : Nat) (s : PState)
    (hpf : hasPrefixFn s.cur.type = true) (leftE : OExpr) (s1 : PState)
    (res : Option (OExpr × PState))
    (hrpf : runPrefixFn w m s = some (leftE, s1))
    (hil : infixLoop w m prec leftE s1 = res) :
    parseExpression w (m + 1) prec s = res := by
  simp only [parseExpression]
  rw [if_pos hpf, hrpf]
  try dsimp only
  exact hil

theorem infixLoop_stop (w : Bool) (m prec : Nat) (leftE : OExpr) (s : PState)
    (h : s.peek.type = .SEMICOLON ∨ precedenceOf s.peek.type ≤ prec) :
    infixLoop w (m + 1) prec leftE s = some (leftE, s) := by
  have hnc : ¬ (s.peek.type ≠ .SEMICOLON ∧ prec < precedenceOf s.peek.type) := by
    rcases h with h | h
    · intro hc
      exact hc.1 h
    · intro hc
      exact absurd hc.2 (by omega)
  simp only [infixLoop]
  rw [if_neg hnc]

theorem infixLoop_step (w : Bool) (m prec : Nat) (leftE : OExpr) (s : PState)
    (hne : s.peek.type ≠ .SEMICOLON) (hgt : prec < precedenceOf s.peek.type)
    (hinf : hasInfixFn s.peek.type = true) (hnlp : s.peek.type ≠ .LPAREN)
    (e2 : OExpr) (s2 : PState)
    (hpie : parseInfixExpression w m leftE s.next = some (e2, s2))
    (res : Option (OExpr × PState))
    (hrest : infixLoop w m prec e2 s2 = res) :
    infixLoop w (m + 1) prec leftE s = res := by
  simp only [infixLoop]
  rw [if_pos ⟨hne, hgt⟩, if_pos hinf, if_neg hnlp, hpie]
  try dsimp only
  exact hrest

/-- `parseExpression` on a fragment's canonical tokens, given its prefix
part: the infix loop does not fire when the following token binds no
tighter than the current precedence. -/
theorem pe_of_rpf (e : Expr) (hf : fragExpr e = true) (w : Bool)
    (k prec : Nat) (ts : List Token) (errs : List (List Nat)) (e' : Expr)
    (hrpf : runPrefixFn w k ⟨canonicalToks e ++ ts, errs⟩
      = some (.val e', ⟨lastTok e :: ts, errs⟩))
    (hk : 1 ≤ k)
    (hstop : (⟨lastTok e :: ts, errs⟩ : PState).peek.type = .SEMICOLON ∨
      precedenceOf (⟨lastTok e :: ts, errs⟩ : PState).peek.type ≤ prec) :
    parseExpression w (k + 1) prec ⟨canonicalToks e ++ ts, errs⟩
      = some (.val e', ⟨lastTok e :: ts, errs⟩) := by
  have hh := frag_head_prefixFn e hf
  have hcur : (⟨canonicalToks e ++ ts, errs⟩ : PState).cur
      = (canonicalToks e).headD eofToken := by
    show (canonicalToks e ++ ts).headD eofToken = _
    exact headD_append_tok _ _ hh.1
  have hpf : hasPrefixFn (⟨canonicalToks e ++ ts, errs⟩ : PState).cur.type
      = true := by
    rw [hcur]
    exact hh.2
  obtain ⟨m, rfl⟩ : ∃ m, k = m + 1 := ⟨k - 1, by omega⟩
  exact parseExpression_eval w (m + 1) prec _ hpf _ _ _ hrpf
    (infixLoop_stop w m prec (.val e') _ hstop)

/-- `runPrefixFn` on the canonical tokens of a fragment expression
consumes exactly them (leaving the final token as `curToken`) and returns
an expression printing identically. -/
theorem frag_parse : ∀ (e : Expr), fragExpr e = true →
    ∀ (w : Bool) (n : Nat) (ts : List Token) (errs : List (List Nat)),
    8 * (canonicalToks e).length ≤ n →
    ∃ e', runPrefixFn w n ⟨canonicalToks e ++ ts, errs⟩
        = some (.val e', ⟨lastTok e :: ts, errs⟩) ∧
      exprString e' = exprString e
  | .identifier t v, hf, w, n, ts, errs, hn => by
    have hlen : (canonicalToks (.identifier t v)).length = 1 := rfl
    obtain ⟨k, rfl⟩ : ∃ k, n = k + 1 := ⟨n - 1, by omega⟩
    exact ⟨.identifier ⟨.IDENT, v⟩ v, rfl, rfl⟩
  | .integerLiteral t nv, hf, w, n, ts, errs, hn => by
    have hf2 : (t.literal ≠ [] ∧ ∀ c ∈ t.literal, isDigit c = true) ∧
        (parseIntBase0 t.literal).isSome = true := by
      simpa [fragExpr, List.all_eq_true] using hf
    obtain ⟨v', hv'⟩ := Option.isSome_iff_exists.mp hf2.2
    have hlen : (canonicalToks (.integerLiteral t nv)).length = 1 := rfl
    obtain ⟨k, rfl⟩ : ∃ k, n = k + 1 := ⟨n - 1, by omega⟩
    refine ⟨.integerLiteral ⟨.INT, t.literal⟩ v', ?_, rfl⟩
    show some (parseIntegerLiteral ⟨⟨.INT, t.literal⟩ :: ts, errs⟩) = _
    unfold parseIntegerLiteral
    rw [show (⟨⟨.INT, t.literal⟩ :: ts, errs⟩ : PState).cur.literal
        = t.literal from rfl, hv']
    rfl
  | .booleanLiteral t b, hf, w, n, ts, errs, hn => by
    obtain ⟨tt, tl⟩ := t
    have hf2 : tl = str "true" ∨ tl = str "false" := by
      simpa [fragExpr] using hf
    have hlen : (canonicalToks (.booleanLiteral ⟨tt, tl⟩ b)).length = 1 := rfl
    obtain ⟨k, rfl⟩ : ∃ k, n = k + 1 := ⟨n - 1, by omega⟩
    rcases hf2 with rfl | rfl
    · exact ⟨.booleanLiteral ⟨.TRUE, str "true"⟩ true, rfl, rfl⟩
    · exact ⟨.booleanLiteral ⟨.FALSE, str "false"⟩ false, rfl, rfl⟩
  | .prefixExpression t op r, hf, w, n, ts, errs, hn => by
    cases r with
    | nil => simp [fragExpr, fragOExpr] at hf
    | val r' =>
      have hf2 : (op = str "!" ∨ op = str "-") ∧ fragExpr r' = true := by
        simpa [fragExpr, fragOExpr] using hf
      have hopb : op = [33] ∨ op = [45] := by
        rcases hf2.1 with h | h <;> rw [h] <;> decide
      have hlen : (canonicalToks (.prefixExpression t op (.val r'))).length
          = (canonicalToks r').length + 3 := by
        show (⟨.LPAREN, str "("⟩ :: ⟨fragOpType op, op⟩ ::
          (canonicalToksO (.val r') ++ [⟨.RPAREN, str ")"⟩])).length = _
        simp [canonicalToksO]
      obtain ⟨k1, rfl⟩ : ∃ k, n = k + 1 := ⟨n - 1, by omega⟩
      obtain ⟨k2, rfl⟩ : ∃ k, k1 = k + 1 := ⟨k1 - 1, by omega⟩
      obtain ⟨k3, rfl⟩ : ∃ k, k2 = k + 1 := ⟨k2 - 1, by omega⟩
      obtain ⟨k4, rfl⟩ : ∃ k, k3 = k + 1 := ⟨k3 - 1, by omega⟩
      obtain ⟨k5, rfl⟩ : ∃ k, k4 = k + 1 := ⟨k4 - 1, by omega⟩
      obtain ⟨k6, rfl⟩ : ∃ k, k5 = k + 1 := ⟨k5 - 1, by omega⟩
      obtain ⟨er, hIH, hIHs⟩ := frag_parse r' hf2.2 w k6
        (⟨.RPAREN, str ")"⟩ :: ts) errs (by omega)
      have hpe := pe_of_rpf r' hf2.2 w k6 PREFIX (⟨.RPAREN, str ")"⟩ :: ts)
        errs er hIH (by omega)
        (Or.inr (by show (1 : Nat) ≤ PREFIX; decide))
      rcases hopb with rfl | rfl
      · have hls : canonicalToks (.prefixExpression t [33] (.val r')) ++ ts
            = ⟨.LPAREN, str "("⟩ :: ⟨fragOpType [33], [33]⟩ ::
              (canonicalToks r' ++ (⟨.RPAREN, str ")"⟩ :: ts)) := by
          show (⟨.LPAREN, str "("⟩ :: ⟨fragOpType [33], [33]⟩ ::
            (canonicalToksO (.val r') ++ [⟨.RPAREN, str ")"⟩])) ++ ts = _
          simp [canonicalToksO]
        refine ⟨.prefixExpression ⟨fragOpType [33], [33]⟩ [33] (.val er),
          ?_, ?_⟩
        · rw [hls, runPrefixFn_lparen w _ _ (by rfl)]
          have hppe : parsePrefixExpression w (k6 + 1 + 1)
              ⟨⟨fragOpType [33], [33]⟩ ::
                (canonicalToks r' ++ (⟨.RPAREN, str ")"⟩ :: ts)), errs⟩
              = some (.val (.prefixExpression ⟨fragOpType [33], [33]⟩ [33]
                  (.val er)),
                ⟨lastTok r' :: (⟨.RPAREN, str ")"⟩ :: ts), errs⟩) :=
            parsePrefixExpression_eval w (k6 + 1) _ (.val er) _ hpe
          have hrpf3 : runPrefixFn w (k6 + 1 + 1 + 1)
              ⟨⟨fragOpType [33], [33]⟩ ::
                (canonicalToks r' ++ (⟨.RPAREN, str ")"⟩ :: ts)), errs⟩
              = some (.val (.prefixExpression ⟨fragOpType [33], [33]⟩ [33]
                  (.val er)),
                ⟨lastTok r' :: (⟨.RPAREN, str ")"⟩ :: ts), errs⟩) := by
            rw [runPrefixFn_bang w _ _ (by rfl)]
            exact hppe
          have hpe2 : parseExpression w (k6 + 1 + 1 + 1 + 1) LOWEST
              ⟨⟨fragOpType [33], [33]⟩ ::
                (canonicalToks r' ++ (⟨.RPAREN, str ")"⟩ :: ts)), errs⟩
              = some (.val (.prefixExpression ⟨fragOpType [33], [33]⟩ [33]
                  (.val er)),
                ⟨lastTok r' :: (⟨.RPAREN, str ")"⟩ :: ts), errs⟩) :=
            parseExpression_eval w (k6 + 1 + 1 + 1) LOWEST _ (by rfl) _ _ _ hrpf3
              (infixLoop_stop w (k6 + 1 + 1) LOWEST _ _
                (Or.inr (by show (1 : Nat) ≤ LOWEST; decide)))
          exact parseGroupedExpression_eval w (k6 + 1 + 1 + 1 + 1)
            ⟨⟨.LPAREN, str "("⟩ :: ⟨fragOpType [33], [33]⟩ ::
              (canonicalToks r' ++ (⟨.RPAREN, str ")"⟩ :: ts)), errs⟩
            (.prefixExpression ⟨fragOpType [33], [33]⟩ [33] (.val er))
            ⟨lastTok r' :: (⟨.RPAREN, str ")"⟩ :: ts), errs⟩
            hpe2 (by rfl)
        · rw [exprString_prefix_val, exprString_prefix_val, hIHs]
      · have hls : canonicalToks (.prefixExpression t [45] (.val r')) ++ ts
            = ⟨.LPAREN, str "("⟩ :: ⟨fragOpType [45], [45]⟩ ::
              (canonicalToks r' ++ (⟨.RPAREN, str ")"⟩ :: ts)) := by
          show (⟨.LPAREN, str "("⟩ :: ⟨fragOpType [45], [45]⟩ ::
            (canonicalToksO (.val r') ++ [⟨.RPAREN, str ")"⟩])) ++ ts = _
          simp [canonicalToksO]
        refine ⟨.prefixExpression ⟨fragOpType [45], [45]⟩ [45] (.val er),
          ?_, ?_⟩
        · rw [hls, runPrefixFn_lparen w _ _ (by rfl)]
          have hppe : parsePrefixExpression w (k6 + 1 + 1)
              ⟨⟨fragOpType [45], [45]⟩ ::
                (canonicalToks r' ++ (⟨.RPAREN, str ")"⟩ :: ts)), errs⟩
              = some (.val (.prefixExpression ⟨fragOpType [45], [45]⟩ [45]
                  (.val er)),
                ⟨lastTok r' :: (⟨.RPAREN, str ")"⟩ :: ts), errs⟩) :=
            parsePrefixExpression_eval w (k6 + 1) _ (.val er) _ hpe
          have hrpf3 : runPrefixFn w (k6 + 1 + 1 + 1)
              ⟨⟨fragOpType [45], [45]⟩ ::
                (canonicalToks r' ++ (⟨.RPAREN, str ")"⟩ :: ts)), errs⟩
              = some (.val (.prefixExpression ⟨fragOpType [45], [45]⟩ [45]
                  (.val er)),
                ⟨lastTok r' :: (⟨.RPAREN, str ")"⟩ :: ts), errs⟩) := by
            rw [runPrefixFn_minus w _ _ (by rfl)]
            exact hppe
          have hpe2 : parseExpression w (k6 + 1 + 1 + 1 + 1) LOWEST
              ⟨⟨fragOpType [45], [45]⟩ ::
                (canonicalToks r' ++ (⟨.RPAREN, str ")"⟩ :: ts)), errs⟩
              = some (.val (.prefixExpression ⟨fragOpType [45], [45]⟩ [45]
                  (.val er)),
                ⟨lastTok r' :: (⟨.RPAREN, str ")"⟩ :: ts), errs⟩) :=
            parseExpression_eval w (k6 + 1 + 1 + 1) LOWEST _ (by rfl) _ _ _ hrpf3
              (infixLoop_stop w (k6 + 1 + 1) LOWEST _ _
                (Or.inr (by show (1 : Nat) ≤ LOWEST; decide)))
          exact parseGroupedExpression_eval w (k6 + 1 + 1 + 1 + 1)
            ⟨⟨.LPAREN, str "("⟩ :: ⟨fragOpType [45], [45]⟩ ::
              (canonicalToks r' ++ (⟨.RPAREN, str ")"⟩ :: ts)), errs⟩
            (.prefixExpression ⟨fragOpType [45], [45]⟩ [45] (.val er))
            ⟨lastTok r' :: (⟨.RPAREN, str ")"⟩ :: ts), errs⟩
            hpe2 (by rfl)
        · rw [exprString_prefix_val, exprString_prefix_val, hIHs]
  | .infixExpression t lft op r, hf, w, n, ts, errs, hn => by
    cases lft with
    | nil => simp [fragExpr, fragOExpr] at hf
    | val l' =>
      cases r with
      | nil => simp [fragExpr, fragOExpr] at hf
      | val r' =>
        have hf2 : ((((((((op = str "+" ∨ op = str "-") ∨ op = str "*") ∨
            op = str "/") ∨ op = str "<") ∨ op = str ">") ∨ op = str "==") ∨
            op = str "!=") ∧
            fragExpr l' = true) ∧ fragExpr r' = true := by
          simpa [fragExpr, fragOExpr] using hf
        have hopb : op = [43] ∨ op = [45] ∨ op = [42] ∨ op = [47] ∨
            op = [60] ∨ op = [62] ∨ op = [61, 61] ∨ op = [33, 61] := by
          rcases hf2.1.1 with ((((((h | h) | h) | h) | h) | h) | h) | h <;>
            rw [h] <;> decide
        have hfacts := fragOp_infix_facts op hopb
        have hlen : (canonicalToks (.infixExpression t (.val l') op (.val r'))).length
            = (canonicalToks l').length + (canonicalToks r').length + 3 := by
          show (⟨.LPAREN, str "("⟩ ::
            (canonicalToksO (.val l') ++ ⟨fragOpType op, op⟩ ::
              (canonicalToksO (.val r') ++ [⟨.RPAREN, str ")"⟩]))).length = _
          simp [canonicalToksO]
          omega
        obtain ⟨k1, rfl⟩ : ∃ k, n = k + 1 := ⟨n - 1, by omega⟩
        obtain ⟨k2, rfl⟩ : ∃ k, k1 = k + 1 := ⟨k1 - 1, by omega⟩
        obtain ⟨k3, rfl⟩ : ∃ k, k2 = k + 1 := ⟨k2 - 1, by omega⟩
        obtain ⟨k4, rfl⟩ : ∃ k, k3 = k + 1 := ⟨k3 - 1, by omega⟩
        obtain ⟨k5, rfl⟩ : ∃ k, k4 = k + 1 := ⟨k4 - 1, by omega⟩
        obtain ⟨k6, rfl⟩ : ∃ k, k5 = k + 1 := ⟨k5 - 1, by omega⟩
        obtain ⟨er, hIHr, hIHrs⟩ := frag_parse r' hf2.2 w k6
          (⟨.RPAREN, str ")"⟩ :: ts) errs (by omega)
        have hper := pe_of_rpf r' hf2.2 w k6 (precedenceOf (fragOpType op))
          (⟨.RPAREN, str ")"⟩ :: ts) errs er hIHr (by omega)
          (Or.inr (by
            show (1 : Nat) ≤ precedenceOf (fragOpType op)
            have := hfacts.2.2.2
            omega))
        obtain ⟨el, hIHl, hIHls⟩ := frag_parse l' hf2.1.2 w (k6 + 1 + 1 + 1)
          (⟨fragOpType op, op⟩ ::
            (canonicalToks r' ++ (⟨.RPAREN, str ")"⟩ :: ts))) errs (by omega)
        have hls : canonicalToks (.infixExpression t (.val l') op (.val r')) ++ ts
            = ⟨.LPAREN, str "("⟩ ::
              (canonicalToks l' ++ (⟨fragOpType op, op⟩ ::
                (canonicalToks r' ++ (⟨.RPAREN, str ")"⟩ :: ts)))) := by
          show (⟨.LPAREN, str "("⟩ ::
            (canonicalToksO (.val l') ++ ⟨fragOpType op, op⟩ ::
              (canonicalToksO (.val r') ++ [⟨.RPAREN, str ")"⟩]))) ++ ts = _
          simp [canonicalToksO]
        refine ⟨.infixExpression ⟨fragOpType op, op⟩ (.val el) op (.val er),
          ?_, ?_⟩
        · rw [hls, runPrefixFn_lparen w _ _ (by rfl)]
          have hpie : parseInfixExpression w (k6 + 1 + 1) (.val el)
              ⟨⟨fragOpType op, op⟩ ::
                (canonicalToks r' ++ (⟨.RPAREN, str ")"⟩ :: ts)), errs⟩
              = some (.val (.infixExpression ⟨fragOpType op, op⟩ (.val el) op
                  (.val er)),
                ⟨lastTok r' :: (⟨.RPAREN, str ")"⟩ :: ts), errs⟩) :=
            parseInfixExpression_eval w (k6 + 1) (.val el) _ (.val er) _ hper
          have hil : infixLoop w (k6 + 1 + 1 + 1) LOWEST (.val el)
              ⟨lastTok l' :: (⟨fragOpType op, op⟩ ::
                (canonicalToks r' ++ (⟨.RPAREN, str ")"⟩ :: ts))), errs⟩
              = some (.val (.infixExpression ⟨fragOpType op, op⟩ (.val el) op
                  (.val er)),
                ⟨lastTok r' :: (⟨.RPAREN, str ")"⟩ :: ts), errs⟩) :=
            infixLoop_step w (k6 + 1 + 1) LOWEST (.val el)
              ⟨lastTok l' :: (⟨fragOpType op, op⟩ ::
                (canonicalToks r' ++ (⟨.RPAREN, str ")"⟩ :: ts))), errs⟩
              hfacts.1
              (by
                show (1 : Nat) < precedenceOf (fragOpType op)
                have := hfacts.2.2.2
                omega)
              hfacts.2.1 hfacts.2.2.1 _ _ hpie _
              (infixLoop_stop w (k6 + 1) LOWEST _ _
                (Or.inr (by show (1 : Nat) ≤ LOWEST; decide)))
          have hpe2 : parseExpression w (k6 + 1 + 1 + 1 + 1) LOWEST
              ⟨canonicalToks l' ++ (⟨fragOpType op, op⟩ ::
                (canonicalToks r' ++ (⟨.RPAREN, str ")"⟩ :: ts))), errs⟩
              = some (.val (.infixExpression ⟨fragOpType op, op⟩ (.val el) op
                  (.val er)),
                ⟨lastTok r' :: (⟨.RPAREN, str ")"⟩ :: ts), errs⟩) := by
            have hh := frag_head_prefixFn l' hf2.1.2
            have hpf : hasPrefixFn
                ((⟨canonicalToks l' ++ (⟨fragOpType op, op⟩ ::
                  (canonicalToks r' ++ (⟨.RPAREN, str ")"⟩ :: ts))),
                  errs⟩ : PState)).cur.type = true := by
              have hcur : (⟨canonicalToks l' ++ (⟨fragOpType op, op⟩ ::
                  (canonicalToks r' ++ (⟨.RPAREN, str ")"⟩ :: ts))),
                  errs⟩ : PState).cur
                  = (canonicalToks l').headD eofToken := by
                show (canonicalToks l' ++ _).headD eofToken = _
                exact headD_append_tok _ _ hh.1
              rw [hcur]
              exact hh.2
            exact parseExpression_eval w (k6 + 1 + 1 + 1) LOWEST _ hpf _ _ _
              hIHl hil
          exact parseGroupedExpression_eval w (k6 + 1 + 1 + 1 + 1)
            ⟨⟨.LPAREN, str "("⟩ ::
              (canonicalToks l' ++ (⟨fragOpType op, op⟩ ::
                (canonicalToks r' ++ (⟨.RPAREN, str ")"⟩ :: ts)))), errs⟩
            (.infixExpression ⟨fragOpType op, op⟩ (.val el) op (.val er))
            ⟨lastTok r' :: (⟨.RPAREN, str ")"⟩ :: ts), errs⟩
            hpe2 (by rfl)
        · rw [exprString_infix_vv, exprString_infix_vv, hIHls, hIHrs]
  | .ifExpression _ _ _ _, hf, w, n, ts, errs, hn => by
    simp [fragExpr] at hf
  | .functionLiteral _ _ _, hf, w, n, ts, errs, hn => by
    simp [fragExpr] at hf
  | .callExpression _ _ _, hf, w, n, ts, errs, hn => by
    simp [fragExpr] at hf

/-! ### The driver on a single fragment expression statement -/

/-- The fragment is contained in the well-formed ASTs. -/
theorem frag_wf : ∀ (e : Expr), fragExpr e = true → wfExpr e = true
  | .identifier _ _, _ => rfl
  | .integerLiteral _ _, _ => rfl
  | .booleanLiteral _ _, _ => rfl
  | .prefixExpression t op r, hf => by
    cases r with
    | nil => simp [fragExpr, fragOExpr] at hf
    | val r' =>
      have hf2 : (op = str "!" ∨ op = str "-") ∧ fragExpr r' = true := by
        simpa [fragExpr, fragOExpr] using hf
      show wfOExpr (.val r') = true
      show wfExpr r' = true
      exact frag_wf r' hf2.2
  | .infixExpression t lft op r, hf => by
    cases lft with
    | nil => simp [fragExpr, fragOExpr] at hf
    | val l' =>
      cases r with
      | nil => simp [fragExpr, fragOExpr] at hf
      | val r' =>
        have hf2 : ((((((((op = str "+" ∨ op = str "-") ∨ op = str "*") ∨
            op = str "/") ∨ op = str "<") ∨ op = str ">") ∨ op = str "==") ∨
            op = str "!=") ∧
            fragExpr l' = true) ∧ fragExpr r' = true := by
          simpa [fragExpr, fragOExpr] using hf
        show (wfOExpr (.val l') && wfOExpr (.val r')) = true
        have h1 : wfOExpr (.val l') = true := frag_wf l' hf2.1.2
        have h2 : wfOExpr (.val r') = true := frag_wf r' hf2.2
        rw [h1, h2]
        rfl
  | .ifExpression _ _ _ _, hf => by simp [fragExpr] at hf
  | .functionLiteral _ _ _, hf => by simp [fragExpr] at hf
  | .callExpression _ _ _, hf => by simp [fragExpr] at hf

/-- The head of a fragment's canonical token list is one of the
expression-starting kinds. -/
theorem frag_head_types : ∀ (e : Expr), fragExpr e = true →
    ((canonicalToks e).headD eofToken).type = .IDENT ∨
    ((canonicalToks e).headD eofToken).type = .INT ∨
    ((canonicalToks e).headD eofToken).type = .TRUE ∨
    ((canonicalToks e).headD eofToken).type = .FALSE ∨
    ((canonicalToks e).headD eofToken).type = .LPAREN
  | .identifier _ _, _ => Or.inl rfl
  | .integerLiteral _ _, _ => Or.inr (Or.inl rfl)
  | .booleanLiteral t b, hf => by
    have hf2 : t.literal = str "true" ∨ t.literal = str "false" := by
      simpa [fragExpr] using hf
    rcases hf2 with h | h
    · refine Or.inr (Or.inr (Or.inl ?_))
      show lookupIdent t.literal = .TRUE
      rw [h]
      decide
    · refine Or.inr (Or.inr (Or.inr (Or.inl ?_)))
      show lookupIdent t.literal = .FALSE
      rw [h]
      decide
  | .prefixExpression t op r, hf => by
    cases r with
    | nil => simp [fragExpr, fragOExpr] at hf
    | val r' => exact Or.inr (Or.inr (Or.inr (Or.inr rfl)))
  | .infixExpression t lft op r, hf => by
    cases lft with
    | nil => simp [fragExpr, fragOExpr] at hf
    | val l' =>
      cases r with
      | nil => simp [fragExpr, fragOExpr] at hf
      | val r' => exact Or.inr (Or.inr (Or.inr (Or.inr rfl)))
  | .ifExpression _ _ _ _, hf => by simp [fragExpr] at hf
  | .functionLiteral _ _ _, hf => by simp [fragExpr] at hf
  | .callExpression _ _ _, hf => by simp [fragExpr] at hf

theorem parseStatement_other (w : Bool) (m : Nat) (s : PState)
    (h : s.cur.type = .IDENT ∨ s.cur.type = .INT ∨ s.cur.type = .TRUE ∨
      s.cur.type = .FALSE ∨ s.cur.type = .LPAREN) :
    parseStatement w (m + 1) s = parseExpressionStatement w m s := by
  simp only [parseStatement]
  rcases h with h | h | h | h | h <;> rw [h]

theorem parseExpressionStatement_eval (w : Bool) (m : Nat) (s : PState)
    (e2 : Expr) (s1 : PState)
    (hpe : parseExpression w m LOWEST s = some (.val e2, s1))
    (hnsemi : s1.peek.type ≠ .SEMICOLON) :
    parseExpressionStatement w (m + 1) s
      = some (some (.expressionStatement s.cur (.val e2)), s1) := by
  simp only [parseExpressionStatement]
  rw [hpe]
  try dsimp only
  rw [if_neg hnsemi]

theorem programLoop_eof (w : Bool) (m : Nat) (acc : StmtList) (s : PState)
    (h : s.cur.type = .EOF) :
    programLoop w (m + 1) acc s = some (acc, s) := by
  simp only [programLoop]
  rw [if_pos h]

theorem programLoop_step (w : Bool) (m : Nat) (acc : StmtList) (s : PState)
    (st : Stmt) (s1 : PState) (hne : ¬ (s.cur.type = .EOF))
    (hps : parseStatement w m s = some (some st, s1))
    (res : Option (StmtList × PState))
    (hrest : programLoop w m (acc.snoc st) s1.next = res) :
    programLoop w (m + 1) acc s = res := by
  simp only [programLoop]
  rw [if_neg hne, hps]
  try dsimp only
  exact hrest

/-- The round-trip core: re-lexing and re-parsing the printed form of a
fragment expression yields a program printing exactly that form. -/
theorem frag_roundtrip_core (e : Expr) (hf : fragExpr e = true)
    (P : List Nat) (hP : exprString e = some P) :
    progString (ParseProgram P).1 = some P ∧ (ParseProgram P).2 = [] := by
  have htok : tokenize P = canonicalToks e := tokenize_frag e hf P hP
  have hlen1 : 1 ≤ (canonicalToks e).length :=
    List.length_pos.mpr (frag_head_prefixFn e hf).1
  obtain ⟨e2, hrpf, hes⟩ := frag_parse e hf true
    (8 * (canonicalToks e).length + 4) [] [] (by omega)
  have hpe := pe_of_rpf e hf true (8 * (canonicalToks e).length + 4) LOWEST
    [] [] e2 hrpf (by omega) (Or.inr (by show (1 : Nat) ≤ LOWEST; decide))
  have hes2 := parseExpressionStatement_eval true
    (8 * (canonicalToks e).length + 4 + 1) ⟨canonicalToks e ++ [], []⟩ e2
    ⟨lastTok e :: [], []⟩ hpe
    (by show TokenType.EOF ≠ TokenType.SEMICOLON; decide)
  have hcur0 : (⟨canonicalToks e ++ [], []⟩ : PState).cur
      = (canonicalToks e).headD eofToken := by
    show (canonicalToks e ++ []).headD eofToken = _
    exact headD_append_tok _ _ (frag_head_prefixFn e hf).1
  have hdisj : (⟨canonicalToks e ++ [], []⟩ : PState).cur.type = .IDENT ∨
      (⟨canonicalToks e ++ [], []⟩ : PState).cur.type = .INT ∨
      (⟨canonicalToks e ++ [], []⟩ : PState).cur.type = .TRUE ∨
      (⟨canonicalToks e ++ [], []⟩ : PState).cur.type = .FALSE ∨
      (⟨canonicalToks e ++ [], []⟩ : PState).cur.type = .LPAREN := by
    rw [hcur0]
    exact frag_head_types e hf
  have hne : ¬ ((⟨canonicalToks e ++ [], []⟩ : PState).cur.type = .EOF) := by
    intro hq
    rcases hdisj with h | h | h | h | h <;> rw [hq] at h <;> cases h
  have hst : parseStatement true (8 * (canonicalToks e).length + 4 + 1 + 1 + 1)
      ⟨canonicalToks e ++ [], []⟩
      = some (some (.expressionStatement
          (⟨canonicalToks e ++ [], []⟩ : PState).cur (.val e2)),
        ⟨lastTok e :: [], []⟩) := by
    rw [parseStatement_other true (8 * (canonicalToks e).length + 4 + 1 + 1)
      ⟨canonicalToks e ++ [], []⟩ hdisj]
    exact hes2
  have hloop : programLoop true
      (8 * (canonicalToks e).length + 4 + 1 + 1 + 1 + 1)
      .nil ⟨canonicalToks e ++ [], []⟩
      = some (.cons (.expressionStatement
          (⟨canonicalToks e ++ [], []⟩ : PState).cur (.val e2)) .nil,
        ⟨[], []⟩) :=
    programLoop_step true (8 * (canonicalToks e).length + 4 + 1 + 1 + 1) .nil
      ⟨canonicalToks e ++ [], []⟩ _ ⟨lastTok e :: [], []⟩ hne hst _
      (programLoop_eof true (8 * (canonicalToks e).length + 4 + 1 + 1) _
        ⟨[], []⟩ rfl)
  have hstate : (⟨tokenize P, []⟩ : PState) = ⟨canonicalToks e ++ [], []⟩ := by
    rw [htok, List.append_nil]
  have hFuel : parseFuel (tokenize P)
      = 8 * (canonicalToks e).length + 4 + 1 + 1 + 1 + 1 := by
    rw [htok]
    show 8 * (canonicalToks e).length + 8 = _
    omega
  have hPP : ParseProgram P
      = (.cons (.expressionStatement
          (⟨canonicalToks e ++ [], []⟩ : PState).cur (.val e2)) .nil, []) := by
    simp only [ParseProgram, parseWith]
    rw [hstate, hFuel, hloop]
  rw [hPP]
  refine ⟨?_, rfl⟩
  show stmtsString (.cons (.expressionStatement
    (⟨canonicalToks e ++ [], []⟩ : PState).cur (.val e2)) .nil) = some P
  rw [stmtsString_cons, stmtString_expr_v, hes, hP]
  show some (P ++ []) = some P
  rw [List.append_nil]

/-- C1 amended: on the fully-parenthesized prefix/infix fragment the
round-trip is exact — whenever an input parses with no errors to a single
expression statement whose expression lies in the fragment (identifier,
integer and boolean leaves with canonical literals, prefix `!`/`-`, infix
`+ - * / < > == !=`; the printer parenthesizes every compound node), the
printed `Program.String()` re-lexes and re-parses to a program with no
errors whose `String()` is exactly the same byte string.  (For programs
outside this fragment the spec's sentence is refuted by the `if (x) {}`
counterexample.) -/
theorem c1_roundtrip_amended (input : List Nat) (tk : Token) (e : Expr)
    (hp : ParseProgram input
      = (.cons (.expressionStatement tk (.val e)) .nil, []))
    (hf : fragExpr e = true) :
    ∃ P, progString (ParseProgram input).1 = some P ∧
      progString (ParseProgram P).1 = some P ∧ (ParseProgram P).2 = [] := by
  obtain ⟨P, hPs⟩ := Option.isSome_iff_exists.mp (wfExpr_print e (frag_wf e hf))
  refine ⟨P, ?_, (frag_roundtrip_core e hf P hPs).1,
    (frag_roundtrip_core e hf P hPs).2⟩
  rw [hp]
  show stmtsString (.cons (.expressionStatement tk (.val e)) .nil) = some P
  rw [stmtsString_cons, stmtString_expr_v, hPs]
  show some (P ++ []) = some P
  rw [List.append_nil]

/-- Witness for the C1 amended theorem at the concrete input `1 + 2 * 3`:
its error-free parse is the single fragment expression statement
`(1 + (2 * 3))`, so the printed form round-trips exactly. -/
theorem c1_roundtrip_amended_witness :
    ∃ P, progString (ParseProgram (str "1 + 2 * 3")).1 = some P ∧
      progString (ParseProgram P).1 = some P ∧ (ParseProgram P).2 = [] :=
  c1_roundtrip_amended (str "1 + 2 * 3") ⟨.INT, [49]⟩
    (.infixExpression ⟨.PLUS, [43]⟩
      (.val (.integerLiteral ⟨.INT, [49]⟩ 1)) [43]
      (.val (.infixExpression ⟨.ASTERISK, [42]⟩
        (.val (.integerLiteral ⟨.INT, [50]⟩ 2)) [42]
        (.val (.integerLiteral ⟨.INT, [51]⟩ 3)))))
    rfl (by decide)

end Monkey
